import Mathlib

/-!
# SimpleMap: a sorted singly linked map with a one-slot position cache

Shallow embedding of `src/SimpleMap.h`.

* Nodes live in an explicit heap.  A pointer is `Option Nat` (`none` is `NULL`).
  `new` appends a cell to the heap (it always succeeds and never reuses an address),
  `delete` empties the cell, so that reading a deleted node is a fault instead of a
  silent success.
* C++ `int` is modelled by `Int` (no wrap-around; the counters of a list that fits
  in memory stay far below the overflow threshold).
* Every operation that dereferences a pointer returns `Except Fault _`.
* The comparator is a parameter `cmp` of the operations: the source stores it once
  at construction and never assigns it again.
* The destructor callback `freeItem` is an effect: the field `freeItem` records
  whether the member is a callback or `NULL`, and `freed` logs, oldest first, the
  values it was invoked on.
* `empty` is the two-argument constructor.  The one-argument constructor leaves
  `freeItem` unassigned: on the objects it builds the functions that evaluate the
  member are those of `Unassigned`, where that evaluation is a fault.
* `operator==` on keys (used by `remove`) is Lean equality.
* Loops that follow `next` pointers take a fuel argument; the operations pass
  `heap.length + 1`, more than any acyclic chain in that heap needs.
-/

namespace SimpleMap

/-- Ways in which an execution can go wrong.  (`unassignedRead`: the member `freeItem`
is evaluated in an object whose constructor did not assign it.) -/
inductive Fault where
  | nullDeref
  | danglingDeref
  | outOfFuel
  | unassignedRead
  deriving DecidableEq, Repr

/-- The node type `struct SimpleMapNode`. -/
structure SimpleMapNode (T U : Type) where
  key : T
  data : U
  next : Option Nat
  deriving DecidableEq, Repr

/-- The heap of nodes; cell `a` is `none` once the node was deleted. -/
abbrev Heap (T U : Type) := List (Option (SimpleMapNode T U))

variable {T U : Type}

/-- Content of the cell at address `a`, if it is allocated. -/
def Heap.read (hp : Heap T U) (a : Nat) : Option (SimpleMapNode T U) :=
  hp.getD a none

/-- The result of `new SimpleMapNode<T, U>()` followed by the three field writes. -/
def Heap.alloc (hp : Heap T U) (n : SimpleMapNode T U) : Heap T U × Nat :=
  (hp ++ [some n], hp.length)

/-- Pointer dereference `p->...` for reading. -/
def deref (hp : Heap T U) : Option Nat → Except Fault (SimpleMapNode T U)
  | none => .error .nullDeref
  | some a =>
    match hp.read a with
    | some n => .ok n
    | none => .error .danglingDeref

/-- The assignment `p->next = nx`. -/
def setNext (hp : Heap T U) (p : Option Nat) (nx : Option Nat) : Except Fault (Heap T U) :=
  match p with
  | none => .error .nullDeref
  | some a =>
    match hp.read a with
    | some n => .ok (hp.set a (some { n with next := nx }))
    | none => .error .danglingDeref

/-- The statement `delete p`. -/
def delete (hp : Heap T U) : Option Nat → Heap T U
  | none => hp
  | some a => hp.set a none

end SimpleMap

/-- The state of `class SimpleMap`: the member variables, the heap and the callback log. -/
structure SimpleMap (T U : Type) where
  heap : SimpleMap.Heap T U
  freeItem : Bool
  freed : List U
  listSize : Int
  listBegin : Option Nat
  listEnd : Option Nat
  locked : Bool
  lastNodeGot : Option Nat
  lastIndexGot : Int
  isCached : Bool
  deriving DecidableEq, Repr

namespace SimpleMap

variable {T U : Type}

/-- The two-argument constructor `SimpleMap(compare, freeItem)`: an empty container whose
member `freeItem` is the pointer passed, a destructor callback (`true`) or `NULL`
(`false`).  The one-argument constructor, which leaves the member unassigned, is
`Unassigned.empty`. -/
def empty (freeItem : Bool) : SimpleMap T U :=
  { heap := [], freeItem := freeItem, freed := [], listSize := 0, listBegin := none,
    listEnd := none, locked := false, lastNodeGot := none, lastIndexGot := -1,
    isCached := false }

/-- The statement `if (freeItem) freeItem(h->data);`. -/
def freeData (s : SimpleMap T U) (h : Option Nat) : Except Fault (SimpleMap T U) :=
  if s.freeItem then do
    let n ← deref s.heap h
    .ok { s with freed := s.freed ++ [n.data] }
  else .ok s

def clearCache (s : SimpleMap T U) : SimpleMap T U :=
  { s with isCached := false, lastIndexGot := -1, lastNodeGot := none }

def setCache (s : SimpleMap T U) (index : Int) (node : Option Nat) : SimpleMap T U :=
  if node.isSome ∧ index ≥ 0 ∧ index < s.listSize then
    { s with isCached := true, lastIndexGot := index, lastNodeGot := node }
  else clearCache s

def size (s : SimpleMap T U) : Int := s.listSize

def lock (s : SimpleMap T U) : SimpleMap T U := { s with locked := true }

def unlock (s : SimpleMap T U) : SimpleMap T U := { s with locked := false }

def isLocked (s : SimpleMap T U) : Bool := s.locked

/-- The loop of `getNodeIndex`:
`while ((hNode != NULL) && (c < index)) { hNode = hNode->next; c++; }`. -/
def walkTo (hp : Heap T U) (index : Int) :
    Nat → Option Nat → Int → Except Fault (Option Nat × Int)
  | 0, hNode, c =>
    if hNode.isSome ∧ c < index then .error .outOfFuel else .ok (hNode, c)
  | fuel + 1, hNode, c =>
    if hNode.isSome ∧ c < index then do
      let n ← deref hp hNode
      walkTo hp index fuel n.next (c + 1)
    else .ok (hNode, c)

def getNodeIndex (s : SimpleMap T U) (index : Int) :
    Except Fault (Option Nat × SimpleMap T U) :=
  if index < 0 ∨ index ≥ s.listSize then .ok (none, s)
  else do
    let start : Option Nat × Int :=
      if s.isCached ∧ index ≥ s.lastIndexGot then (s.lastNodeGot, s.lastIndexGot)
      else (s.listBegin, 0)
    let (hNode, c) ← walkTo s.heap index (index - start.2).toNat start.1 start.2
    .ok (hNode, if hNode.isSome then setCache s c hNode else s)

/-- The `while (lowerEnd <= upperEnd)` loop of `getNode`. -/
def searchLoop (cmp : T → T → Int) (key : T) :
    Nat → SimpleMap T U → Int → Int → Int → Except Fault (Option Nat × SimpleMap T U)
  | 0, s, lowerEnd, upperEnd, _ =>
    if lowerEnd ≤ upperEnd then .error .outOfFuel else .ok (none, s)
  | fuel + 1, s, lowerEnd, upperEnd, mid =>
    if lowerEnd ≤ upperEnd then do
      let h := s.lastNodeGot
      let hIndex := s.lastIndexGot
      let (m, s1) ← getNodeIndex s mid
      let n ← deref s1.heap m
      let res := cmp key n.key
      if res = 0 then .ok (s1.lastNodeGot, s1)
      else if res < 0 then
        let s2 := setCache s1 hIndex h
        let upperEnd := mid - 1
        searchLoop cmp key fuel s2 lowerEnd upperEnd (Int.tdiv (lowerEnd + upperEnd) 2)
      else
        let lowerEnd := mid + 1
        searchLoop cmp key fuel s1 lowerEnd upperEnd (Int.tdiv (lowerEnd + upperEnd) 2)
    else .ok (none, s)

/-- The function `getNode`, with a bound `depth` on the nesting of its calls through
`getIndex` (at depth `0` the call does not return). -/
def getNodeDepth (cmp : T → T → Int) :
    Nat → SimpleMap T U → T → Except Fault (Option Nat × SimpleMap T U)
  | 0, _, _ => .error .outOfFuel
  | depth + 1, s, key =>
    if s.listSize = -2 ∨ s.listSize = -1 ∨ s.listSize = 0 then .ok (none, s)
    else if s.listSize = 1 then do
      let b ← deref s.heap s.listBegin
      .ok (if cmp key b.key = 0 then s.listBegin else none, s)
    else if s.listSize = 2 then do
      let b ← deref s.heap s.listBegin
      if cmp key b.key = 0 then .ok (s.listBegin, s)
      else do
        let e ← deref s.heap s.listEnd
        .ok (if cmp key e.key = 0 then s.listEnd else none, s)
    else do
      let b ← deref s.heap s.listBegin
      if cmp key b.key < 0 then .ok (none, s)
      else do
        let e ← deref s.heap s.listEnd
        if cmp key e.key > 0 then .ok (none, s)
        else do
          let getIndex := fun (st : SimpleMap T U) (k : T) => do
            let (r, st1) ← getNodeDepth cmp depth st k
            Except.ok (if r.isSome then st1.lastIndexGot else (-1 : Int), st1)
          let lowerEnd : Int := 0
          let upperEnd : Int := s.listSize - 1
          if s.isCached then do
            let n0 ← deref s.heap s.lastNodeGot
            if cmp key n0.key = 0 then .ok (s.lastNodeGot, s)
            else do
              let (lowerEnd, s1) ←
                if cmp key n0.key > 0 then getIndex s n0.key else .ok (lowerEnd, s)
              let n1 ← deref s1.heap s1.lastNodeGot
              let (upperEnd, s2) ←
                if cmp key n1.key < 0 then getIndex s1 n1.key else .ok (upperEnd, s1)
              searchLoop cmp key (upperEnd - lowerEnd + 1).toNat s2 lowerEnd upperEnd
                (Int.tdiv (lowerEnd + upperEnd) 2)
          else
            searchLoop cmp key (upperEnd - lowerEnd + 1).toNat s lowerEnd upperEnd
              (Int.tdiv (lowerEnd + upperEnd) 2)

/-- The function `getNode`.  A call nests at most one further call (through `getIndex`,
on the cached key) unless the comparator is not reflexive, in which case the source
recurses for ever; two levels are allowed and a third is reported as `outOfFuel`. -/
def getNode (cmp : T → T → Int) (s : SimpleMap T U) (key : T) :
    Except Fault (Option Nat × SimpleMap T U) :=
  getNodeDepth cmp 2 s key

def get [Inhabited U] (cmp : T → T → Int) (s : SimpleMap T U) (key : T) :
    Except Fault (U × SimpleMap T U) := do
  let (h, s1) ← getNode cmp s key
  match h with
  | none => .ok (default, s1)
  | some a => do
    let n ← deref s1.heap (some a)
    .ok (n.data, s1)

def has (cmp : T → T → Int) (s : SimpleMap T U) (key : T) :
    Except Fault (Bool × SimpleMap T U) := do
  let (h, s1) ← getNode cmp s key
  .ok (h.isSome, s1)

def getKey [Inhabited T] (s : SimpleMap T U) (i : Int) : Except Fault (T × SimpleMap T U) := do
  let (h, s1) ← getNodeIndex s i
  match h with
  | none => .ok (default, s1)
  | some a => do
    let n ← deref s1.heap (some a)
    .ok (n.key, s1)

def getData [Inhabited U] (s : SimpleMap T U) (i : Int) : Except Fault (U × SimpleMap T U) := do
  let (h, s1) ← getNodeIndex s i
  match h with
  | none => .ok (default, s1)
  | some a => do
    let n ← deref s1.heap (some a)
    .ok (n.data, s1)

def getIndex (cmp : T → T → Int) (s : SimpleMap T U) (key : T) :
    Except Fault (Int × SimpleMap T U) := do
  let (h, s1) ← getNode cmp s key
  .ok (if h.isSome then s1.lastIndexGot else -1, s1)


/-- The scanning loops of `put` and `remove`:
`while (h != NULL && !found) { if (test(h->key)) found = true; else { p = h; h = h->next; c++; } }`
started with `found = false`; the result is `(h, p, found, c)`.  (`remove` has no
counter `c` and ignores it.) -/
def scan (hp : Heap T U) (test : T → Bool) :
    Nat → Option Nat → Option Nat → Int → Except Fault (Option Nat × Option Nat × Bool × Int)
  | 0, h, p, c => if h.isSome then .error .outOfFuel else .ok (h, p, false, c)
  | fuel + 1, h, p, c =>
    if h.isSome then do
      let n ← deref hp h
      if test n.key then .ok (h, p, true, c)
      else scan hp test fuel n.next h (c + 1)
    else .ok (h, p, false, c)

/-- The branch `if (found) { ... }` of `put`: the node `h` is replaced by `newNode`;
`p` is the predecessor of `h` (or `NULL`) and `c` the position of `h`. -/
def putReplace (s : SimpleMap T U) (newNode h p : Option Nat) (c : Int) :
    Except Fault (SimpleMap T U) := do
  let s := { s with listBegin := if h = s.listBegin then newNode else s.listBegin }
  let s := { s with listEnd := if h = s.listEnd then newNode else s.listEnd }
  let hp1 ← if p.isSome then setNext s.heap p newNode else .ok s.heap
  let hn ← deref hp1 h
  let hp2 ← setNext hp1 newNode hn.next
  let s ← freeData { s with heap := hp2 } h
  let s := { s with heap := delete s.heap h }
  .ok (setCache s c newNode)

/-- The branch `else if (!locked) { ... }` of `put`: `newNode` is linked in at its sorted
position. -/
def putInsert (cmp : T → T → Int) (s : SimpleMap T U) (key : T) (newNode : Option Nat) :
    Except Fault (SimpleMap T U) := do
  let s ← show Except Fault (SimpleMap T U) from
    if s.listSize = (0 : Int) then
      .ok { s with listBegin := newNode, listEnd := newNode, lastIndexGot := 0 }
    else do
      let e ← deref s.heap s.listEnd
      if cmp key e.key > 0 then do
        let hp1 ← setNext s.heap s.listEnd newNode
        .ok { s with heap := hp1, listEnd := newNode, lastIndexGot := s.listSize }
      else do
        let b ← deref s.heap s.listBegin
        if cmp key b.key < 0 then do
          let hp1 ← setNext s.heap newNode s.listBegin
          .ok { s with heap := hp1, listBegin := newNode, lastIndexGot := 0 }
        else do
          let (h, p, _, c) ←
            scan s.heap (fun k => decide (cmp k key > 0)) (s.heap.length + 1) s.listBegin none 0
          let hp1 ← setNext s.heap newNode h
          let hp2 ← if p.isSome then setNext hp1 p newNode else .ok hp1
          .ok { s with heap := hp2, lastIndexGot := c }
  let s := { s with listSize := s.listSize + 1 }
  .ok (setCache s s.lastIndexGot newNode)

def put (cmp : T → T → Int) (s : SimpleMap T U) (key : T) (obj : U) :
    Except Fault (SimpleMap T U) := do
  let (hp0, a) := Heap.alloc s.heap { key := key, data := obj, next := none }
  let newNode : Option Nat := some a
  let s := { s with heap := hp0 }
  let (h, p, found, c) ←
    (if s.listSize > (0 : Int) then
      scan s.heap (fun k => decide (cmp k key = 0)) (s.heap.length + 1) s.listBegin none 0
    else .ok (s.listBegin, none, false, 0) :
      Except Fault (Option Nat × Option Nat × Bool × Int))
  if found then putReplace s newNode h p c
  else if !s.locked then putInsert cmp s key newNode
  else .ok s

/-- The branch `if (found) { ... }` of `remove`: the node `h`, whose predecessor is `p`
(or `NULL`), is unlinked and deleted. -/
def removeFound (s : SimpleMap T U) (h p : Option Nat) : Except Fault (SimpleMap T U) := do
  let hn ← deref s.heap h
  let s ← show Except Fault (SimpleMap T U) from
    if p.isSome then do
      let hp1 ← setNext s.heap p hn.next
      .ok { s with heap := hp1 }
    else .ok { s with listBegin := hn.next }
  let s := { s with listEnd := if s.listEnd = h then p else s.listEnd }
  let s := { s with listSize := s.listSize - 1 }
  let s ← freeData s h
  let s := { s with heap := delete s.heap h }
  .ok (clearCache s)

def remove [DecidableEq T] (cmp : T → T → Int) (s : SimpleMap T U) (key : T) :
    Except Fault (SimpleMap T U) :=
  if s.listSize > 0 ∧ !s.locked then do
    let b ← deref s.heap s.listBegin
    if cmp key b.key < 0 then .ok s
    else do
      let e ← deref s.heap s.listEnd
      if cmp key e.key > 0 then .ok s
      else do
        let (h, p, found, _) ←
          scan s.heap (fun k => decide (k = key)) (s.heap.length + 1) s.listBegin none 0
        if found then removeFound s h p else .ok s
  else .ok s

/-- The branch `if (h != NULL) { ... }` of `removeIndex`: the node `h` at position `i`
is unlinked and deleted. -/
def removeIndexFound (s : SimpleMap T U) (i : Int) (h : Option Nat) :
    Except Fault (SimpleMap T U) := do
  let s ← show Except Fault (SimpleMap T U) from
    if h = s.listBegin then do
      let hn ← deref s.heap h
      let s := { s with listBegin := hn.next }
      .ok (setCache s 0 s.listBegin)
    else do
      let (p, s) ← getNodeIndex s (i - 1)
      let s ← show Except Fault (SimpleMap T U) from
        if p.isSome then do
          let hn ← deref s.heap h
          let hp1 ← setNext s.heap p hn.next
          let s := { s with heap := hp1 }
          let hn1 ← deref s.heap h
          .ok (setCache s i hn1.next)
        else .ok s
      if h = s.listEnd then .ok (setCache { s with listEnd := p } (i - 1) p) else .ok s
  let s := { s with listSize := s.listSize - 1 }
  let s ← freeData s h
  .ok { s with heap := delete s.heap h }

def removeIndex (s : SimpleMap T U) (i : Int) : Except Fault (SimpleMap T U) :=
  if s.listSize = -2 ∨ s.listSize = -1 ∨ s.listSize = 0 then .ok (clearCache s)
  else if s.listSize = 1 then do
    let s ← freeData s s.listBegin
    let s := { s with heap := delete s.heap s.listBegin }
    let s := { s with listBegin := none, listEnd := none }
    let s := { s with listSize := 0 }
    .ok (clearCache s)
  else do
    let (h, s) ← getNodeIndex s i
    if h.isSome then removeIndexFound s i h else .ok s

/-- The loop of `clear`:
`while (h != NULL) { toDelete = h; h = h->next; if (freeItem) freeItem(h->data); delete toDelete; }`
on the heap `hp` and the callback log `fr`. -/
def clearLoop (freeItem : Bool) :
    Nat → Heap T U → List U → Option Nat → Except Fault (Heap T U × List U)
  | 0, hp, fr, h => if h.isSome then .error .outOfFuel else .ok (hp, fr)
  | fuel + 1, hp, fr, h =>
    if h.isSome then do
      let toDelete := h
      let n ← deref hp h
      let h := n.next
      let fr ←
        if freeItem then do
          let m ← deref hp h
          .ok (fr ++ [m.data])
        else .ok fr
      let hp := delete hp toDelete
      clearLoop freeItem fuel hp fr h
    else .ok (hp, fr)

def clear (s : SimpleMap T U) : Except Fault (SimpleMap T U) := do
  let s := unlock s
  let (hp, fr) ← clearLoop s.freeItem (s.heap.length + 1) s.heap s.freed s.listBegin
  let s := { s with heap := hp, freed := fr, listBegin := none, listEnd := none, listSize := 0 }
  .ok (clearCache s)

def la_begin (s : SimpleMap T U) : Bool × SimpleMap T U :=
  let s := setCache s 0 s.listBegin
  (s.isCached, s)

def la_next (s : SimpleMap T U) : Except Fault (Bool × SimpleMap T U) := do
  let n ← deref s.heap s.lastNodeGot
  let s := { s with lastIndexGot := s.lastIndexGot + 1, lastNodeGot := n.next }
  let s := setCache s s.lastIndexGot s.lastNodeGot
  .ok (s.isCached, s)

def la_isEnd (s : SimpleMap T U) : Bool := s.lastNodeGot.isNone

def la_getCurrentKey (s : SimpleMap T U) : Except Fault T := do
  let n ← deref s.heap s.lastNodeGot
  .ok n.key

def la_getCurrentData (s : SimpleMap T U) : Except Fault U := do
  let n ← deref s.heap s.lastNodeGot
  .ok n.data

/-- The keys and values met by following `next` from `p`, at most `fuel` nodes
(the walk stops at `NULL`, at a deleted node, or when the fuel is spent). -/
def chainFrom (hp : Heap T U) : Nat → Option Nat → List (T × U)
  | 0, _ => []
  | _, none => []
  | fuel + 1, some a =>
    match hp.read a with
    | some n => (n.key, n.data) :: chainFrom hp fuel n.next
    | none => []

/-- The chain read head to tail: the `(key, data)` pairs of the nodes reachable from
`listBegin`. -/
def toList (s : SimpleMap T U) : List (T × U) := chainFrom s.heap s.heap.length s.listBegin

/-- The keys of the chain, head to tail. -/
def keys (s : SimpleMap T U) : List T := (toList s).map Prod.fst

/-- A node of the chain as seen from outside: its address, its key and its value. -/
structure Cell (T U : Type) where
  addr : Nat
  key : T
  data : U

/-- The `(key, data)` pair of a cell. -/
def Cell.kv (c : Cell T U) : T × U := (c.key, c.data)

/-- The nodes met from pointer `p` by following `next` are exactly the cells `L`, and the
`next` field of the last one is `q` (with `L = []` the two pointers coincide). -/
def Lseg (hp : Heap T U) : Option Nat → List (Cell T U) → Option Nat → Prop
  | p, [], q => p = q
  | p, c :: L, q =>
    p = some c.addr ∧
      ∃ nx, hp.read c.addr = some { key := c.key, data := c.data, next := nx } ∧ Lseg hp nx L q

/-- The pointer to the node at position `i` of the chain `L` (`NULL` past the end). -/
def ptrAt (L : List (Cell T U)) (i : Nat) : Option Nat := (L[i]?).map Cell.addr

/-- The pointer `p` of the scanning loops after the cells `L` were passed, `p0` being
its value before. -/
def prevPtr (p0 : Option Nat) (L : List (Cell T U)) : Option Nat :=
  match L.getLast? with
  | some c => some c.addr
  | none => p0

/-- The comparator is a strict total order: it returns `0` exactly on equal keys, its
sign flips when the arguments are swapped, and "negative" is transitive. -/
structure StrictTotalOrder (cmp : T → T → Int) : Prop where
  eq_iff : ∀ a b, cmp a b = 0 ↔ a = b
  flip : ∀ a b, cmp a b < 0 ↔ cmp b a > 0
  trans : ∀ a b c, cmp a b < 0 → cmp b c < 0 → cmp a c < 0

/-- The container `s` represents the chain `L`: following `next` from `listBegin` meets
the cells of `L` and then `NULL`, `listSize` is their number, `listEnd` points to the
last one, the keys are strictly ascending, and the position cache is either valid for
`L` or in the state `clearCache` leaves. -/
structure Rep (cmp : T → T → Int) (s : SimpleMap T U) (L : List (Cell T U)) : Prop where
  chain : Lseg s.heap s.listBegin L none
  nodup : (L.map Cell.addr).Nodup
  size : s.listSize = L.length
  last : s.listEnd = prevPtr none L
  sorted : (L.map Cell.key).Pairwise (fun a b => cmp a b < 0)
  cacheOn : s.isCached = true →
    0 ≤ s.lastIndexGot ∧ s.lastIndexGot < L.length ∧
      s.lastNodeGot = ptrAt L s.lastIndexGot.toNat ∧ s.lastNodeGot ≠ none
  cacheOff : s.isCached = false → s.lastNodeGot = none ∧ s.lastIndexGot = -1

/-- A well-formed container: sorted chain, correct count, head and tail, and a cache that
is invalid or valid for the chain. -/
def WellFormed (cmp : T → T → Int) (s : SimpleMap T U) : Prop := ∃ L, Rep cmp s L

/-- The states `s` and `t` differ at most in the position cache. -/
def SameButCache (s t : SimpleMap T U) : Prop :=
  t.heap = s.heap ∧ t.freeItem = s.freeItem ∧ t.freed = s.freed ∧ t.listSize = s.listSize ∧
    t.listBegin = s.listBegin ∧ t.listEnd = s.listEnd ∧ t.locked = s.locked

/-- The outcome of a key lookup on the chain `L` that returned the pointer `r` and left
the state `t`: either no cell of `L` carries the key, or the key is at position `i`,
`r` points to that cell and the cache of `t` holds `(i, r)`. -/
def Located (cmp : T → T → Int) (key : T) (L : List (Cell T U)) (r : Option Nat)
    (t : SimpleMap T U) : Prop :=
  (r = none ∧ ∀ c ∈ L, cmp key c.key ≠ 0) ∨
    ∃ i : Nat, ∃ hi : i < L.length, r = some (L[i]).addr ∧ cmp key (L[i]).key = 0 ∧
      t.isCached = true ∧ t.lastIndexGot = (i : Int) ∧ t.lastNodeGot = r

/-- Plain linear search, the reference for `getNode`: follow `next` from `p` and return
the first node whose key compares equal to `key`, at most `fuel` nodes being visited. -/
def linearFind (cmp : T → T → Int) (key : T) (hp : Heap T U) : Nat → Option Nat → Option Nat
  | 0, _ => none
  | _, none => none
  | fuel + 1, some a =>
    match hp.read a with
    | some n => if cmp key n.key = 0 then some a else linearFind cmp key hp fuel n.next
    | none => none

/-- Plain linear search of the whole chain of `s`. -/
def linearSearch (cmp : T → T → Int) (s : SimpleMap T U) (key : T) : Option Nat :=
  linearFind cmp key s.heap s.heap.length s.listBegin

/-- The public operations that change the container or its cache. -/
inductive Op (T U : Type) where
  | put (key : T) (obj : U)
  | remove (key : T)
  | removeIndex (i : Int)
  | clear
  | lock
  | unlock
  | get (key : T)
  | has (key : T)
  | getIndex (key : T)
  | getKey (i : Int)
  | getData (i : Int)
  | la_begin
  | la_next

/-- The state one call leaves behind (a returned value is dropped). -/
def Op.run [DecidableEq T] [Inhabited T] [Inhabited U] (cmp : T → T → Int) :
    Op T U → SimpleMap T U → Except Fault (SimpleMap T U)
  | .put key obj, s => SimpleMap.put cmp s key obj
  | .remove key, s => SimpleMap.remove cmp s key
  | .removeIndex i, s => SimpleMap.removeIndex s i
  | .clear, s => SimpleMap.clear s
  | .lock, s => .ok (SimpleMap.lock s)
  | .unlock, s => .ok (SimpleMap.unlock s)
  | .get key, s => (SimpleMap.get cmp s key).map Prod.snd
  | .has key, s => (SimpleMap.has cmp s key).map Prod.snd
  | .getIndex key, s => (SimpleMap.getIndex cmp s key).map Prod.snd
  | .getKey i, s => (SimpleMap.getKey s i).map Prod.snd
  | .getData i, s => (SimpleMap.getData s i).map Prod.snd
  | .la_begin, s => .ok (SimpleMap.la_begin s).2
  | .la_next, s => (SimpleMap.la_next s).map Prod.snd

/-- A sequence of calls, executed left to right. -/
def runOps [DecidableEq T] [Inhabited T] [Inhabited U] (cmp : T → T → Int) :
    List (Op T U) → SimpleMap T U → Except Fault (SimpleMap T U)
  | [], s => .ok s
  | op :: ops, s => do
    let t ← op.run cmp s
    runOps cmp ops t

/-- The calls `put`, `remove`, `removeIndex`, and `lock`/`unlock` (so that the former
are met with the container locked or not). -/
def Op.isEdit : Op T U → Bool
  | .put _ _ => true
  | .remove _ => true
  | .removeIndex _ => true
  | .lock => true
  | .unlock => true
  | _ => false

/-- The calls of `isEdit` and `clear`. -/
def Op.isEditOrClear : Op T U → Bool
  | .clear => true
  | op => op.isEdit

/-- The comparator of the examples: the difference of two integers. -/
def intCmp (a b : Int) : Int := a - b

/-- Example container: keys `1, 5, 10` with values `100, 500, 1000`, a destructor
callback, unlocked, cache invalid. -/
def demo : SimpleMap Int Int :=
  { heap := [some { key := 1, data := 100, next := some 1 },
             some { key := 5, data := 500, next := some 2 },
             some { key := 10, data := 1000, next := none }],
    freeItem := true, freed := [], listSize := 3, listBegin := some 0, listEnd := some 2,
    locked := false, lastNodeGot := none, lastIndexGot := -1, isCached := false }

/-- The chain of `demo`. -/
def demoCells : List (Cell Int Int) :=
  [{ addr := 0, key := 1, data := 100 }, { addr := 1, key := 5, data := 500 },
   { addr := 2, key := 10, data := 1000 }]

/-- The size invariant: following `next` from `listBegin` meets exactly the cells `L` and
then `NULL`, `size()` is their number, `listBegin` points to the first and `listEnd` to
the last of them, and both are `NULL` exactly when `size()` is `0`. -/
def SizeInvariant (s : SimpleMap T U) : Prop :=
  ∃ L : List (Cell T U), Lseg s.heap s.listBegin L none ∧ size s = (L.length : Int) ∧
    (toList s).length = L.length ∧
    s.listBegin = L.head?.map Cell.addr ∧ s.listEnd = L.getLast?.map Cell.addr ∧
    ((s.listBegin = none ∧ s.listEnd = none) ↔ size s = 0)

/-- Reference lookup in the list of `(key, data)` pairs: the value paired with the first
key comparing equal to `k`, or the default value `U()` when there is none. -/
def lookup [Inhabited U] (cmp : T → T → Int) (k : T) (l : List (T × U)) : U :=
  match l.find? (fun kv => decide (cmp k kv.1 = 0)) with
  | some kv => kv.2
  | none => default

/-- The addresses of the nodes met by following `next` from `p`, at most `fuel` nodes
(the walk stops at `NULL`, at a deleted node, or when the fuel is spent). -/
def addrsFrom (hp : Heap T U) : Nat → Option Nat → List Nat
  | 0, _ => []
  | _, none => []
  | fuel + 1, some a =>
    match hp.read a with
    | some n => a :: addrsFrom hp fuel n.next
    | none => []

/-- The nodes of the chain, head to tail, by address. -/
def addrs (s : SimpleMap T U) : List Nat := addrsFrom s.heap s.heap.length s.listBegin

/-- A sequence of `put` calls, one pair after another. -/
def putAll (cmp : T → T → Int) : List (T × U) → SimpleMap T U → Except Fault (SimpleMap T U)
  | [], s => .ok s
  | kv :: rest, s => do
    let t ← put cmp s kv.1 kv.2
    putAll cmp rest t

/-- The value of the last pair of `kvs` whose key is `k`, if there is one. -/
def lastValue [DecidableEq T] : List (T × U) → T → Option U
  | [], _ => none
  | kv :: rest, k =>
    match lastValue rest k with
    | some v => some v
    | none => if kv.1 = k then some kv.2 else none

/-- The cache validity invariant: when `isCached` is set, `lastIndexGot` is a position of
the chain and `lastNodeGot` is exactly the node at that position, a live node; when it is
not set, `lastNodeGot` is `NULL` and `lastIndexGot` is `-1`. -/
def CacheInvariant (s : SimpleMap T U) : Prop :=
  (s.isCached = true →
      0 ≤ s.lastIndexGot ∧ s.lastIndexGot < size s ∧
        (∃ a, s.lastNodeGot = some a ∧ (addrs s)[s.lastIndexGot.toNat]? = some a ∧
          (s.heap.read a).isSome = true)) ∧
    (s.isCached = false → s.lastNodeGot = none ∧ s.lastIndexGot = -1)

/-- The loop `while (!la_isEnd()) { record (la_getCurrentKey(), la_getCurrentData());
la_next(); }`; `rec` holds the pairs recorded so far and `n` counts the iterations. -/
def la_loop : Nat → SimpleMap T U → List (T × U) → Nat →
    Except Fault (List (T × U) × Nat × SimpleMap T U)
  | 0, s, rec, n => if la_isEnd s then .ok (rec, n, s) else .error .outOfFuel
  | fuel + 1, s, rec, n =>
    if la_isEnd s then .ok (rec, n, s)
    else do
      let k ← la_getCurrentKey s
      let d ← la_getCurrentData s
      let (_, s1) ← la_next s
      la_loop fuel s1 (rec ++ [(k, d)]) (n + 1)

/-- The whole unchecked iteration: `la_begin()` followed by the loop of `la_loop`; the
result is the list of recorded pairs, the number of iterations and the final state. -/
def la_traverse (s : SimpleMap T U) : Except Fault (List (T × U) × Nat × SimpleMap T U) :=
  la_loop (s.heap.length + 1) (la_begin s).2 [] 0

/-- Example container with the chain `1, 5, 10, 15, 20`, as left by `put` of the keys
`10, 5, 20, 1, 15` (values `100, 50, 200, 10, 150`) into an empty container with a
destructor callback. -/
def demo5 : SimpleMap Int Int :=
  { heap := [some { key := 10, data := 100, next := some 4 },
             some { key := 5, data := 50, next := some 0 },
             some { key := 20, data := 200, next := none },
             some { key := 1, data := 10, next := some 1 },
             some { key := 15, data := 150, next := some 2 }],
    freeItem := true, freed := [], listSize := 5, listBegin := some 3, listEnd := some 2,
    locked := false, lastNodeGot := some 4, lastIndexGot := 3, isCached := true }

/-- The chain of `demo5`. -/
def demo5Cells : List (Cell Int Int) :=
  [{ addr := 3, key := 1, data := 10 }, { addr := 1, key := 5, data := 50 },
   { addr := 0, key := 10, data := 100 }, { addr := 4, key := 15, data := 150 },
   { addr := 2, key := 20, data := 200 }]

/-! ### The one-argument constructor

`SimpleMap(compare)` assigns every member but `freeItem`, which has no initialiser
either: its value is indeterminate.  The functions of `Unassigned` are those functions of
the class that evaluate `if (freeItem) ...`, run on an object built by that constructor:
the evaluation is a fault.  All other functions do not mention `freeItem` and are
shared.  (In an execution in which the unassigned member happens to hold `NULL` the
object behaves as `empty false`.) -/

/-- The one-argument constructor `SimpleMap(compare)`.  The member `freeItem` is not
assigned; the field of the record is a placeholder that the functions of `Unassigned`
never read. -/
def Unassigned.empty : SimpleMap T U := SimpleMap.empty false

/-- The statement `if (freeItem) freeItem(h->data);` where `freeItem` was never
assigned. -/
def Unassigned.freeData (_s : SimpleMap T U) (_h : Option Nat) :
    Except Fault (SimpleMap T U) :=
  .error .unassignedRead

/-- The branch `if (found) { ... }` of `put`, `freeItem` unassigned. -/
def Unassigned.putReplace (s : SimpleMap T U) (newNode h p : Option Nat) (c : Int) :
    Except Fault (SimpleMap T U) := do
  let s := { s with listBegin := if h = s.listBegin then newNode else s.listBegin }
  let s := { s with listEnd := if h = s.listEnd then newNode else s.listEnd }
  let hp1 ← if p.isSome then setNext s.heap p newNode else .ok s.heap
  let hn ← deref hp1 h
  let hp2 ← setNext hp1 newNode hn.next
  let s ← Unassigned.freeData { s with heap := hp2 } h
  let s := { s with heap := delete s.heap h }
  .ok (setCache s c newNode)

/-- The function `put`, `freeItem` unassigned. -/
def Unassigned.put (cmp : T → T → Int) (s : SimpleMap T U) (key : T) (obj : U) :
    Except Fault (SimpleMap T U) := do
  let (hp0, a) := Heap.alloc s.heap { key := key, data := obj, next := none }
  let newNode : Option Nat := some a
  let s := { s with heap := hp0 }
  let (h, p, found, c) ←
    (if s.listSize > (0 : Int) then
      scan s.heap (fun k => decide (cmp k key = 0)) (s.heap.length + 1) s.listBegin none 0
    else .ok (s.listBegin, none, false, 0) :
      Except Fault (Option Nat × Option Nat × Bool × Int))
  if found then Unassigned.putReplace s newNode h p c
  else if !s.locked then putInsert cmp s key newNode
  else .ok s

/-- The branch `if (found) { ... }` of `remove`, `freeItem` unassigned. -/
def Unassigned.removeFound (s : SimpleMap T U) (h p : Option Nat) :
    Except Fault (SimpleMap T U) := do
  let hn ← deref s.heap h
  let s ← show Except Fault (SimpleMap T U) from
    if p.isSome then do
      let hp1 ← setNext s.heap p hn.next
      .ok { s with heap := hp1 }
    else .ok { s with listBegin := hn.next }
  let s := { s with listEnd := if s.listEnd = h then p else s.listEnd }
  let s := { s with listSize := s.listSize - 1 }
  let s ← Unassigned.freeData s h
  let s := { s with heap := delete s.heap h }
  .ok (clearCache s)

/-- The function `remove`, `freeItem` unassigned. -/
def Unassigned.remove [DecidableEq T] (cmp : T → T → Int) (s : SimpleMap T U) (key : T) :
    Except Fault (SimpleMap T U) :=
  if s.listSize > 0 ∧ !s.locked then do
    let b ← deref s.heap s.listBegin
    if cmp key b.key < 0 then .ok s
    else do
      let e ← deref s.heap s.listEnd
      if cmp key e.key > 0 then .ok s
      else do
        let (h, p, found, _) ←
          scan s.heap (fun k => decide (k = key)) (s.heap.length + 1) s.listBegin none 0
        if found then Unassigned.removeFound s h p else .ok s
  else .ok s

/-- The branch `if (h != NULL) { ... }` of `removeIndex`, `freeItem` unassigned. -/
def Unassigned.removeIndexFound (s : SimpleMap T U) (i : Int) (h : Option Nat) :
    Except Fault (SimpleMap T U) := do
  let s ← show Except Fault (SimpleMap T U) from
    if h = s.listBegin then do
      let hn ← deref s.heap h
      let s := { s with listBegin := hn.next }
      .ok (setCache s 0 s.listBegin)
    else do
      let (p, s) ← getNodeIndex s (i - 1)
      let s ← show Except Fault (SimpleMap T U) from
        if p.isSome then do
          let hn ← deref s.heap h
          let hp1 ← setNext s.heap p hn.next
          let s := { s with heap := hp1 }
          let hn1 ← deref s.heap h
          .ok (setCache s i hn1.next)
        else .ok s
      if h = s.listEnd then .ok (setCache { s with listEnd := p } (i - 1) p) else .ok s
  let s := { s with listSize := s.listSize - 1 }
  let s ← Unassigned.freeData s h
  .ok { s with heap := delete s.heap h }

/-- The function `removeIndex`, `freeItem` unassigned. -/
def Unassigned.removeIndex (s : SimpleMap T U) (i : Int) : Except Fault (SimpleMap T U) :=
  if s.listSize = -2 ∨ s.listSize = -1 ∨ s.listSize = 0 then .ok (clearCache s)
  else if s.listSize = 1 then do
    let s ← Unassigned.freeData s s.listBegin
    let s := { s with heap := delete s.heap s.listBegin }
    let s := { s with listBegin := none, listEnd := none }
    let s := { s with listSize := 0 }
    .ok (clearCache s)
  else do
    let (h, s) ← getNodeIndex s i
    if h.isSome then Unassigned.removeIndexFound s i h else .ok s

/-- The loop of `clear`, `freeItem` unassigned: the first iteration evaluates
`if (freeItem)`. -/
def Unassigned.clearLoop :
    Nat → Heap T U → List U → Option Nat → Except Fault (Heap T U × List U)
  | 0, hp, fr, h => if h.isSome then .error .outOfFuel else .ok (hp, fr)
  | fuel + 1, hp, fr, h =>
    if h.isSome then do
      let toDelete := h
      let n ← deref hp h
      let h := n.next
      let fr ← (Except.error Fault.unassignedRead : Except Fault (List U))
      let hp := delete hp toDelete
      Unassigned.clearLoop fuel hp fr h
    else .ok (hp, fr)

/-- The function `clear`, `freeItem` unassigned. -/
def Unassigned.clear (s : SimpleMap T U) : Except Fault (SimpleMap T U) := do
  let s := unlock s
  let (hp, fr) ← Unassigned.clearLoop (s.heap.length + 1) s.heap s.freed s.listBegin
  let s := { s with heap := hp, freed := fr, listBegin := none, listEnd := none, listSize := 0 }
  .ok (clearCache s)

/-- The state one call leaves behind, on an object built by the one-argument
constructor. -/
def Unassigned.run [DecidableEq T] [Inhabited T] [Inhabited U] (cmp : T → T → Int) :
    Op T U → SimpleMap T U → Except Fault (SimpleMap T U)
  | .put key obj, s => Unassigned.put cmp s key obj
  | .remove key, s => Unassigned.remove cmp s key
  | .removeIndex i, s => Unassigned.removeIndex s i
  | .clear, s => Unassigned.clear s
  | op, s => op.run cmp s

/-- A sequence of calls, executed left to right, on an object built by the one-argument
constructor. -/
def Unassigned.runOps [DecidableEq T] [Inhabited T] [Inhabited U] (cmp : T → T → Int) :
    List (Op T U) → SimpleMap T U → Except Fault (SimpleMap T U)
  | [], s => .ok s
  | op :: ops, s => do
    let t ← Unassigned.run cmp op s
    Unassigned.runOps cmp ops t

/-- The pairs of `kvs` put one after the other, `freeItem` unassigned. -/
def Unassigned.putAll (cmp : T → T → Int) :
    List (T × U) → SimpleMap T U → Except Fault (SimpleMap T U)
  | [], s => .ok s
  | kv :: rest, s => do
    let t ← Unassigned.put cmp s kv.1 kv.2
    Unassigned.putAll cmp rest t

/-- The calls that have to discard a stored value in the container `s`, and for that
evaluate `if (freeItem)`: a `put` of a key that compares equal to a stored one, a
`remove` of a stored key from an unlocked container, a `removeIndex` on a one-node
container or at a valid position, and a `clear` of a non-empty container. -/
def Op.discards [DecidableEq T] (cmp : T → T → Int) (s : SimpleMap T U) : Op T U → Bool
  | .put key _ => (keys s).any (fun k => decide (cmp k key = 0))
  | .remove key => !s.locked && decide (key ∈ keys s)
  | .removeIndex i => decide (size s = 1) || decide (2 ≤ size s ∧ 0 ≤ i ∧ i < size s)
  | .clear => decide (size s ≠ 0)
  | _ => false

end SimpleMap

/-! ## Heaps and list segments -/

namespace SimpleMap

variable {T U : Type}

@[simp] theorem bind_ok {ε α β : Type} (a : α) (f : α → Except ε β) :
    (Except.ok a >>= f) = f a := rfl

@[simp] theorem bind_error {ε α β : Type} (e : ε) (f : α → Except ε β) :
    ((Except.error e : Except ε α) >>= f) = Except.error e := rfl

theorem Heap.read_lt {hp : Heap T U} {a : Nat} {n : SimpleMapNode T U}
    (h : hp.read a = some n) : a < hp.length := by
  by_contra hlt
  have : hp[a]? = none := List.getElem?_eq_none (by omega)
  simp [Heap.read, List.getD_eq_getElem?_getD, this] at h

theorem Heap.read_append {hp : Heap T U} {a : Nat} {n : SimpleMapNode T U}
    (x : Option (SimpleMapNode T U)) (h : hp.read a = some n) :
    Heap.read (hp ++ [x]) a = some n := by
  have hlt := Heap.read_lt h
  simp only [Heap.read, List.getD_eq_getElem?_getD] at h ⊢
  rw [List.getElem?_append_left hlt]
  exact h

theorem Heap.read_append_new (hp : Heap T U) (x : Option (SimpleMapNode T U)) :
    Heap.read (hp ++ [x]) hp.length = x := by
  simp [Heap.read, List.getD_eq_getElem?_getD]

theorem Heap.read_set_same {hp : Heap T U} {a : Nat} (x : Option (SimpleMapNode T U))
    (h : a < hp.length) : Heap.read (hp.set a x) a = x := by
  simp [Heap.read, List.getD_eq_getElem?_getD, List.getElem?_set, h]

theorem Heap.read_set_ne {hp : Heap T U} {a b : Nat} (x : Option (SimpleMapNode T U))
    (h : a ≠ b) : Heap.read (hp.set a x) b = hp.read b := by
  simp [Heap.read, List.getD_eq_getElem?_getD, List.getElem?_set, h]

theorem deref_some {hp : Heap T U} {a : Nat} {n : SimpleMapNode T U}
    (h : hp.read a = some n) : deref hp (some a) = .ok n := by
  simp [deref, h]

theorem setNext_some {hp : Heap T U} {a : Nat} {n : SimpleMapNode T U} (nx : Option Nat)
    (h : hp.read a = some n) :
    setNext hp (some a) nx = .ok (hp.set a (some { n with next := nx })) := by
  simp [setNext, h]

end SimpleMap

namespace SimpleMap

variable {T U : Type}

theorem Lseg_append {hp : Heap T U} {L1 L2 : List (Cell T U)} {p q : Option Nat} :
    Lseg hp p (L1 ++ L2) q ↔ ∃ m, Lseg hp p L1 m ∧ Lseg hp m L2 q := by
  induction L1 generalizing p with
  | nil => simp [Lseg]
  | cons c L1 ih =>
    constructor
    · rintro ⟨h0, nx, hr, hrest⟩
      obtain ⟨m, h1, h2⟩ := ih.1 hrest
      exact ⟨m, ⟨h0, nx, hr, h1⟩, h2⟩
    · rintro ⟨m, ⟨h0, nx, hr, h1⟩, h2⟩
      exact ⟨h0, nx, hr, ih.2 ⟨m, h1, h2⟩⟩

theorem Lseg_addr_lt {hp : Heap T U} {L : List (Cell T U)} {p q : Option Nat}
    (h : Lseg hp p L q) : ∀ c ∈ L, c.addr < hp.length := by
  induction L generalizing p with
  | nil => simp
  | cons c L ih =>
    obtain ⟨_, nx, hr, hrest⟩ := h
    intro d hd
    rcases List.mem_cons.1 hd with rfl | hd
    · exact Heap.read_lt hr
    · exact ih hrest d hd

theorem Lseg_set_frame {hp : Heap T U} {L : List (Cell T U)} {p q : Option Nat} {a : Nat}
    (x : Option (SimpleMapNode T U)) (hne : ∀ c ∈ L, c.addr ≠ a) (h : Lseg hp p L q) :
    Lseg (hp.set a x) p L q := by
  induction L generalizing p with
  | nil => exact h
  | cons c L ih =>
    obtain ⟨h0, nx, hr, hrest⟩ := h
    refine ⟨h0, nx, ?_, ih (fun d hd => hne d (List.mem_cons_of_mem _ hd)) hrest⟩
    rw [Heap.read_set_ne x (hne c (List.mem_cons_self _ _)).symm]
    exact hr

theorem Lseg_alloc {hp : Heap T U} {L : List (Cell T U)} {p q : Option Nat}
    (x : Option (SimpleMapNode T U)) (h : Lseg hp p L q) : Lseg (hp ++ [x]) p L q := by
  induction L generalizing p with
  | nil => exact h
  | cons c L ih =>
    obtain ⟨h0, nx, hr, hrest⟩ := h
    exact ⟨h0, nx, Heap.read_append x hr, ih hrest⟩

theorem Lseg_det {hp : Heap T U} {L1 L2 : List (Cell T U)} {p : Option Nat}
    (h1 : Lseg hp p L1 none) (h2 : Lseg hp p L2 none) : L1 = L2 := by
  induction L1 generalizing p L2 with
  | nil =>
    cases L2 with
    | nil => rfl
    | cons d L2 =>
      obtain ⟨h0, _⟩ := h2
      simp [Lseg] at h1
      simp [h1] at h0
  | cons c L1 ih =>
    cases L2 with
    | nil =>
      obtain ⟨h0, _⟩ := h1
      simp [Lseg] at h2
      simp [h2] at h0
    | cons d L2 =>
      obtain ⟨h0, nx, hr, hrest⟩ := h1
      obtain ⟨h0', nx', hr', hrest'⟩ := h2
      have hadd : c.addr = d.addr := by
        rw [h0] at h0'
        exact Option.some.inj h0'
      rw [hadd, hr'] at hr
      have hn := Option.some.inj hr
      simp only [SimpleMapNode.mk.injEq] at hn
      obtain ⟨hk, hd, hnx⟩ := hn
      have hcd : c = d := by
        cases c; cases d
        simp_all
      subst hnx
      rw [hcd, ih hrest hrest']

theorem Lseg_nodup {hp : Heap T U} {L : List (Cell T U)} {p : Option Nat}
    (h : Lseg hp p L none) : (L.map Cell.addr).Nodup := by
  induction L generalizing p with
  | nil => simp
  | cons c L ih =>
    obtain ⟨h0, nx, hr, hrest⟩ := h
    rw [List.map_cons, List.nodup_cons]
    refine ⟨?_, ih hrest⟩
    intro hmem
    obtain ⟨d, hd, hda⟩ := List.mem_map.1 hmem
    obtain ⟨L1, L2, rfl⟩ := List.append_of_mem hd
    obtain ⟨m, _, hm2⟩ := Lseg_append.1 hrest
    have hm2c : Lseg hp (some c.addr) (d :: L2) none := by
      obtain ⟨hm0, r⟩ := hm2
      exact ⟨by rw [hda], r⟩
    have hfull : Lseg hp (some c.addr) (c :: (L1 ++ d :: L2)) none := ⟨rfl, nx, hr, hrest⟩
    have := congrArg List.length (Lseg_det hm2c hfull)
    simp at this
    omega

theorem Lseg_length_le {hp : Heap T U} {L : List (Cell T U)} {p : Option Nat}
    (h : Lseg hp p L none) : L.length ≤ hp.length := by
  have hsub : L.map Cell.addr ⊆ List.range hp.length := by
    intro a ha
    obtain ⟨c, hc, rfl⟩ := List.mem_map.1 ha
    exact List.mem_range.2 (Lseg_addr_lt h c hc)
  have := (List.subperm_of_subset (Lseg_nodup h) hsub).length_le
  simpa using this

theorem chainFrom_eq {hp : Heap T U} {L : List (Cell T U)} {p : Option Nat} {fuel : Nat}
    (h : Lseg hp p L none) (hf : L.length ≤ fuel) : chainFrom hp fuel p = L.map Cell.kv := by
  induction L generalizing p fuel with
  | nil =>
    have : p = none := h
    subst this
    cases fuel <;> simp [chainFrom]
  | cons c L ih =>
    obtain ⟨h0, nx, hr, hrest⟩ := h
    subst h0
    cases fuel with
    | zero => simp at hf
    | succ f =>
      have hf2 : L.length ≤ f := by simpa using hf
      simp [chainFrom, hr, ih hrest hf2, Cell.kv]

theorem Rep.toList_eq {cmp : T → T → Int} {s : SimpleMap T U} {L : List (Cell T U)}
    (h : Rep cmp s L) : toList s = L.map Cell.kv :=
  chainFrom_eq h.chain (Lseg_length_le h.chain)

theorem Rep.keys_eq {cmp : T → T → Int} {s : SimpleMap T U} {L : List (Cell T U)}
    (h : Rep cmp s L) : keys s = L.map Cell.key := by
  simp [keys, h.toList_eq, Cell.kv, Function.comp_def]

theorem Rep.unique {cmp : T → T → Int} {s : SimpleMap T U} {L1 L2 : List (Cell T U)}
    (h1 : Rep cmp s L1) (h2 : Rep cmp s L2) : L1 = L2 :=
  Lseg_det h1.chain h2.chain

end SimpleMap

/-! ## The position cache and indexed access -/

namespace SimpleMap

variable {T U : Type}

theorem ptrAt_eq_some {L : List (Cell T U)} {i : Nat} (hi : i < L.length) :
    ptrAt L i = some (L[i]).addr := by
  simp [ptrAt, List.getElem?_eq_getElem hi]

theorem ptrAt_eq_none {L : List (Cell T U)} {i : Nat} (hi : L.length ≤ i) :
    ptrAt L i = none := by
  simp [ptrAt, List.getElem?_eq_none hi]

theorem ptrAt_cons_succ (c : Cell T U) (L : List (Cell T U)) (i : Nat) :
    ptrAt (c :: L) (i + 1) = ptrAt L i := by
  simp [ptrAt]

theorem Lseg_ptr {hp : Heap T U} {L : List (Cell T U)} {p : Option Nat}
    (h : Lseg hp p L none) : p = ptrAt L 0 := by
  cases L with
  | nil => exact h
  | cons c L => simpa [ptrAt] using h.1

theorem Lseg_read {hp : Heap T U} {L : List (Cell T U)} {p : Option Nat}
    (h : Lseg hp p L none) {i : Nat} (hi : i < L.length) :
    hp.read (L[i]).addr =
      some { key := (L[i]).key, data := (L[i]).data, next := ptrAt L (i + 1) } := by
  induction L generalizing p i with
  | nil => simp at hi
  | cons c L ih =>
    obtain ⟨_, nx, hr, hrest⟩ := h
    cases i with
    | zero =>
      rw [ptrAt_cons_succ, ← Lseg_ptr hrest]
      simpa using hr
    | succ j =>
      have hj : j < L.length := by simpa using hi
      rw [ptrAt_cons_succ]
      simpa using ih hrest hj

theorem walkTo_spec {hp : Heap T U} {L : List (Cell T U)} {p : Option Nat}
    (h : Lseg hp p L none) (k j : Nat) (hk : j + k ≤ L.length) :
    walkTo hp ((j : Int) + k) k (ptrAt L j) j = .ok (ptrAt L (j + k), (j : Int) + k) := by
  induction k generalizing j with
  | zero => simp [walkTo]
  | succ k ih =>
    have hj : j < L.length := by omega
    have hlt : (j : Int) < (j : Int) + ((k + 1 : Nat) : Int) := by push_cast; omega
    rw [walkTo, ptrAt_eq_some hj]
    simp only [Option.isSome_some, hlt, and_self, if_true]
    rw [deref_some (Lseg_read h hj)]
    simp only [bind_ok]
    have := ih (j + 1) (by omega)
    have e1 : ((j : Int) + ((k + 1 : Nat) : Int)) = (((j + 1 : Nat) : Int) + (k : Int)) := by
      push_cast; omega
    have e2 : j + (k + 1) = j + 1 + k := by omega
    rw [e1, e2]
    have e3 : (j : Int) + 1 = ((j + 1 : Nat) : Int) := by push_cast; rfl
    rw [e3]
    exact this

theorem Rep.size_nat {cmp : T → T → Int} {s : SimpleMap T U} {L : List (Cell T U)}
    (h : Rep cmp s L) : s.listSize = (L.length : Int) := h.size

theorem Rep.clearCache {cmp : T → T → Int} {s : SimpleMap T U} {L : List (Cell T U)}
    (h : Rep cmp s L) : Rep cmp (clearCache s) L :=
  ⟨h.chain, h.nodup, h.size, h.last, h.sorted, fun hc => by simp [SimpleMap.clearCache] at hc,
    fun _ => ⟨rfl, rfl⟩⟩

theorem Rep.cacheAt {cmp : T → T → Int} {s : SimpleMap T U} {L : List (Cell T U)}
    (h : Rep cmp s L) {i : Nat} (hi : i < L.length) :
    Rep cmp { s with isCached := true, lastIndexGot := (i : Int),
                     lastNodeGot := some (L[i]).addr } L :=
  ⟨h.chain, h.nodup, h.size, h.last, h.sorted,
    fun _ => ⟨by simp, by simpa using hi, by simp [ptrAt_eq_some hi], by simp⟩,
    fun hc => by simp at hc⟩

theorem setCache_valid (s : SimpleMap T U) {index : Int} {a : Nat}
    (h0 : 0 ≤ index) (h1 : index < s.listSize) :
    setCache s index (some a) =
      { s with isCached := true, lastIndexGot := index, lastNodeGot := some a } := by
  simp [setCache, h0, h1]

theorem setCache_null (s : SimpleMap T U) (index : Int) :
    setCache s index none = clearCache s := by
  simp [setCache]

/-- Restoring a cache that was itself consistent with the chain keeps the representation. -/
theorem Rep.setCache_of {cmp : T → T → Int} {s : SimpleMap T U} {L : List (Cell T U)}
    (h : Rep cmp s L) (index : Int) (node : Option Nat)
    (hv : node.isSome → 0 ≤ index → index < L.length → node = ptrAt L index.toNat) :
    Rep cmp (setCache s index node) L := by
  unfold setCache
  split
  · rename_i hc
    obtain ⟨h1, h2, h3⟩ := hc
    rw [h.size] at h3
    have hn := hv h1 h2 h3
    refine ⟨h.chain, h.nodup, h.size, h.last, h.sorted, fun _ => ⟨h2, h3, hn, ?_⟩,
      fun hc => by simp at hc⟩
    intro hnone
    simp [show node = none from hnone] at h1
  · exact h.clearCache

theorem getNodeIndex_out (s : SimpleMap T U) {index : Int}
    (h : index < 0 ∨ s.listSize ≤ index) : getNodeIndex s index = .ok (none, s) := by
  simp [getNodeIndex, h]

theorem getNodeIndex_in {cmp : T → T → Int} {s : SimpleMap T U} {L : List (Cell T U)}
    (h : Rep cmp s L) {i : Nat} (hi : i < L.length) :
    getNodeIndex s (i : Int) =
      .ok (some (L[i]).addr,
        { s with isCached := true, lastIndexGot := (i : Int), lastNodeGot := some (L[i]).addr }) := by
  have hsz := h.size
  have hnot : ¬ ((i : Int) < 0 ∨ (i : Int) ≥ s.listSize) := by
    rw [hsz]; push_neg; constructor <;> omega
  unfold getNodeIndex
  rw [if_neg hnot]
  by_cases hc : s.isCached = true ∧ (i : Int) ≥ s.lastIndexGot
  · obtain ⟨c0, c1, c2, _⟩ := h.cacheOn hc.1
    have hj : s.lastIndexGot = ((s.lastIndexGot.toNat : Nat) : Int) :=
      (Int.toNat_of_nonneg c0).symm
    have hk : (i : Int) - s.lastIndexGot = ((i - s.lastIndexGot.toNat : Nat) : Int) := by
      omega
    have hw := walkTo_spec h.chain (i - s.lastIndexGot.toNat) s.lastIndexGot.toNat (by omega)
    have e1 : ((s.lastIndexGot.toNat : Nat) : Int) + ((i - s.lastIndexGot.toNat : Nat) : Int)
        = (i : Int) := by omega
    have e2 : s.lastIndexGot.toNat + (i - s.lastIndexGot.toNat) = i := by omega
    rw [e1, e2, ← c2, ← hj] at hw
    simp only [hc, and_self, if_true]
    rw [hk, Int.toNat_ofNat, hw]
    simp only [bind_ok, ptrAt_eq_some hi, Option.isSome_some, if_true]
    rw [setCache_valid s (by omega) (by rw [hsz]; omega)]
  · have hw := walkTo_spec h.chain i 0 (by omega)
    simp only [Nat.zero_add, Nat.cast_zero, Int.zero_add] at hw
    rw [← Lseg_ptr h.chain] at hw
    rw [if_neg hc]
    simp only [Int.sub_zero, Int.toNat_ofNat]
    rw [hw]
    simp only [bind_ok, ptrAt_eq_some hi, Option.isSome_some, if_true]
    rw [setCache_valid s (by omega) (by rw [hsz]; omega)]

end SimpleMap

/-! ## Key lookup -/

namespace SimpleMap

variable {T U : Type}

theorem SameButCache.refl (s : SimpleMap T U) : SameButCache s s :=
  ⟨rfl, rfl, rfl, rfl, rfl, rfl, rfl⟩

theorem SameButCache.trans {s t u : SimpleMap T U} (h1 : SameButCache s t)
    (h2 : SameButCache t u) : SameButCache s u := by
  obtain ⟨a1, a2, a3, a4, a5, a6, a7⟩ := h1
  obtain ⟨b1, b2, b3, b4, b5, b6, b7⟩ := h2
  exact ⟨b1.trans a1, b2.trans a2, b3.trans a3, b4.trans a4, b5.trans a5, b6.trans a6,
    b7.trans a7⟩

theorem SameButCache.clearCache_same (s : SimpleMap T U) : SameButCache s (clearCache s) :=
  ⟨rfl, rfl, rfl, rfl, rfl, rfl, rfl⟩

theorem SameButCache.setCache (s : SimpleMap T U) (index : Int) (node : Option Nat) :
    SameButCache s (setCache s index node) := by
  unfold SimpleMap.setCache
  split
  · exact ⟨rfl, rfl, rfl, rfl, rfl, rfl, rfl⟩
  · exact SameButCache.clearCache_same s

theorem Rep.key_lt {cmp : T → T → Int} {s : SimpleMap T U} {L : List (Cell T U)}
    (h : Rep cmp s L) {i j : Nat} (hij : i < j) (hj : j < L.length) :
    cmp (L[i]).key (L[j]).key < 0 := by
  have hs := h.sorted
  rw [List.pairwise_map, List.pairwise_iff_getElem] at hs
  exact hs i j (by omega) hj hij

theorem searchLoop_spec {cmp : T → T → Int} (ord : StrictTotalOrder cmp) (key : T)
    {L : List (Cell T U)} (fuel : Nat) :
    ∀ (s : SimpleMap T U) (lo hi mid : Int), Rep cmp s L → 0 ≤ lo → hi < L.length →
      mid = Int.tdiv (lo + hi) 2 → (hi - lo + 1).toNat ≤ fuel →
      (∀ (j : Nat) (hj : j < L.length), (j : Int) < lo → cmp key (L[j]).key > 0) →
      (∀ (j : Nat) (hj : j < L.length), hi < (j : Int) → cmp key (L[j]).key < 0) →
      ∃ r t, searchLoop cmp key fuel s lo hi mid = .ok (r, t) ∧ Rep cmp t L ∧
        SameButCache s t ∧ Located cmp key L r t := by
  induction fuel with
  | zero =>
    intro s lo hi mid h h0 h1 _ hf hl hr
    have hemp : ¬ lo ≤ hi := by omega
    refine ⟨none, s, by simp [searchLoop, hemp], h, SameButCache.refl s, Or.inl ⟨rfl, ?_⟩⟩
    intro c hc
    obtain ⟨j, hj, rfl⟩ := List.getElem_of_mem hc
    by_cases hjl : (j : Int) < lo
    · have := hl j hj hjl; omega
    · have := hr j hj (by omega); omega
  | succ fuel ih =>
    intro s lo hi mid h h0 h1 hmid hf hl hr
    by_cases hle : lo ≤ hi
    · have hmid2 : mid = (lo + hi) / 2 := by
        rw [hmid, Int.tdiv_eq_ediv (by omega) (by omega)]
      have hm0 : 0 ≤ mid := by omega
      have hmlt : mid.toNat < L.length := by omega
      have hmc : ((mid.toNat : Nat) : Int) = mid := Int.toNat_of_nonneg hm0
      have hg := getNodeIndex_in h hmlt
      rw [hmc] at hg
      have hrd := Lseg_read h.chain hmlt
      unfold searchLoop
      rw [if_pos hle, hg]
      simp only [bind_ok]
      rw [deref_some hrd]
      simp only [bind_ok]
      have hrep1 := h.cacheAt hmlt
      rw [hmc] at hrep1
      by_cases hres0 : cmp key (L[mid.toNat]).key = 0
      · rw [if_pos hres0]
        exact ⟨_, _, rfl, hrep1, ⟨rfl, rfl, rfl, rfl, rfl, rfl, rfl⟩,
          Or.inr ⟨mid.toNat, hmlt, rfl, hres0, rfl, hmc.symm, rfl⟩⟩
      · rw [if_neg hres0]
        by_cases hneg : cmp key (L[mid.toNat]).key < 0
        · rw [if_pos hneg]
          have hrep2 : Rep cmp (setCache
              { s with isCached := true, lastIndexGot := mid,
                       lastNodeGot := some (L[mid.toNat]).addr }
              s.lastIndexGot s.lastNodeGot) L := by
            apply hrep1.setCache_of
            intro hsome _ _
            cases hcd : s.isCached with
            | true => exact (h.cacheOn hcd).2.2.1
            | false =>
              have := (h.cacheOff hcd).1
              simp [this] at hsome
          obtain ⟨r, t, hrun, hrt, hsame, hloc⟩ := ih _ lo (mid - 1) _ hrep2 h0 (by omega) rfl
            (by omega) hl (by
              intro j hj hjm
              by_cases hjeq : j = mid.toNat
              · subst hjeq; exact hneg
              · have hlt : mid.toNat < j := by omega
                exact ord.trans _ _ _ hneg (h.key_lt hlt hj))
          refine ⟨r, t, hrun, hrt, ?_, hloc⟩
          exact SameButCache.trans
            (SameButCache.trans ⟨rfl, rfl, rfl, rfl, rfl, rfl, rfl⟩
              (SameButCache.setCache _ _ _)) hsame
        · rw [if_neg hneg]
          have hpos : cmp key (L[mid.toNat]).key > 0 := by omega
          obtain ⟨r, t, hrun, hrt, hsame, hloc⟩ := ih _ (mid + 1) hi _ hrep1 (by omega) h1 rfl
            (by omega) (by
              intro j hj hjm
              by_cases hjeq : j = mid.toNat
              · subst hjeq; exact hpos
              · have hlt : j < mid.toNat := by omega
                have h1 := h.key_lt hlt hmlt
                have h2 := (ord.flip _ _).2 hpos
                exact (ord.flip _ _).1 (ord.trans _ _ _ h1 h2)) hr
          exact ⟨r, t, hrun, hrt,
            SameButCache.trans ⟨rfl, rfl, rfl, rfl, rfl, rfl, rfl⟩ hsame, hloc⟩
    · refine ⟨none, s, by simp [searchLoop, hle], h, SameButCache.refl s, Or.inl ⟨rfl, ?_⟩⟩
      intro c hc
      obtain ⟨j, hj, rfl⟩ := List.getElem_of_mem hc
      by_cases hjl : (j : Int) < lo
      · have := hl j hj hjl; omega
      · have := hr j hj (by omega); omega

end SimpleMap

namespace SimpleMap

variable {T U : Type}

theorem prevPtr_eq {L : List (Cell T U)} (p : Option Nat) (hL : 0 < L.length) :
    prevPtr p L = some (L[L.length - 1]).addr := by
  unfold prevPtr
  rw [List.getLast?_eq_getElem?, List.getElem?_eq_getElem (by omega)]

theorem prevPtr_nil (p : Option Nat) : prevPtr p ([] : List (Cell T U)) = p := rfl

theorem prevPtr_append_cons (p : Option Nat) (L : List (Cell T U)) (c : Cell T U) :
    prevPtr p (L ++ [c]) = some c.addr := by
  simp [prevPtr]

theorem Rep.begin_eq {cmp : T → T → Int} {s : SimpleMap T U} {L : List (Cell T U)}
    (h : Rep cmp s L) (hL : 0 < L.length) : s.listBegin = some (L[0]).addr := by
  rw [Lseg_ptr h.chain, ptrAt_eq_some hL]

theorem Rep.end_eq {cmp : T → T → Int} {s : SimpleMap T U} {L : List (Cell T U)}
    (h : Rep cmp s L) (hL : 0 < L.length) : s.listEnd = some (L[L.length - 1]).addr := by
  rw [h.last, prevPtr_eq none hL]

theorem Rep.deref_at {cmp : T → T → Int} {s : SimpleMap T U} {L : List (Cell T U)}
    (h : Rep cmp s L) {i : Nat} (hi : i < L.length) :
    deref s.heap (some (L[i]).addr) =
      .ok { key := (L[i]).key, data := (L[i]).data, next := ptrAt L (i + 1) } :=
  deref_some (Lseg_read h.chain hi)

theorem StrictTotalOrder.cmp_self {cmp : T → T → Int} (ord : StrictTotalOrder cmp) (a : T) :
    cmp a a = 0 := (ord.eq_iff a a).2 rfl

theorem StrictTotalOrder.pos_of_neg {cmp : T → T → Int} (ord : StrictTotalOrder cmp)
    {a b : T} (h : cmp a b < 0) : cmp b a > 0 := (ord.flip a b).1 h

theorem StrictTotalOrder.neg_of_pos {cmp : T → T → Int} (ord : StrictTotalOrder cmp)
    {a b : T} (h : cmp a b > 0) : cmp b a < 0 := (ord.flip b a).2 h

/-- In a sorted chain the first cell comparing equal to `key` is the only one. -/
theorem Rep.find_eq {cmp : T → T → Int} (ord : StrictTotalOrder cmp) {s : SimpleMap T U}
    {L : List (Cell T U)} (h : Rep cmp s L) {key : T} {i : Nat} (hi : i < L.length)
    (hk : cmp key (L[i]).key = 0) :
    L.find? (fun c => decide (cmp key c.key = 0)) = some (L[i]) := by
  rw [List.find?_eq_some]
  refine ⟨by simpa using hk, L.take i, L.drop (i + 1), ?_, ?_⟩
  · rw [← List.drop_eq_getElem_cons hi, List.take_append_drop]
  · intro a ha
    obtain ⟨j, hj, rfl⟩ := List.getElem_of_mem ha
    have hjl : j < i := by
      have := hj
      simp only [List.length_take] at this
      omega
    rw [List.getElem_take]
    have hlt := h.key_lt hjl hi
    have hke : key = (L[i]).key := (ord.eq_iff _ _).1 hk
    have hpos := ord.pos_of_neg hlt
    rw [← hke] at hpos
    have : cmp key (L[j]).key ≠ 0 := by omega
    simpa using this

theorem find_none {cmp : T → T → Int} {L : List (Cell T U)} {key : T}
    (hk : ∀ c ∈ L, cmp key c.key ≠ 0) :
    L.find? (fun c => decide (cmp key c.key = 0)) = none := by
  rw [List.find?_eq_none]
  intro c hc
  simpa using hk c hc

theorem Located.eq_find {cmp : T → T → Int} (ord : StrictTotalOrder cmp) {s : SimpleMap T U}
    {L : List (Cell T U)} (h : Rep cmp s L) {key : T} {r : Option Nat} {t : SimpleMap T U}
    (hl : Located cmp key L r t) :
    r = (L.find? (fun c => decide (cmp key c.key = 0))).map Cell.addr := by
  rcases hl with ⟨rfl, hk⟩ | ⟨i, hi, rfl, hk, _⟩
  · rw [find_none hk]; rfl
  · rw [h.find_eq ord hi hk]; rfl

theorem linearFind_eq {cmp : T → T → Int} {hp : Heap T U} {L : List (Cell T U)}
    {p : Option Nat} {fuel : Nat} (key : T) (h : Lseg hp p L none) (hf : L.length ≤ fuel) :
    linearFind cmp key hp fuel p =
      (L.find? (fun c => decide (cmp key c.key = 0))).map Cell.addr := by
  induction L generalizing p fuel with
  | nil =>
    have : p = none := h
    subst this
    cases fuel <;> simp [linearFind]
  | cons c L ih =>
    obtain ⟨h0, nx, hr, hrest⟩ := h
    subst h0
    cases fuel with
    | zero => simp at hf
    | succ f =>
      have hf2 : L.length ≤ f := by simpa using hf
      simp only [linearFind, hr, List.find?_cons]
      by_cases hk : cmp key c.key = 0
      · simp [hk]
      · simp [hk, ih hrest hf2]

theorem Rep.linearSearch_eq {cmp : T → T → Int} {s : SimpleMap T U} {L : List (Cell T U)}
    (h : Rep cmp s L) (key : T) :
    linearSearch cmp s key =
      (L.find? (fun c => decide (cmp key c.key = 0))).map Cell.addr :=
  linearFind_eq key h.chain (Lseg_length_le h.chain)

theorem Rep.not_lt_head {cmp : T → T → Int} (ord : StrictTotalOrder cmp) {s : SimpleMap T U}
    {L : List (Cell T U)} (h : Rep cmp s L) {i : Nat} (hi : i < L.length) :
    ¬ cmp (L[i]).key (L[0]).key < 0 := by
  by_cases h0 : i = 0
  · subst h0
    rw [ord.cmp_self]; omega
  · have := ord.pos_of_neg (h.key_lt (show 0 < i by omega) hi)
    omega

theorem Rep.not_gt_last {cmp : T → T → Int} (ord : StrictTotalOrder cmp) {s : SimpleMap T U}
    {L : List (Cell T U)} (h : Rep cmp s L) {i : Nat} (hi : i < L.length) :
    ¬ cmp (L[i]).key (L[L.length - 1]).key > 0 := by
  by_cases h0 : i = L.length - 1
  · subst h0
    rw [ord.cmp_self]; omega
  · have := h.key_lt (show i < L.length - 1 by omega) (by omega)
    omega

/-- The nested call `getIndex(lastNodeGot->key)` of `getNode`: the lookup of the cached
key returns the cached node at once and changes nothing. -/
theorem getNodeDepth_cached {cmp : T → T → Int} (ord : StrictTotalOrder cmp)
    {s : SimpleMap T U} {L : List (Cell T U)} (h : Rep cmp s L) (h3 : 3 ≤ L.length)
    (hc : s.isCached = true) {i : Nat} (hi : i < L.length)
    (hnode : s.lastNodeGot = some (L[i]).addr) (depth : Nat) :
    getNodeDepth cmp (depth + 1) s (L[i]).key = .ok (s.lastNodeGot, s) := by
  have hsz := h.size
  have hL : 0 < L.length := by omega
  unfold getNodeDepth
  rw [if_neg (by omega), if_neg (by omega), if_neg (by omega)]
  rw [h.begin_eq hL, h.deref_at hL]
  simp only [bind_ok]
  rw [if_neg (h.not_lt_head ord hi), h.end_eq hL, h.deref_at (show L.length - 1 < L.length by omega)]
  simp only [bind_ok]
  rw [if_neg (h.not_gt_last ord hi)]
  simp only [hc, if_true]
  rw [hnode, h.deref_at hi]
  simp only [bind_ok]
  rw [if_pos (ord.cmp_self _)]

end SimpleMap

namespace SimpleMap

variable {T U : Type}

theorem getNodeDepth_small {cmp : T → T → Int} {s : SimpleMap T U} {L : List (Cell T U)}
    (h : Rep cmp s L) (key : T) (depth : Nat) (h2 : L.length ≤ 2) :
    getNodeDepth cmp (depth + 1) s key =
      .ok ((L.find? (fun c => decide (cmp key c.key = 0))).map Cell.addr, s) := by
  have hsz := h.size
  match L, h, h2, hsz with
  | [], h, _, hsz =>
    have hsz0 : s.listSize = 0 := by simpa using hsz
    unfold getNodeDepth
    rw [if_pos (Or.inr (Or.inr hsz0))]
    rfl
  | [c], h, _, hsz =>
    have hb := h.begin_eq (L := [c]) (by simp)
    have hd := h.deref_at (L := [c]) (i := 0) (by simp)
    simp only [List.length_singleton, Nat.cast_one] at hsz
    unfold getNodeDepth
    rw [if_neg (by omega), if_pos hsz, hb, hd]
    simp only [bind_ok, List.getElem_cons_zero, List.find?_cons]
    by_cases hk : cmp key c.key = 0 <;> simp [hk]
  | [c, d], h, _, hsz =>
    have hb := h.begin_eq (L := [c, d]) (by simp)
    have he := h.end_eq (L := [c, d]) (by simp)
    have hd0 := h.deref_at (L := [c, d]) (i := 0) (by simp)
    have hd1 := h.deref_at (L := [c, d]) (i := 1) (by simp)
    simp only [List.length_cons, List.length_singleton, List.length_nil] at hsz
    unfold getNodeDepth
    rw [if_neg (by omega), if_neg (by omega), if_pos (by omega), hb, hd0]
    simp only [bind_ok, List.getElem_cons_zero, List.find?_cons]
    by_cases hk : cmp key c.key = 0
    · simp [hk]
    · rw [if_neg hk, he]
      simp only [List.length_cons, List.length_singleton, List.length_nil, Nat.reduceAdd,
        Nat.add_one_sub_one, List.getElem_cons_succ, List.getElem_cons_zero] at hd1 ⊢
      rw [hd1]
      by_cases hk2 : cmp key d.key = 0 <;> simp [hk, hk2]
  | _ :: _ :: _ :: _, _, h2, _ => simp at h2

theorem getNodeDepth_large {cmp : T → T → Int} (ord : StrictTotalOrder cmp)
    {s : SimpleMap T U} {L : List (Cell T U)} (h : Rep cmp s L) (key : T) (depth : Nat)
    (h3 : 3 ≤ L.length) :
    ∃ r t, getNodeDepth cmp (depth + 2) s key = .ok (r, t) ∧ Rep cmp t L ∧
      SameButCache s t ∧ Located cmp key L r t := by
  have hsz := h.size
  have hL : 0 < L.length := by omega
  have hlast : L.length - 1 < L.length := by omega
  unfold getNodeDepth
  rw [if_neg (by omega), if_neg (by omega), if_neg (by omega)]
  rw [h.begin_eq hL, h.deref_at hL]
  simp only [bind_ok]
  by_cases hlo : cmp key (L[0]).key < 0
  · rw [if_pos hlo]
    refine ⟨none, s, rfl, h, SameButCache.refl s, Or.inl ⟨rfl, ?_⟩⟩
    intro c hc
    obtain ⟨j, hj, rfl⟩ := List.getElem_of_mem hc
    by_cases hj0 : j = 0
    · subst hj0; omega
    · have := ord.trans _ _ _ hlo (h.key_lt (show 0 < j by omega) hj)
      omega
  rw [if_neg hlo, h.end_eq hL, h.deref_at hlast]
  simp only [bind_ok]
  by_cases hhi : cmp key (L[L.length - 1]).key > 0
  · rw [if_pos hhi]
    refine ⟨none, s, rfl, h, SameButCache.refl s, Or.inl ⟨rfl, ?_⟩⟩
    intro c hc
    obtain ⟨j, hj, rfl⟩ := List.getElem_of_mem hc
    by_cases hj0 : j = L.length - 1
    · subst hj0; omega
    · have h1 := h.key_lt (show j < L.length - 1 by omega) hlast
      have h2 := ord.neg_of_pos hhi
      have := ord.pos_of_neg (ord.trans _ _ _ h1 h2)
      omega
  rw [if_neg hhi]
  cases hc : s.isCached with
  | false =>
    simp only [Bool.false_eq_true, if_false]
    have := searchLoop_spec ord key (s.listSize - 1 - 0 + 1).toNat s 0 (s.listSize - 1)
      (Int.tdiv (0 + (s.listSize - 1)) 2) h (le_refl _) (by omega) rfl (le_refl _)
      (fun j _ hj => by omega) (fun j hj hj2 => by omega)
    exact this
  | true =>
    obtain ⟨c0, c1, c2, _⟩ := h.cacheOn hc
    have hci : s.lastIndexGot.toNat < L.length := by omega
    have hnode : s.lastNodeGot = some (L[s.lastIndexGot.toNat]).addr := by
      rw [c2, ptrAt_eq_some hci]
    have hcast : ((s.lastIndexGot.toNat : Nat) : Int) = s.lastIndexGot :=
      Int.toNat_of_nonneg c0
    simp only [if_true]
    rw [hnode, h.deref_at hci]
    simp only [bind_ok]
    by_cases hk0 : cmp key (L[s.lastIndexGot.toNat]).key = 0
    · rw [if_pos hk0]
      exact ⟨_, s, rfl, h, SameButCache.refl s,
        Or.inr ⟨s.lastIndexGot.toNat, hci, rfl, hk0, hc, hcast.symm, hnode⟩⟩
    rw [if_neg hk0]
    have hnest := getNodeDepth_cached ord h h3 hc hci hnode depth
    by_cases hpos : cmp key (L[s.lastIndexGot.toNat]).key > 0
    · have hnneg : ¬ cmp key (L[s.lastIndexGot.toNat]).key < 0 := by omega
      rw [if_pos hpos, hnest]
      simp only [bind_ok, hnode, Option.isSome_some, if_true]
      rw [h.deref_at hci]
      simp only [bind_ok]
      rw [if_neg hnneg]
      exact searchLoop_spec ord key _ s _ _ _ h c0 (by omega) rfl (le_refl _)
        (fun j hj hjl => by
          have hjl2 : j < s.lastIndexGot.toNat := by omega
          have h1 := h.key_lt hjl2 hci
          have h2 := ord.neg_of_pos hpos
          exact ord.pos_of_neg (ord.trans _ _ _ h1 h2))
        (fun j hj hj2 => by omega)
    · have hneg : cmp key (L[s.lastIndexGot.toNat]).key < 0 := by omega
      rw [if_neg hpos]
      rw [if_pos hneg, hnest]
      simp only [bind_ok, hnode, Option.isSome_some, if_true]
      exact searchLoop_spec ord key _ s _ _ _ h (le_refl _) (by omega) rfl (le_refl _)
        (fun j hj hjl => by omega)
        (fun j hj hj2 => by
          have hjl2 : s.lastIndexGot.toNat < j := by omega
          exact ord.trans _ _ _ hneg (h.key_lt hjl2 hj))

/-- What `getNode` does on a well-formed container: it returns, it changes at most the
cache, and its result is that of the plain linear search. -/
theorem getNode_spec {cmp : T → T → Int} (ord : StrictTotalOrder cmp)
    {s : SimpleMap T U} {L : List (Cell T U)} (h : Rep cmp s L) (key : T) :
    ∃ r t, getNode cmp s key = .ok (r, t) ∧ Rep cmp t L ∧ SameButCache s t ∧
      r = (L.find? (fun c => decide (cmp key c.key = 0))).map Cell.addr ∧
      (L.length ≤ 2 → t = s) ∧ (3 ≤ L.length → Located cmp key L r t) := by
  by_cases h2 : L.length ≤ 2
  · exact ⟨_, s, getNodeDepth_small h key 1 h2, h, SameButCache.refl s, rfl, fun _ => rfl,
      fun h3 => by omega⟩
  · obtain ⟨r, t, hrun, hrep, hsame, hloc⟩ := getNodeDepth_large ord h key 0 (by omega)
    exact ⟨r, t, hrun, hrep, hsame, hloc.eq_find ord h, fun h2' => by omega, fun _ => hloc⟩

end SimpleMap

/-! ## The scanning loops and pointer surgery -/

namespace SimpleMap

variable {T U : Type}

theorem prevPtr_cons (p : Option Nat) (x : Cell T U) (L : List (Cell T U)) :
    prevPtr p (x :: L) = prevPtr (some x.addr) L := by
  cases L with
  | nil => simp [prevPtr]
  | cons y L =>
    simp only [prevPtr, List.getLast?_cons_cons]
    rw [List.getLast?_eq_getLast _ (List.cons_ne_nil y L)]

theorem scan_found {hp : Heap T U} {g : T → Bool} {L1 L2 : List (Cell T U)} {c : Cell T U}
    {h q : Option Nat} (hseg : Lseg hp h (L1 ++ c :: L2) q)
    (hno : ∀ x ∈ L1, g x.key = false) (hyes : g c.key = true) (fuel : Nat)
    (hf : L1.length + 1 ≤ fuel) (p : Option Nat) (c0 : Int) :
    scan hp g fuel h p c0 = .ok (some c.addr, prevPtr p L1, true, c0 + L1.length) := by
  induction L1 generalizing h p c0 fuel with
  | nil =>
    obtain ⟨h0, nx, hr, _⟩ := hseg
    subst h0
    cases fuel with
    | zero => simp at hf
    | succ f =>
      simp [scan, deref_some hr, hyes, prevPtr]
  | cons x L1 ih =>
    obtain ⟨h0, nx, hr, hrest⟩ := hseg
    subst h0
    cases fuel with
    | zero => simp at hf
    | succ f =>
      have hx : g x.key = false := hno x (List.mem_cons_self _ _)
      have := ih hrest (fun y hy => hno y (List.mem_cons_of_mem _ hy)) f
        (by simpa using hf) (some x.addr) (c0 + 1)
      simp only [scan, Option.isSome_some, if_true, deref_some hr, bind_ok, hx,
        Bool.false_eq_true, if_false, this, prevPtr_cons, List.length_cons]
      push_cast
      rw [show c0 + 1 + (L1.length : Int) = c0 + ((L1.length : Int) + 1) by omega]

theorem scan_none {hp : Heap T U} {g : T → Bool} {L : List (Cell T U)}
    {h : Option Nat} (hseg : Lseg hp h L none)
    (hno : ∀ x ∈ L, g x.key = false) (fuel : Nat)
    (hf : L.length ≤ fuel) (p : Option Nat) (c0 : Int) :
    scan hp g fuel h p c0 = .ok (none, prevPtr p L, false, c0 + L.length) := by
  induction L generalizing h p c0 fuel with
  | nil =>
    have : h = none := hseg
    subst this
    cases fuel <;> simp [scan, prevPtr]
  | cons x L ih =>
    obtain ⟨h0, nx, hr, hrest⟩ := hseg
    subst h0
    cases fuel with
    | zero => simp at hf
    | succ f =>
      have hx : g x.key = false := hno x (List.mem_cons_self _ _)
      have := ih hrest (fun y hy => hno y (List.mem_cons_of_mem _ hy)) f
        (by simpa using hf) (some x.addr) (c0 + 1)
      simp only [scan, Option.isSome_some, if_true, deref_some hr, bind_ok, hx,
        Bool.false_eq_true, if_false, this, prevPtr_cons, List.length_cons]
      push_cast
      rw [show c0 + 1 + (L.length : Int) = c0 + ((L.length : Int) + 1) by omega]

/-- A list segment only depends on the cells it passes through. -/
theorem Lseg_congr {hp hp' : Heap T U} {L : List (Cell T U)} {p q : Option Nat}
    (hsame : ∀ c ∈ L, hp'.read c.addr = hp.read c.addr) (h : Lseg hp p L q) :
    Lseg hp' p L q := by
  induction L generalizing p with
  | nil => exact h
  | cons c L ih =>
    obtain ⟨h0, nx, hr, hrest⟩ := h
    refine ⟨h0, nx, ?_, ih (fun d hd => hsame d (List.mem_cons_of_mem _ hd)) hrest⟩
    rw [hsame c (List.mem_cons_self _ _)]
    exact hr

/-- Redirecting the `next` field of the last cell of a segment. -/
theorem Lseg_redirect {hp hp' : Heap T U} {L : List (Cell T U)} {x : Cell T U}
    {p q : Option Nat} (q' : Option Nat) (h : Lseg hp p (L ++ [x]) q)
    (hsame : ∀ c ∈ L, hp'.read c.addr = hp.read c.addr)
    (hx : hp'.read x.addr = some { key := x.key, data := x.data, next := q' }) :
    Lseg hp' p (L ++ [x]) q' := by
  obtain ⟨m, h1, h2⟩ := Lseg_append.1 h
  exact Lseg_append.2 ⟨m, Lseg_congr hsame h1, h2.1, q', hx, rfl⟩

theorem Lseg_last_read {hp : Heap T U} {L : List (Cell T U)} {x : Cell T U}
    {p q : Option Nat} (h : Lseg hp p (L ++ [x]) q) :
    hp.read x.addr = some { key := x.key, data := x.data, next := q } := by
  obtain ⟨m, _, h2⟩ := Lseg_append.1 h
  obtain ⟨_, nx, hr, hq⟩ := h2
  have : nx = q := hq
  rw [hr, this]

theorem Lseg_mid_read {hp : Heap T U} {L1 L2 : List (Cell T U)} {c : Cell T U}
    {p q : Option Nat} (h : Lseg hp p (L1 ++ c :: L2) q) :
    ∃ nx, hp.read c.addr = some { key := c.key, data := c.data, next := nx } ∧
      Lseg hp p L1 (some c.addr) ∧ Lseg hp nx L2 q := by
  obtain ⟨m, h1, h2⟩ := Lseg_append.1 h
  obtain ⟨hm, nx, hr, hq⟩ := h2
  subst hm
  exact ⟨nx, hr, h1, hq⟩

end SimpleMap

/-! ## `put` -/

namespace SimpleMap

variable {T U : Type}

theorem prevPtr_append (p : Option Nat) (A B : List (Cell T U)) :
    prevPtr p (A ++ B) = prevPtr (prevPtr p A) B := by
  induction A generalizing p with
  | nil => rfl
  | cons x A ih => rw [List.cons_append, prevPtr_cons, prevPtr_cons, ih]

theorem prevPtr_of_ne_nil (p p' : Option Nat) {L : List (Cell T U)} (hL : L ≠ []) :
    prevPtr p L = prevPtr p' L ∧ ∃ y ∈ L, prevPtr p L = some y.addr := by
  unfold prevPtr
  rw [List.getLast?_eq_getLast _ hL]
  exact ⟨rfl, _, List.getLast_mem hL, rfl⟩

/-- The tail pointer after the cell `c` in the middle of the chain was exchanged for a cell
at address `a`. -/
theorem prevPtr_exchange {L2 : List (Cell T U)} {c : Cell T U} {a : Nat}
    (hne : ∀ y ∈ L2, y.addr ≠ c.addr) :
    (if some c.addr = prevPtr (some c.addr) L2 then some a else prevPtr (some c.addr) L2) =
      prevPtr (some a) L2 := by
  by_cases hL : L2 = []
  · subst hL; simp [prevPtr]
  · obtain ⟨h1, y, hy, h2⟩ := prevPtr_of_ne_nil (some c.addr) (some a) hL
    rw [← h1, h2, if_neg]
    intro he
    exact hne y hy (Option.some.inj he).symm

theorem Heap.read_set (hp : Heap T U) (a b : Nat) (x : Option (SimpleMapNode T U)) :
    Heap.read (hp.set a x) b = if a = b then (if a < hp.length then x else none)
      else hp.read b := by
  by_cases hab : a = b
  · subst hab
    by_cases hlt : a < hp.length
    · simp [Heap.read_set_same x hlt, hlt]
    · simp [Heap.read, List.getD_eq_getElem?_getD, List.getElem?_set, hlt]
  · simp [Heap.read_set_ne x hab, hab]

theorem Rep.of_setCache {cmp : T → T → Int} {s : SimpleMap T U} {L : List (Cell T U)}
    (chain : Lseg s.heap s.listBegin L none) (nodup : (L.map Cell.addr).Nodup)
    (size : s.listSize = L.length) (last : s.listEnd = prevPtr none L)
    (sorted : (L.map Cell.key).Pairwise (fun a b => cmp a b < 0))
    (idx : Int) (node : Nat) (h0 : 0 ≤ idx) (hi : idx < L.length)
    (hnode : ptrAt L idx.toNat = some node) :
    Rep cmp (setCache s idx (some node)) L := by
  rw [setCache_valid s h0 (by rw [size]; exact hi)]
  exact ⟨chain, nodup, size, last, sorted,
    fun _ => ⟨h0, hi, hnode.symm, by simp⟩, fun hc => by simp at hc⟩

theorem Lseg_cons {hp : Heap T U} {L : List (Cell T U)} {c : Cell T U} {p q r : Option Nat}
    (h0 : p = some c.addr)
    (hr : hp.read c.addr = some { key := c.key, data := c.data, next := r })
    (hrest : Lseg hp r L q) : Lseg hp p (c :: L) q :=
  ⟨h0, r, hr, hrest⟩

theorem ptrAt_append_cons (L1 L2 : List (Cell T U)) (c : Cell T U) :
    ptrAt (L1 ++ c :: L2) L1.length = some c.addr := by
  simp [ptrAt, List.getElem?_append_right (le_refl L1.length)]

theorem length_lt_append_cons (L1 L2 : List (Cell T U)) (c : Cell T U) :
    (L1.length : Int) < ((L1 ++ c :: L2).length : Int) := by
  rw [List.length_append, List.length_cons]
  push_cast
  omega

theorem Lseg_head_mem {hp : Heap T U} {A : List (Cell T U)} {p q : Option Nat}
    (h : Lseg hp p A q) (hA : A ≠ []) : ∃ y ∈ A, p = some y.addr := by
  cases A with
  | nil => exact absurd rfl hA
  | cons y A => exact ⟨y, List.mem_cons_self _ _, h.1⟩

theorem freeData_some {s : SimpleMap T U} {a : Nat} {n : SimpleMapNode T U}
    (h : s.heap.read a = some n) :
    freeData s (some a) =
      .ok { s with freed := s.freed ++ (if s.freeItem then [n.data] else []) } := by
  unfold freeData
  cases hf : s.freeItem with
  | true => simp [deref_some h]
  | false =>
    cases s
    simp only at hf
    simp [hf]

theorem putReplace_spec {cmp : T → T → Int} {s : SimpleMap T U} {L1 L2 : List (Cell T U)}
    {c : Cell T U} {key : T} {obj : U} {a : Nat}
    (chain : Lseg s.heap s.listBegin (L1 ++ c :: L2) none)
    (nodup : ((L1 ++ c :: L2).map Cell.addr).Nodup)
    (size : s.listSize = (L1 ++ c :: L2).length)
    (last : s.listEnd = prevPtr none (L1 ++ c :: L2))
    (hnew : s.heap.read a = some { key := key, data := obj, next := none })
    (hfresh : ∀ x ∈ L1 ++ c :: L2, x.addr ≠ a)
    (sorted : ((L1 ++ { addr := a, key := key, data := obj } :: L2).map Cell.key).Pairwise
      (fun a b => cmp a b < 0)) :
    ∃ t, putReplace s (some a) (some c.addr) (prevPtr none L1) (L1.length : Int) = .ok t ∧
      Rep cmp t (L1 ++ { addr := a, key := key, data := obj } :: L2) ∧
      t.locked = s.locked ∧ t.freeItem = s.freeItem ∧
      t.freed = s.freed ++ (if s.freeItem then [c.data] else []) ∧
      t.isCached = true ∧ t.lastIndexGot = (L1.length : Int) ∧ t.lastNodeGot = some a := by
  obtain ⟨nx, hrc, hseg1, hseg2⟩ := Lseg_mid_read chain
  have halt := Heap.read_lt hnew
  have hclt := Heap.read_lt hrc
  have hca : c.addr ≠ a := hfresh c (by simp)
  rw [List.map_append, List.map_cons, List.nodup_append] at nodup
  obtain ⟨nd1, nd2, ndd⟩ := nodup
  rw [List.nodup_cons] at nd2
  have hL2c : ∀ y ∈ L2, y.addr ≠ c.addr := fun y hy he =>
    nd2.1 (he ▸ List.mem_map_of_mem Cell.addr hy)
  have hL1c : ∀ y ∈ L1, y.addr ≠ c.addr := fun y hy he =>
    ndd (List.mem_map_of_mem Cell.addr hy) (he ▸ List.mem_cons_self _ _)
  have hL12 : ∀ y ∈ L1, ∀ z ∈ L2, y.addr ≠ z.addr := fun y hy z hz he =>
    ndd (List.mem_map_of_mem Cell.addr hy)
      (List.mem_cons_of_mem _ (he ▸ List.mem_map_of_mem Cell.addr hz))
  have hend : s.listEnd = prevPtr (some c.addr) L2 := by
    rw [last, prevPtr_append, prevPtr_cons]
  have nodup' : ((L1 ++ ({ addr := a, key := key, data := obj } : Cell T U) :: L2).map
      Cell.addr).Nodup := by
    rw [List.map_append, List.map_cons, List.nodup_append, List.nodup_cons]
    refine ⟨nd1, ⟨?_, nd2.2⟩, ?_⟩
    · intro hm
      obtain ⟨y, hy, hya⟩ := List.mem_map.1 hm
      exact hfresh y (by simp [hy]) hya
    · intro b hb1 hb2
      rcases List.mem_cons.1 hb2 with rfl | hb2
      · obtain ⟨y, hy, hya⟩ := List.mem_map.1 hb1
        exact hfresh y (by simp [hy]) hya
      · exact ndd hb1 (List.mem_cons_of_mem _ hb2)
  have size' : s.listSize = (L1 ++ ({ addr := a, key := key, data := obj } : Cell T U) :: L2).length := by
    rw [size]; simp
  rcases List.eq_nil_or_concat' L1 with rfl | ⟨L0, x, rfl⟩
  · -- the replaced node is the head
    have hb : s.listBegin = some c.addr := chain.1
    unfold putReplace
    simp only [prevPtr_nil, Option.isSome_none, Bool.false_eq_true, if_false, bind_ok, hb,
      if_true, deref_some hrc, setNext_some _ hnew]
    rw [freeData_some (a := c.addr) (n := { key := c.key, data := c.data, next := nx })
      (by simp [Heap.read_set, hca.symm, hrc])]
    simp only [bind_ok, delete, hend, prevPtr_exchange hL2c]
    refine ⟨_, rfl, ?_, ?_⟩
    · refine Rep.of_setCache ?_ nodup' ?_ ?_ sorted _ _ (Int.natCast_nonneg _)
        (length_lt_append_cons _ _ _) ?_
      · exact Lseg_cons (r := nx) rfl (by simp [Heap.read_set, hca, halt, hclt])
          (Lseg_congr (fun y hy => by
            have h1 := hL2c y hy
            have h2 := hfresh y (by simp [hy])
            simp [Heap.read_set, h1.symm, h2.symm]) hseg2)
      · exact size'
      · simp [prevPtr_cons]
      · simp [ptrAt]
    · rw [setCache_valid _ (Int.natCast_nonneg _) (by
        show _ < s.listSize
        rw [size]
        exact length_lt_append_cons _ _ _)]
      exact ⟨rfl, rfl, rfl, rfl, rfl, rfl⟩
  · -- the replaced node has a predecessor `x`
    have hxr := Lseg_last_read hseg1
    have hxc : x.addr ≠ c.addr := hL1c x (by simp)
    have hxa : x.addr ≠ a := hfresh x (by simp)
    have hxlt := Heap.read_lt hxr
    have hb : some c.addr ≠ s.listBegin := by
      obtain ⟨y, hy, hyb⟩ := Lseg_head_mem hseg1 (by simp)
      rw [hyb]
      intro he
      exact hL1c y hy (Option.some.inj he).symm
    have hr1 : Heap.read (s.heap.set x.addr
        (some { key := x.key, data := x.data, next := some a })) c.addr =
        some { key := c.key, data := c.data, next := nx } := by
      simp [Heap.read_set, hxc, hrc]
    have hr2 : Heap.read (s.heap.set x.addr
        (some { key := x.key, data := x.data, next := some a })) a =
        some { key := key, data := obj, next := none } := by
      simp [Heap.read_set, hxa, hnew]
    unfold putReplace
    simp only [prevPtr_append_cons, Option.isSome_some, if_true, bind_ok, if_neg hb,
      setNext_some _ hxr, deref_some hr1, setNext_some _ hr2]
    rw [freeData_some (a := c.addr) (n := { key := c.key, data := c.data, next := nx })
      (by simp [Heap.read_set, hca.symm, hxc, hrc])]
    simp only [bind_ok, delete, hend, prevPtr_exchange hL2c]
    refine ⟨_, rfl, ?_, ?_⟩
    · refine Rep.of_setCache ?_ nodup' ?_ ?_ sorted _ _ (Int.natCast_nonneg _)
        (length_lt_append_cons _ _ _) ?_
      · refine Lseg_append.2 ⟨some a, Lseg_redirect (some a) hseg1 (fun y hy => ?_) ?_, ?_⟩
        · have h1 := hL1c y (by simp [hy])
          have h2 := hfresh y (by simp [hy])
          have h3 : y.addr ≠ x.addr := by
            intro he
            rw [List.map_append, List.nodup_append] at nd1
            exact nd1.2.2 (List.mem_map_of_mem Cell.addr hy) (by simp [he])
          simp [Heap.read_set, h1.symm, h2.symm, h3.symm]
        · simp [Heap.read_set, hxc.symm, hxa.symm, hxlt]
        · exact Lseg_cons (r := nx) rfl
            (by simp [Heap.read_set, hca, halt, hclt])
            (Lseg_congr (fun y hy => by
              have h1 := hL2c y hy
              have h2 := hfresh y (by simp [hy])
              have h3 := hL12 x (by simp) y hy
              simp [Heap.read_set, h1.symm, h2.symm, h3]) hseg2)
      · exact size'
      · simp [prevPtr_append, prevPtr_cons]
      · rw [Int.toNat_ofNat]
        exact ptrAt_append_cons _ _ _
    · rw [setCache_valid _ (Int.natCast_nonneg _) (by
        show _ < s.listSize
        rw [size]
        exact length_lt_append_cons _ _ _)]
      exact ⟨rfl, rfl, rfl, rfl, rfl, rfl⟩

end SimpleMap

namespace SimpleMap

variable {T U : Type}

theorem Lseg_tail_read {hp : Heap T U} {L : List (Cell T U)} {p : Option Nat}
    (h : Lseg hp p L none) (hL : L ≠ []) (p0 : Option Nat) :
    ∃ z ∈ L, prevPtr p0 L = some z.addr ∧
      hp.read z.addr = some { key := z.key, data := z.data, next := none } := by
  rcases List.eq_nil_or_concat' L with rfl | ⟨L0, z, rfl⟩
  · exact absurd rfl hL
  · exact ⟨z, by simp, prevPtr_append_cons _ _ _, Lseg_last_read h⟩

theorem Lseg_head_read {hp : Heap T U} {A : List (Cell T U)} {p q : Option Nat}
    (h : Lseg hp p A q) (hA : A ≠ []) :
    ∃ w ∈ A, ∃ nx, p = some w.addr ∧
      hp.read w.addr = some { key := w.key, data := w.data, next := nx } := by
  cases A with
  | nil => exact absurd rfl hA
  | cons y A =>
    obtain ⟨h0, nx, hr, _⟩ := h
    exact ⟨y, List.mem_cons_self _ _, nx, h0, hr⟩

theorem putInsert_spec {cmp : T → T → Int} (ord : StrictTotalOrder cmp) {s : SimpleMap T U}
    {L1 L2 : List (Cell T U)} {key : T} {obj : U} {a : Nat}
    (chain : Lseg s.heap s.listBegin (L1 ++ L2) none)
    (nodup : ((L1 ++ L2).map Cell.addr).Nodup)
    (size : s.listSize = (L1 ++ L2).length)
    (last : s.listEnd = prevPtr none (L1 ++ L2))
    (hnew : s.heap.read a = some { key := key, data := obj, next := none })
    (hfresh : ∀ x ∈ L1 ++ L2, x.addr ≠ a)
    (hlt : ∀ x ∈ L1, cmp x.key key < 0) (hgt : ∀ x ∈ L2, cmp x.key key > 0)
    (sorted : ((L1 ++ { addr := a, key := key, data := obj } :: L2).map Cell.key).Pairwise
      (fun a b => cmp a b < 0)) :
    ∃ t, putInsert cmp s key (some a) = .ok t ∧
      Rep cmp t (L1 ++ { addr := a, key := key, data := obj } :: L2) ∧
      t.locked = s.locked ∧ t.freeItem = s.freeItem ∧ t.freed = s.freed ∧
      t.isCached = true ∧ t.lastIndexGot = (L1.length : Int) ∧ t.lastNodeGot = some a := by
  have halt := Heap.read_lt hnew
  have nodup0 := nodup
  rw [List.map_append, List.nodup_append] at nodup
  obtain ⟨nd1, nd2, ndd⟩ := nodup
  have hL12 : ∀ y ∈ L1, ∀ z ∈ L2, y.addr ≠ z.addr := fun y hy z hz he =>
    ndd (List.mem_map_of_mem Cell.addr hy) (he ▸ List.mem_map_of_mem Cell.addr hz)
  have nodup' : ((L1 ++ ({ addr := a, key := key, data := obj } : Cell T U) :: L2).map
      Cell.addr).Nodup := by
    rw [List.map_append, List.map_cons, List.nodup_append, List.nodup_cons]
    refine ⟨nd1, ⟨?_, nd2⟩, ?_⟩
    · intro hm
      obtain ⟨y, hy, hya⟩ := List.mem_map.1 hm
      exact hfresh y (by simp [hy]) hya
    · intro b hb1 hb2
      rcases List.mem_cons.1 hb2 with rfl | hb2
      · obtain ⟨y, hy, hya⟩ := List.mem_map.1 hb1
        exact hfresh y (by simp [hy]) hya
      · exact ndd hb1 hb2
  have size' : s.listSize + 1 =
      (L1 ++ ({ addr := a, key := key, data := obj } : Cell T U) :: L2).length := by
    rw [size]; simp; omega
  have hidx : (L1.length : Int) < s.listSize + 1 := by
    rw [size]; simp; omega
  obtain ⟨m, hseg1, hseg2⟩ := Lseg_append.1 chain
  cases L2 with
  | nil =>
    have hm : m = none := hseg2
    subst hm
    rcases List.eq_nil_or_concat' L1 with rfl | ⟨L0, x, rfl⟩
    · -- empty container
      have hsz0 : s.listSize = 0 := by simpa using size
      unfold putInsert
      simp only [hsz0, if_true, bind_ok]
      refine ⟨_, rfl, ?_, ?_⟩
      · refine Rep.of_setCache ?_ nodup' ?_ ?_ sorted _ _ (le_refl _) (by simp) ?_
        · exact Lseg_cons (r := none) rfl hnew rfl
        · simp
        · simp [prevPtr]
        · simp [ptrAt]
      · rw [setCache_valid _ (le_refl _) (by simp)]
        exact ⟨rfl, rfl, rfl, rfl, rfl, rfl⟩
    · -- append after the tail
      have hsz0 : s.listSize ≠ 0 := by rw [size]; simp; omega
      have hxr := Lseg_last_read hseg1
      have hxa : x.addr ≠ a := hfresh x (by simp)
      have hxlt := Heap.read_lt hxr
      have hend : s.listEnd = some x.addr := by
        rw [last, List.append_nil, prevPtr_append_cons]
      have hcmp : cmp key x.key > 0 := ord.pos_of_neg (hlt x (by simp))
      unfold putInsert
      simp only [if_neg hsz0, hend, deref_some hxr, bind_ok, if_pos hcmp, setNext_some _ hxr]
      have hsz1 : s.listSize = ((L0 ++ [x]).length : Int) := by rw [size]; simp
      refine ⟨_, rfl, ?_, ?_⟩
      · refine Rep.of_setCache ?_ nodup' ?_ ?_ sorted _ _ ?_ ?_ ?_
        · refine Lseg_append.2 ⟨some a, Lseg_redirect (some a) hseg1 (fun y hy => ?_) ?_, ?_⟩
          · have h3 : y.addr ≠ x.addr := by
              intro he
              rw [List.map_append, List.nodup_append] at nd1
              exact nd1.2.2 (List.mem_map_of_mem Cell.addr hy) (by simp [he])
            simp [Heap.read_set, h3.symm]
          · simp [Heap.read_set, hxlt]
          · exact Lseg_cons (r := none) rfl (by simp [Heap.read_set, hxa, hnew]) rfl
        · exact size'
        · simp [prevPtr_append, prevPtr_cons, prevPtr]
        · show 0 ≤ s.listSize
          rw [hsz1]; exact Int.natCast_nonneg _
        · show s.listSize < _
          rw [hsz1]; exact length_lt_append_cons _ _ _
        · show ptrAt _ (s.listSize).toNat = _
          rw [hsz1, Int.toNat_ofNat]
          exact ptrAt_append_cons _ _ _
      · rw [setCache_valid _ (by show 0 ≤ s.listSize; rw [hsz1]; exact Int.natCast_nonneg _)
          (by show s.listSize < s.listSize + 1; omega)]
        exact ⟨rfl, rfl, rfl, rfl, hsz1, rfl⟩
  | cons y L2 =>
    have hsz0 : s.listSize ≠ 0 := by rw [size]; simp; omega
    obtain ⟨z, hz, hzp, hzr⟩ := Lseg_tail_read hseg2 (List.cons_ne_nil _ _) (prevPtr none L1)
    have hend : s.listEnd = some z.addr := by rw [last, prevPtr_append, hzp]
    have hzc : ¬ cmp key z.key > 0 := by
      have := ord.neg_of_pos (hgt z hz)
      omega
    obtain ⟨hmy, nx, hyr, hseg3⟩ := hseg2
    have hya : y.addr ≠ a := hfresh y (by simp)
    have hylt := Heap.read_lt hyr
    have hyc : cmp key y.key < 0 := ord.neg_of_pos (hgt y (by simp))
    have hL2a : ∀ w ∈ y :: L2, w.addr ≠ a := fun w hw => hfresh w (by
      rw [List.mem_append]; exact Or.inr hw)
    have hseg2 : Lseg s.heap (some y.addr) (y :: L2) none := Lseg_cons rfl hyr hseg3
    rcases List.eq_nil_or_concat' L1 with rfl | ⟨L0, x, rfl⟩
    · -- prepend before the head
      have hb : s.listBegin = some y.addr := by
        have : s.listBegin = m := hseg1
        rw [this, hmy]
      unfold putInsert
      simp only [if_neg hsz0, hend, deref_some hzr, bind_ok, if_neg hzc, hb, deref_some hyr,
        if_pos hyc, setNext_some _ hnew]
      refine ⟨_, rfl, ?_, ?_⟩
      · refine Rep.of_setCache ?_ nodup' ?_ ?_ sorted _ _ (le_refl _) (by simp; omega) ?_
        · exact Lseg_cons (r := some y.addr) rfl (by simp [Heap.read_set, halt])
            (Lseg_congr (fun w hw => by
              have := hL2a w hw
              simp [Heap.read_set, this.symm]) hseg2)
        · exact size'
        · show some z.addr = _
          rw [List.nil_append, prevPtr_cons, ← hzp]
          exact (prevPtr_of_ne_nil _ _ (List.cons_ne_nil _ _)).1
        · simp [ptrAt]
      · rw [setCache_valid _ (le_refl _) (by show (0 : Int) < s.listSize + 1; rw [size]; simp; omega)]
        exact ⟨rfl, rfl, rfl, rfl, rfl, rfl⟩
    · -- insertion in the middle
      obtain ⟨w, hw, nw, hwb, hwr⟩ := Lseg_head_read hseg1 (by simp)
      have hwc : ¬ cmp key w.key < 0 := by
        have := ord.pos_of_neg (hlt w hw)
        omega
      have hxr := Lseg_last_read hseg1
      have hxa : x.addr ≠ a := hfresh x (by simp)
      have hxlt := Heap.read_lt hxr
      have hxy : x.addr ≠ y.addr := hL12 x (by simp) y (by simp)
      have hscan := scan_found (g := fun k => decide (cmp k key > 0)) chain
        (fun v hv => by
          have := hlt v hv
          simp only [decide_eq_false_iff_not]
          omega)
        (by simpa using hgt y (by simp)) (s.heap.length + 1)
        (by
          have := Lseg_length_le chain
          simp at this ⊢
          omega) none 0
      have hr1 : Heap.read (s.heap.set a (some { key := key, data := obj, next := some y.addr }))
          x.addr = some { key := x.key, data := x.data, next := m } := by
        simp [Heap.read_set, hxa.symm, hxr]
      rw [hwb] at hscan hseg1
      unfold putInsert
      simp only [if_neg hsz0, hend, deref_some hzr, bind_ok, if_neg hzc, hwb, deref_some hwr,
        if_neg hwc, hscan, setNext_some _ hnew, prevPtr_append_cons, Option.isSome_some,
        if_true, setNext_some _ hr1, Int.zero_add]
      refine ⟨_, rfl, ?_, ?_⟩
      · refine Rep.of_setCache ?_ nodup' ?_ ?_ sorted _ _ (Int.natCast_nonneg _)
          (length_lt_append_cons _ _ _) ?_
        · refine Lseg_append.2 ⟨some a, Lseg_redirect (some a) hseg1 (fun v hv => ?_) ?_, ?_⟩
          · have h3 : v.addr ≠ x.addr := by
              intro he
              rw [List.map_append, List.nodup_append] at nd1
              exact nd1.2.2 (List.mem_map_of_mem Cell.addr hv) (by simp [he])
            have h4 : v.addr ≠ a := hfresh v (by simp [hv])
            simp [Heap.read_set, h3.symm, h4.symm]
          · simp [Heap.read_set, hxlt, hxa.symm, halt]
          · exact Lseg_cons (r := some y.addr) rfl
              (by simp [Heap.read_set, hxa, halt])
              (Lseg_congr (fun v hv => by
                have h1 := hL2a v hv
                have h2 := hL12 x (by simp) v hv
                simp [Heap.read_set, h1.symm, h2]) hseg2)
        · exact size'
        · show some z.addr = _
          rw [prevPtr_append, prevPtr_cons, ← hzp]
          exact (prevPtr_of_ne_nil _ _ (List.cons_ne_nil _ _)).1
        · rw [Int.toNat_ofNat]
          exact ptrAt_append_cons _ _ _
      · rw [setCache_valid _ (Int.natCast_nonneg _) hidx]
        exact ⟨rfl, rfl, rfl, rfl, rfl, rfl⟩

end SimpleMap

namespace SimpleMap

variable {T U : Type}

/-- A sorted chain splits around any key: the cells below it, possibly one cell carrying
it, and the cells above it. -/
theorem sorted_split {cmp : T → T → Int} (ord : StrictTotalOrder cmp) (key : T)
    (L : List (Cell T U)) (hs : (L.map Cell.key).Pairwise (fun a b => cmp a b < 0)) :
    ∃ L1 M L2, L = L1 ++ M ++ L2 ∧ (∀ x ∈ L1, cmp x.key key < 0) ∧
      (∀ x ∈ L2, cmp x.key key > 0) ∧ (M = [] ∨ ∃ c, M = [c] ∧ c.key = key) := by
  induction L with
  | nil => exact ⟨[], [], [], rfl, by simp, by simp, Or.inl rfl⟩
  | cons x L ih =>
    rw [List.map_cons, List.pairwise_cons] at hs
    obtain ⟨hx, hrest⟩ := hs
    have hx' : ∀ y ∈ L, cmp x.key y.key < 0 := fun y hy =>
      hx y.key (List.mem_map_of_mem Cell.key hy)
    by_cases h0 : cmp x.key key = 0
    · have hk : x.key = key := (ord.eq_iff _ _).1 h0
      refine ⟨[], [x], L, rfl, by simp, ?_, Or.inr ⟨x, rfl, hk⟩⟩
      intro y hy
      have := hx' y hy
      rw [hk] at this
      exact ord.pos_of_neg this
    · by_cases hpos : cmp x.key key > 0
      · refine ⟨[], [], x :: L, rfl, by simp, ?_, Or.inl rfl⟩
        intro y hy
        rcases List.mem_cons.1 hy with rfl | hy
        · exact hpos
        · exact ord.pos_of_neg (ord.trans _ _ _ (ord.neg_of_pos hpos) (hx' y hy))
      · obtain ⟨L1, M, L2, hL, h1, h2, hM⟩ := ih hrest
        refine ⟨x :: L1, M, L2, by rw [hL]; rfl, ?_, h2, hM⟩
        intro y hy
        rcases List.mem_cons.1 hy with rfl | hy
        · omega
        · exact h1 y hy

theorem sorted_insert {cmp : T → T → Int} (ord : StrictTotalOrder cmp) {key : T}
    {L1 L2 : List (Cell T U)} (n : Cell T U) (hn : n.key = key)
    (hs : ((L1 ++ L2).map Cell.key).Pairwise (fun a b => cmp a b < 0))
    (h1 : ∀ x ∈ L1, cmp x.key key < 0) (h2 : ∀ x ∈ L2, cmp x.key key > 0) :
    ((L1 ++ n :: L2).map Cell.key).Pairwise (fun a b => cmp a b < 0) := by
  rw [List.map_append, List.pairwise_append] at hs
  obtain ⟨s1, s2, s12⟩ := hs
  rw [List.map_append, List.map_cons, List.pairwise_append, List.pairwise_cons]
  refine ⟨s1, ⟨?_, s2⟩, ?_⟩
  · intro b hb
    obtain ⟨y, hy, rfl⟩ := List.mem_map.1 hb
    rw [hn]
    exact ord.neg_of_pos (h2 y hy)
  · intro a ha b hb
    rcases List.mem_cons.1 hb with rfl | hb
    · obtain ⟨y, hy, rfl⟩ := List.mem_map.1 ha
      rw [hn]
      exact h1 y hy
    · exact s12 a ha b hb

theorem Rep.alloc {cmp : T → T → Int} {s : SimpleMap T U} {L : List (Cell T U)}
    (h : Rep cmp s L) (x : Option (SimpleMapNode T U)) :
    Rep cmp { s with heap := s.heap ++ [x] } L :=
  ⟨Lseg_alloc x h.chain, h.nodup, h.size, h.last, h.sorted, h.cacheOn, h.cacheOff⟩

/-- A `put` of a key the chain already holds: the cell is exchanged, whatever the lock. -/
theorem put_found {cmp : T → T → Int} (ord : StrictTotalOrder cmp) {s : SimpleMap T U}
    {L1 L2 : List (Cell T U)} {c : Cell T U} (h : Rep cmp s (L1 ++ c :: L2)) (obj : U) :
    ∃ t, put cmp s c.key obj = .ok t ∧
      Rep cmp t (L1 ++ { addr := s.heap.length, key := c.key, data := obj } :: L2) ∧
      t.locked = s.locked ∧ t.freeItem = s.freeItem ∧
      t.freed = s.freed ++ (if s.freeItem then [c.data] else []) ∧
      t.isCached = true ∧ t.lastIndexGot = (L1.length : Int) ∧
      t.lastNodeGot = some s.heap.length := by
  have hsz := h.size
  have hpos : s.listSize > 0 := by
    have := length_lt_append_cons L1 L2 c
    omega
  have hs := h.sorted
  have hno : ∀ x ∈ L1, cmp x.key c.key ≠ 0 := by
    intro x hx
    rw [List.map_append, List.map_cons, List.pairwise_append] at hs
    have := hs.2.2 x.key (List.mem_map_of_mem Cell.key hx) c.key (by simp)
    omega
  have hseg0 := Lseg_alloc (some { key := c.key, data := obj, next := none }) h.chain
  have hscan := scan_found (g := fun k => decide (cmp k c.key = 0)) hseg0
    (fun x hx => by simpa using hno x hx) (by simpa using ord.cmp_self c.key)
    (List.length (s.heap ++ [some ({ key := c.key, data := obj, next := none } :
      SimpleMapNode T U)]) + 1)
    (by
      have := Lseg_length_le h.chain
      simp at this ⊢
      omega) none 0
  have hlt : ∀ x ∈ L1 ++ c :: L2, x.addr ≠ s.heap.length := fun x hx =>
    Nat.ne_of_lt (Lseg_addr_lt h.chain x hx)
  obtain ⟨t, hrun, hrest⟩ := @putReplace_spec T U cmp
    { s with heap := s.heap ++ [some { key := c.key, data := obj, next := none }] }
    L1 L2 c c.key obj s.heap.length hseg0 h.nodup h.size h.last
    (Heap.read_append_new _ _) hlt (by
      simpa using hs)
  refine ⟨t, ?_, hrest⟩
  unfold put
  simp only [Heap.alloc, hpos, if_true, hscan, bind_ok, Int.zero_add]
  exact hrun

/-- A `put` of an absent key into an unlocked container: a new cell is linked in between the
cells below and the cells above the key. -/
theorem put_absent {cmp : T → T → Int} (ord : StrictTotalOrder cmp) {s : SimpleMap T U}
    {L1 L2 : List (Cell T U)} (h : Rep cmp s (L1 ++ L2)) (key : T) (obj : U)
    (h1 : ∀ x ∈ L1, cmp x.key key < 0) (h2 : ∀ x ∈ L2, cmp x.key key > 0)
    (hunl : s.locked = false) :
    ∃ t, put cmp s key obj = .ok t ∧
      Rep cmp t (L1 ++ { addr := s.heap.length, key := key, data := obj } :: L2) ∧
      t.locked = s.locked ∧ t.freeItem = s.freeItem ∧ t.freed = s.freed ∧
      t.isCached = true ∧ t.lastIndexGot = (L1.length : Int) ∧
      t.lastNodeGot = some s.heap.length := by
  have hno : ∀ x ∈ L1 ++ L2, cmp x.key key ≠ 0 := by
    intro x hx
    rcases List.mem_append.1 hx with hx | hx
    · have := h1 x hx; omega
    · have := h2 x hx; omega
  have hseg0 := Lseg_alloc (some { key := key, data := obj, next := none }) h.chain
  have hscan := scan_none (g := fun k => decide (cmp k key = 0)) hseg0
    (fun x hx => by simpa using hno x hx)
    (List.length (s.heap ++ [some ({ key := key, data := obj, next := none } :
      SimpleMapNode T U)]) + 1)
    (by
      have := Lseg_length_le h.chain
      simp at this ⊢
      omega) none 0
  have hlt : ∀ x ∈ L1 ++ L2, x.addr ≠ s.heap.length := fun x hx =>
    Nat.ne_of_lt (Lseg_addr_lt h.chain x hx)
  obtain ⟨t, hrun, hrest⟩ := @putInsert_spec T U cmp ord
    { s with heap := s.heap ++ [some { key := key, data := obj, next := none }] }
    L1 L2 key obj s.heap.length hseg0 h.nodup h.size h.last
    (Heap.read_append_new _ _) hlt h1 h2
    (sorted_insert ord _ rfl h.sorted h1 h2)
  refine ⟨t, ?_, hrest⟩
  rw [hunl] at hrun
  unfold put
  by_cases hpos : s.listSize > 0
  · simp only [Heap.alloc, hpos, if_true, hscan, bind_ok, Bool.false_eq_true, if_false, hunl,
      Bool.not_false]
    exact hrun
  · simp only [Heap.alloc, hpos, if_false, bind_ok, Bool.false_eq_true, hunl, Bool.not_false,
      if_true]
    exact hrun

/-- A `put` of an absent key into a locked container: only an unreachable node is left in
the heap. -/
theorem put_locked {cmp : T → T → Int} {s : SimpleMap T U} {L : List (Cell T U)}
    (h : Rep cmp s L) (key : T) (obj : U) (hno : ∀ x ∈ L, cmp x.key key ≠ 0)
    (hl : s.locked = true) :
    put cmp s key obj =
        .ok { s with heap := s.heap ++ [some { key := key, data := obj, next := none }] } ∧
      Rep cmp { s with heap := s.heap ++ [some { key := key, data := obj, next := none }] } L := by
  refine ⟨?_, h.alloc _⟩
  have hseg0 := Lseg_alloc (some { key := key, data := obj, next := none }) h.chain
  have hscan := scan_none (g := fun k => decide (cmp k key = 0)) hseg0
    (fun x hx => by simpa using hno x hx)
    (List.length (s.heap ++ [some ({ key := key, data := obj, next := none } :
      SimpleMapNode T U)]) + 1)
    (by
      have := Lseg_length_le h.chain
      simp at this ⊢
      omega) none 0
  unfold put
  by_cases hpos : s.listSize > 0
  · simp only [Heap.alloc, hpos, if_true, hscan, bind_ok, Bool.false_eq_true, if_false, hl,
      Bool.not_true]
  · simp only [Heap.alloc, hpos, if_false, bind_ok, Bool.false_eq_true, hl, Bool.not_true]

end SimpleMap

/-! ## `remove` -/

namespace SimpleMap

variable {T U : Type}

theorem Rep.of_clearCache {cmp : T → T → Int} {s : SimpleMap T U} {L : List (Cell T U)}
    (chain : Lseg s.heap s.listBegin L none) (nodup : (L.map Cell.addr).Nodup)
    (size : s.listSize = L.length) (last : s.listEnd = prevPtr none L)
    (sorted : (L.map Cell.key).Pairwise (fun a b => cmp a b < 0)) :
    Rep cmp (SimpleMap.clearCache s) L :=
  ⟨chain, nodup, size, last, sorted, fun hc => by simp [SimpleMap.clearCache] at hc,
    fun _ => ⟨rfl, rfl⟩⟩

theorem sublist_erase_mid (L1 L2 : List (Cell T U)) (c : Cell T U) :
    List.Sublist (L1 ++ L2) (L1 ++ c :: L2) :=
  List.Sublist.append_left (List.sublist_cons_self c L2) L1

/-- The tail pointer after the cell `c` was taken out of the chain. -/
theorem prevPtr_erase (L1 : List (Cell T U)) {L2 : List (Cell T U)} {c : Cell T U}
    (hne : ∀ y ∈ L2, y.addr ≠ c.addr) :
    (if prevPtr (some c.addr) L2 = some c.addr then prevPtr none L1
      else prevPtr (some c.addr) L2) = prevPtr none (L1 ++ L2) := by
  rw [prevPtr_append]
  by_cases hL : L2 = []
  · subst hL; simp [prevPtr]
  · obtain ⟨h1, y, hy, h2⟩ := prevPtr_of_ne_nil (some c.addr) (prevPtr none L1) hL
    rw [← h1, h2, if_neg]
    intro he
    exact hne y hy (Option.some.inj he)

theorem removeFound_spec {cmp : T → T → Int} {s : SimpleMap T U} {L1 L2 : List (Cell T U)}
    {c : Cell T U} (h : Rep cmp s (L1 ++ c :: L2)) :
    ∃ t, removeFound s (some c.addr) (prevPtr none L1) = .ok t ∧ Rep cmp t (L1 ++ L2) ∧
      t.locked = s.locked ∧ t.freeItem = s.freeItem ∧
      t.freed = s.freed ++ (if s.freeItem then [c.data] else []) ∧
      t.isCached = false := by
  obtain ⟨nx, hrc, hseg1, hseg2⟩ := Lseg_mid_read h.chain
  have hclt := Heap.read_lt hrc
  have nodup := h.nodup
  rw [List.map_append, List.map_cons, List.nodup_append] at nodup
  obtain ⟨nd1, nd2, ndd⟩ := nodup
  rw [List.nodup_cons] at nd2
  have hL2c : ∀ y ∈ L2, y.addr ≠ c.addr := fun y hy he =>
    nd2.1 (he ▸ List.mem_map_of_mem Cell.addr hy)
  have hL1c : ∀ y ∈ L1, y.addr ≠ c.addr := fun y hy he =>
    ndd (List.mem_map_of_mem Cell.addr hy) (he ▸ List.mem_cons_self _ _)
  have hL12 : ∀ y ∈ L1, ∀ z ∈ L2, y.addr ≠ z.addr := fun y hy z hz he =>
    ndd (List.mem_map_of_mem Cell.addr hy)
      (List.mem_cons_of_mem _ (he ▸ List.mem_map_of_mem Cell.addr hz))
  have hend : s.listEnd = prevPtr (some c.addr) L2 := by
    rw [h.last, prevPtr_append, prevPtr_cons]
  have nodup' : ((L1 ++ L2).map Cell.addr).Nodup :=
    h.nodup.sublist ((sublist_erase_mid L1 L2 c).map Cell.addr)
  have sorted' : ((L1 ++ L2).map Cell.key).Pairwise (fun a b => cmp a b < 0) :=
    h.sorted.sublist ((sublist_erase_mid L1 L2 c).map Cell.key)
  have size' : s.listSize - 1 = ((L1 ++ L2).length : Int) := by
    rw [h.size]; simp; omega
  rcases List.eq_nil_or_concat' L1 with rfl | ⟨L0, x, rfl⟩
  · -- the head is removed
    unfold removeFound
    simp only [deref_some hrc, bind_ok, prevPtr_nil, Option.isSome_none, Bool.false_eq_true,
      if_false]
    rw [freeData_some (a := c.addr) (n := { key := c.key, data := c.data, next := nx })
      (by exact hrc)]
    simp only [bind_ok, delete, hend]
    refine ⟨_, rfl, ?_, rfl, rfl, rfl, rfl⟩
    refine Rep.of_clearCache ?_ nodup' size' ?_ sorted'
    · exact Lseg_congr (fun y hy => by
        have h1 := hL2c y hy
        simp [Heap.read_set, h1.symm]) hseg2
    · exact prevPtr_erase [] hL2c
  · -- the removed node has a predecessor `x`
    have hxr := Lseg_last_read hseg1
    have hxc : x.addr ≠ c.addr := hL1c x (by simp)
    have hxlt := Heap.read_lt hxr
    unfold removeFound
    simp only [deref_some hrc, bind_ok, prevPtr_append_cons, Option.isSome_some, if_true,
      setNext_some _ hxr]
    rw [freeData_some (a := c.addr) (n := { key := c.key, data := c.data, next := nx })
      (by simp [Heap.read_set, hxc, hrc])]
    simp only [bind_ok, delete, hend]
    refine ⟨_, rfl, ?_, rfl, rfl, rfl, rfl⟩
    refine Rep.of_clearCache ?_ nodup' size' ?_ sorted'
    · refine Lseg_append.2 ⟨nx, Lseg_redirect nx hseg1 (fun y hy => ?_) ?_, ?_⟩
      · have h1 := hL1c y (by simp [hy])
        have h3 : y.addr ≠ x.addr := by
          intro he
          rw [List.map_append, List.nodup_append] at nd1
          exact nd1.2.2 (List.mem_map_of_mem Cell.addr hy) (by simp [he])
        simp [Heap.read_set, h1.symm, h3.symm]
      · simp [Heap.read_set, hxc.symm, hxlt]
      · exact Lseg_congr (fun y hy => by
          have h1 := hL2c y hy
          have h3 := hL12 x (by simp) y hy
          simp [Heap.read_set, h1.symm, h3]) hseg2
    · have := prevPtr_erase (L0 ++ [x]) hL2c
      rw [prevPtr_append_cons] at this
      exact this

end SimpleMap

namespace SimpleMap

variable {T U : Type}

theorem Rep.not_lt_head_mem {cmp : T → T → Int} (ord : StrictTotalOrder cmp)
    {s : SimpleMap T U} {L : List (Cell T U)} (h : Rep cmp s L) {x : Cell T U} (hx : x ∈ L)
    (hL : 0 < L.length) : ¬ cmp x.key (L[0]).key < 0 := by
  obtain ⟨i, hi, rfl⟩ := List.getElem_of_mem hx
  exact h.not_lt_head ord hi

theorem Rep.not_gt_last_mem {cmp : T → T → Int} (ord : StrictTotalOrder cmp)
    {s : SimpleMap T U} {L : List (Cell T U)} (h : Rep cmp s L) {x : Cell T U} (hx : x ∈ L)
    (hL : 0 < L.length) : ¬ cmp x.key (L[L.length - 1]).key > 0 := by
  obtain ⟨i, hi, rfl⟩ := List.getElem_of_mem hx
  exact h.not_gt_last ord hi

/-- A `remove` of a key the unlocked container holds. -/
theorem remove_found [DecidableEq T] {cmp : T → T → Int} (ord : StrictTotalOrder cmp)
    {s : SimpleMap T U} {L1 L2 : List (Cell T U)} {c : Cell T U}
    (h : Rep cmp s (L1 ++ c :: L2)) (hunl : s.locked = false) :
    ∃ t, remove cmp s c.key = .ok t ∧ Rep cmp t (L1 ++ L2) ∧
      t.locked = s.locked ∧ t.freeItem = s.freeItem ∧
      t.freed = s.freed ++ (if s.freeItem then [c.data] else []) ∧
      t.isCached = false := by
  have hL : 0 < (L1 ++ c :: L2).length := by simp
  have hpos : s.listSize > 0 := by
    have := length_lt_append_cons L1 L2 c
    have := h.size
    omega
  have hcm : c ∈ L1 ++ c :: L2 := by simp
  have hno : ∀ x ∈ L1, x.key ≠ c.key := by
    intro x hx he
    have hs := h.sorted
    rw [List.map_append, List.map_cons, List.pairwise_append] at hs
    have := hs.2.2 x.key (List.mem_map_of_mem Cell.key hx) c.key (by simp)
    rw [he, ord.cmp_self] at this
    omega
  have hscan := scan_found (g := fun k => decide (k = c.key)) h.chain
    (fun x hx => by simpa using hno x hx) (by simp) (s.heap.length + 1)
    (by
      have := Lseg_length_le h.chain
      simp at this ⊢
      omega) none 0
  obtain ⟨t, hrun, hrest⟩ := removeFound_spec h
  refine ⟨t, ?_, hrest⟩
  unfold remove
  simp only [hpos, hunl, Bool.not_false, and_self, if_true, h.begin_eq hL, h.deref_at hL,
    bind_ok, if_neg (h.not_lt_head_mem ord hcm hL), h.end_eq hL,
    h.deref_at (show (L1 ++ c :: L2).length - 1 < (L1 ++ c :: L2).length by omega),
    if_neg (h.not_gt_last_mem ord hcm hL)]
  rw [h.begin_eq hL] at hscan
  simp only [hscan, bind_ok, if_true]
  exact hrun

/-- The call `remove` does nothing at all on a locked container or when no cell carries the key. -/
theorem remove_noop [DecidableEq T] {cmp : T → T → Int} {s : SimpleMap T U}
    {L : List (Cell T U)} (h : Rep cmp s L) (key : T)
    (hcase : s.locked = true ∨ ∀ x ∈ L, x.key ≠ key) : remove cmp s key = .ok s := by
  unfold remove
  by_cases hc : s.listSize > 0 ∧ (!s.locked) = true
  · have hunl : s.locked = false := by simpa using hc.2
    have hno : ∀ x ∈ L, x.key ≠ key := by
      rcases hcase with hl | hno
      · rw [hl] at hunl; cases hunl
      · exact hno
    have hL : 0 < L.length := by
      have := h.size
      omega
    rw [if_pos hc, h.begin_eq hL, h.deref_at hL]
    simp only [bind_ok]
    split
    · rfl
    · rw [h.end_eq hL, h.deref_at (show L.length - 1 < L.length by omega)]
      simp only [bind_ok]
      split
      · rfl
      · have hscan := scan_none (g := fun k => decide (k = key)) h.chain
          (fun x hx => by simpa using hno x hx) (s.heap.length + 1)
          (by
            have := Lseg_length_le h.chain
            omega) none 0
        rw [h.begin_eq hL] at hscan
        simp [hscan]
  · rw [if_neg hc]

end SimpleMap

/-! ## `removeIndex` -/

namespace SimpleMap

variable {T U : Type}

theorem ptrAt_lt {L : List (Cell T U)} {i a : Nat} (h : ptrAt L i = some a) :
    ∃ hi : i < L.length, (L[i]).addr = a := by
  by_cases hi : i < L.length
  · rw [ptrAt_eq_some hi] at h
    exact ⟨hi, Option.some.inj h⟩
  · rw [ptrAt_eq_none (by omega)] at h
    cases h

theorem getNodeIndex_at {cmp : T → T → Int} {s : SimpleMap T U} {L : List (Cell T U)}
    (h : Rep cmp s L) {i a : Nat} (hp : ptrAt L i = some a) :
    getNodeIndex s (i : Int) =
      .ok (some a, { s with isCached := true, lastIndexGot := (i : Int), lastNodeGot := some a }) := by
  obtain ⟨hi, rfl⟩ := ptrAt_lt hp
  exact getNodeIndex_in h hi

theorem Rep.cacheAt_ptr {cmp : T → T → Int} {s : SimpleMap T U} {L : List (Cell T U)}
    (h : Rep cmp s L) {i a : Nat} (hp : ptrAt L i = some a) :
    Rep cmp { s with isCached := true, lastIndexGot := (i : Int), lastNodeGot := some a } L := by
  obtain ⟨hi, rfl⟩ := ptrAt_lt hp
  exact h.cacheAt hi

theorem ptrAt_append_left (L1 L2 : List (Cell T U)) (x : Cell T U) :
    ptrAt (L1 ++ [x] ++ L2) L1.length = some x.addr := by
  rw [List.append_assoc]
  exact ptrAt_append_cons _ _ _

theorem removeIndexFound_spec {cmp : T → T → Int} {s : SimpleMap T U}
    {L1 L2 : List (Cell T U)} {c : Cell T U} (h : Rep cmp s (L1 ++ c :: L2))
    (h2 : 2 ≤ (L1 ++ c :: L2).length) :
    ∃ t, removeIndexFound s (L1.length : Int) (some c.addr) = .ok t ∧ Rep cmp t (L1 ++ L2) ∧
      t.locked = s.locked ∧ t.freeItem = s.freeItem ∧
      t.freed = s.freed ++ (if s.freeItem then [c.data] else []) := by
  obtain ⟨nx, hrc, hseg1, hseg2⟩ := Lseg_mid_read h.chain
  have hclt := Heap.read_lt hrc
  have nodup := h.nodup
  rw [List.map_append, List.map_cons, List.nodup_append] at nodup
  obtain ⟨nd1, nd2, ndd⟩ := nodup
  rw [List.nodup_cons] at nd2
  have hL2c : ∀ y ∈ L2, y.addr ≠ c.addr := fun y hy he =>
    nd2.1 (he ▸ List.mem_map_of_mem Cell.addr hy)
  have hL1c : ∀ y ∈ L1, y.addr ≠ c.addr := fun y hy he =>
    ndd (List.mem_map_of_mem Cell.addr hy) (he ▸ List.mem_cons_self _ _)
  have hL12 : ∀ y ∈ L1, ∀ z ∈ L2, y.addr ≠ z.addr := fun y hy z hz he =>
    ndd (List.mem_map_of_mem Cell.addr hy)
      (List.mem_cons_of_mem _ (he ▸ List.mem_map_of_mem Cell.addr hz))
  have hend : s.listEnd = prevPtr (some c.addr) L2 := by
    rw [h.last, prevPtr_append, prevPtr_cons]
  have nodup' : ((L1 ++ L2).map Cell.addr).Nodup :=
    h.nodup.sublist ((sublist_erase_mid L1 L2 c).map Cell.addr)
  have sorted' : ((L1 ++ L2).map Cell.key).Pairwise (fun a b => cmp a b < 0) :=
    h.sorted.sublist ((sublist_erase_mid L1 L2 c).map Cell.key)
  have size' : s.listSize - 1 = ((L1 ++ L2).length : Int) := by
    rw [h.size]; simp; omega
  have hsz := h.size
  rcases List.eq_nil_or_concat' L1 with rfl | ⟨L0, x, rfl⟩
  · -- the head is removed; a second node `y` exists
    cases L2 with
    | nil => simp at h2
    | cons y L2 =>
      have hb : s.listBegin = some c.addr := hseg1
      obtain ⟨hnx, ny, hyr, hseg3⟩ := hseg2
      subst hnx
      have hseg2 : Lseg s.heap (some y.addr) (y :: L2) none := Lseg_cons rfl hyr hseg3
      have hpos : (0 : Int) < s.listSize := by rw [hsz]; simp; omega
      unfold removeIndexFound
      simp only [hb, if_true, deref_some hrc, bind_ok]
      rw [setCache_valid _ (le_refl _) (by exact hpos)]
      rw [freeData_some (a := c.addr) (n := { key := c.key, data := c.data, next := some y.addr })
        (by exact hrc)]
      simp only [bind_ok, delete]
      refine ⟨_, rfl, ?_, rfl, rfl, rfl⟩
      refine ⟨?_, nodup', size', ?_, sorted', fun _ => ⟨le_refl _, ?_, ?_, ?_⟩,
        fun hc => by simp at hc⟩
      · exact Lseg_congr (fun w hw => by
          have h1 := hL2c w hw
          simp [Heap.read_set, h1.symm]) hseg2
      · show s.listEnd = _
        rw [hend, List.nil_append]
        exact (prevPtr_of_ne_nil _ _ (List.cons_ne_nil _ _)).1
      · simp
      · simp [ptrAt]
      · simp
  · -- the removed node has a predecessor `x`
    have hxr := Lseg_last_read hseg1
    have hxc : x.addr ≠ c.addr := hL1c x (by simp)
    have hxlt := Heap.read_lt hxr
    have hb : some c.addr ≠ s.listBegin := by
      obtain ⟨y, hy, hyb⟩ := Lseg_head_mem hseg1 (by simp)
      rw [hyb]
      intro he
      exact hL1c y hy (Option.some.inj he).symm
    have hpx : ptrAt (L0 ++ [x] ++ c :: L2) L0.length = some x.addr :=
      ptrAt_append_left _ _ _
    have hidx : (((L0 ++ [x]).length : Nat) : Int) - 1 = ((L0.length : Nat) : Int) := by
      simp
    have hr1 : Heap.read (s.heap.set x.addr (some { key := x.key, data := x.data, next := nx }))
        c.addr = some { key := c.key, data := c.data, next := nx } := by
      simp [Heap.read_set, hxc, hrc]
    have hcongr1 : ∀ y ∈ L0, Heap.read ((s.heap.set x.addr
        (some { key := x.key, data := x.data, next := nx })).set c.addr none) y.addr =
        s.heap.read y.addr := by
      intro y hy
      have h1 := hL1c y (by simp [hy])
      have h3 : y.addr ≠ x.addr := by
        intro he
        rw [List.map_append, List.nodup_append] at nd1
        exact nd1.2.2 (List.mem_map_of_mem Cell.addr hy) (by simp [he])
      simp [Heap.read_set, h1.symm, h3.symm]
    have hcongr2 : ∀ y ∈ L2, Heap.read ((s.heap.set x.addr
        (some { key := x.key, data := x.data, next := nx })).set c.addr none) y.addr =
        s.heap.read y.addr := by
      intro y hy
      have h1 := hL2c y hy
      have h3 := hL12 x (by simp) y hy
      simp [Heap.read_set, h1.symm, h3]
    have hchain : Lseg ((s.heap.set x.addr
        (some { key := x.key, data := x.data, next := nx })).set c.addr none) s.listBegin
        (L0 ++ [x] ++ L2) none :=
      Lseg_append.2 ⟨nx, Lseg_redirect nx hseg1 hcongr1
        (by simp [Heap.read_set, hxc.symm, hxlt]), Lseg_congr hcongr2 hseg2⟩
    unfold removeIndexFound
    simp only [if_neg hb, hidx, getNodeIndex_at h hpx, bind_ok, Option.isSome_some, if_true,
      deref_some hrc, setNext_some _ hxr, deref_some hr1]
    cases L2 with
    | nil =>
      have hnx : nx = none := hseg2
      subst hnx
      have hend2 : s.listEnd = some c.addr := by rw [hend]; rfl
      simp only [setCache_null, clearCache, hend2, if_true]
      rw [setCache_valid _ (by omega) (by
        show (L0.length : Int) < s.listSize
        rw [hsz]
        simp only [List.length_append, List.length_cons, List.length_nil]
        push_cast
        omega)]
      simp only [bind_ok]
      rw [freeData_some (a := c.addr) (n := { key := c.key, data := c.data, next := none })
        (by exact hr1)]
      simp only [bind_ok, delete]
      refine ⟨_, rfl, ?_, rfl, rfl, rfl⟩
      refine ⟨hchain, nodup', size', ?_, sorted', fun _ => ⟨by simp, ?_, ?_, ?_⟩,
        fun hc => by simp at hc⟩
      · simp [prevPtr_append, prevPtr_cons, prevPtr]
      · simp
      · simp [ptrAt]
      · simp
    | cons y L2 =>
      obtain ⟨hnx, ny, hyr, hseg3⟩ := hseg2
      subst hnx
      have hend2 : some c.addr ≠ s.listEnd := by
        rw [hend]
        obtain ⟨_, w, hw, hwp⟩ := prevPtr_of_ne_nil (some c.addr) none (List.cons_ne_nil y L2)
        rw [hwp]
        intro he
        exact hL2c w hw (Option.some.inj he).symm
      rw [setCache_valid _ (Int.natCast_nonneg _) (by
        show (((L0 ++ [x]).length : Nat) : Int) < s.listSize
        rw [hsz]
        simp only [List.length_append, List.length_cons, List.length_nil]
        push_cast
        omega)]
      simp only [if_neg hend2, bind_ok]
      rw [freeData_some (a := c.addr) (n := { key := c.key, data := c.data, next := some y.addr })
        (by exact hr1)]
      simp only [bind_ok, delete]
      refine ⟨_, rfl, ?_, rfl, rfl, rfl⟩
      refine ⟨hchain, nodup', size', ?_, sorted', fun _ => ⟨Int.natCast_nonneg _, ?_, ?_, ?_⟩,
        fun hc => by simp at hc⟩
      · show s.listEnd = _
        rw [hend, prevPtr_append]
        exact (prevPtr_of_ne_nil _ _ (List.cons_ne_nil _ _)).1
      · simp
      · show some y.addr = ptrAt _ (((L0 ++ [x]).length : Nat) : Int).toNat
        rw [Int.toNat_ofNat]
        exact (ptrAt_append_cons _ _ _).symm
      · simp

end SimpleMap

namespace SimpleMap

variable {T U : Type}

theorem removeIndex_empty {cmp : T → T → Int} {s : SimpleMap T U} (h : Rep cmp s [])
    (i : Int) : removeIndex s i = .ok (clearCache s) := by
  have hsz : s.listSize = 0 := by simpa using h.size
  simp [removeIndex, hsz]

/-- On a one-node container `removeIndex` removes the node whatever the index is. -/
theorem removeIndex_single {cmp : T → T → Int} {s : SimpleMap T U} {c : Cell T U}
    (h : Rep cmp s [c]) (i : Int) :
    ∃ t, removeIndex s i = .ok t ∧ Rep cmp t [] ∧ t.locked = s.locked ∧
      t.freeItem = s.freeItem ∧
      t.freed = s.freed ++ (if s.freeItem then [c.data] else []) ∧ t.isCached = false := by
  have hsz : s.listSize = 1 := by simpa using h.size
  obtain ⟨hb, nx, hrc, _⟩ := h.chain
  unfold removeIndex
  rw [if_neg (by omega), if_pos hsz, hb, freeData_some hrc]
  simp only [bind_ok, delete]
  refine ⟨_, rfl, ?_, rfl, rfl, rfl, rfl⟩
  exact ⟨rfl, by simp, rfl, rfl, by simp, fun hc => by simp [clearCache] at hc,
    fun _ => ⟨rfl, rfl⟩⟩

/-- A `removeIndex` at a valid position of a container with two or more nodes. -/
theorem removeIndex_in {cmp : T → T → Int} {s : SimpleMap T U}
    {L1 L2 : List (Cell T U)} {c : Cell T U} (h : Rep cmp s (L1 ++ c :: L2))
    (h2 : 2 ≤ (L1 ++ c :: L2).length) :
    ∃ t, removeIndex s (L1.length : Int) = .ok t ∧ Rep cmp t (L1 ++ L2) ∧
      t.locked = s.locked ∧ t.freeItem = s.freeItem ∧
      t.freed = s.freed ++ (if s.freeItem then [c.data] else []) := by
  have hsz := h.size
  have hp := ptrAt_append_cons L1 L2 c
  obtain ⟨t, hrun, hrest⟩ := removeIndexFound_spec (h.cacheAt_ptr hp) h2
  refine ⟨t, ?_, hrest⟩
  unfold removeIndex
  rw [if_neg (by omega), if_neg (by omega), getNodeIndex_at h hp]
  simp only [bind_ok, Option.isSome_some, if_true]
  exact hrun

/-- A `removeIndex` at an invalid position of a container with two or more nodes. -/
theorem removeIndex_out {cmp : T → T → Int} {s : SimpleMap T U} {L : List (Cell T U)}
    (h : Rep cmp s L) (h2 : 2 ≤ L.length) {i : Int} (hi : i < 0 ∨ (L.length : Int) ≤ i) :
    removeIndex s i = .ok s := by
  have hsz := h.size
  unfold removeIndex
  rw [if_neg (by omega), if_neg (by omega), getNodeIndex_out s (by rw [hsz]; exact hi)]
  rfl

/-! ## `clear` -/

theorem clearLoop_nofree {hp : Heap T U} {L : List (Cell T U)} {p : Option Nat}
    (h : Lseg hp p L none) (fuel : Nat) (hf : L.length ≤ fuel) (fr : List U) :
    ∃ hp', clearLoop false fuel hp fr p = .ok (hp', fr) := by
  induction L generalizing hp p fuel with
  | nil =>
    have : p = none := h
    subst this
    cases fuel <;> exact ⟨hp, by simp [clearLoop]⟩
  | cons c L ih =>
    have hnd := Lseg_nodup h
    obtain ⟨h0, nx, hr, hrest⟩ := h
    subst h0
    cases fuel with
    | zero => simp at hf
    | succ f =>
      rw [List.map_cons, List.nodup_cons] at hnd
      have hrest' : Lseg (hp.set c.addr none) nx L none :=
        Lseg_congr (fun y hy => by
          have : y.addr ≠ c.addr := fun he =>
            hnd.1 (he ▸ List.mem_map_of_mem Cell.addr hy)
          simp [Heap.read_set, this.symm]) hrest
      obtain ⟨hp', hrun⟩ := ih hrest' f (by simpa using hf)
      refine ⟨hp', ?_⟩
      simp only [clearLoop, Option.isSome_some, if_true, deref_some hr, bind_ok,
        Bool.false_eq_true, if_false, delete]
      exact hrun

/-- With a destructor callback the loop of `clear` dereferences `NULL` after the last
node. -/
theorem clearLoop_free_fault {hp : Heap T U} {L : List (Cell T U)} {p : Option Nat}
    (h : Lseg hp p L none) (hL : L ≠ []) (fuel : Nat) (hf : L.length ≤ fuel) (fr : List U) :
    clearLoop true fuel hp fr p = .error .nullDeref := by
  induction L generalizing hp p fuel fr with
  | nil => exact absurd rfl hL
  | cons c L ih =>
    have hnd := Lseg_nodup h
    obtain ⟨h0, nx, hr, hrest⟩ := h
    subst h0
    cases fuel with
    | zero => simp at hf
    | succ f =>
      rw [List.map_cons, List.nodup_cons] at hnd
      cases L with
      | nil =>
        have : nx = none := hrest
        subst this
        simp only [clearLoop, Option.isSome_some, if_true, deref_some hr, bind_ok]
        rfl
      | cons d L =>
        have hrest' : Lseg (hp.set c.addr none) nx (d :: L) none :=
          Lseg_congr (fun y hy => by
            have : y.addr ≠ c.addr := fun he =>
              hnd.1 (he ▸ List.mem_map_of_mem Cell.addr hy)
            simp [Heap.read_set, this.symm]) hrest
        have hd := hrest.1
        obtain ⟨_, nd, hdr, _⟩ := hrest
        subst hd
        simp only [clearLoop, Option.isSome_some, if_true, deref_some hr, bind_ok,
          deref_some hdr, delete]
        exact ih hrest' (List.cons_ne_nil _ _) f (by simpa using hf) _

/-- A `clear` on a container without destructor callback, or on an empty one. -/
theorem clear_ok {cmp : T → T → Int} {s : SimpleMap T U} {L : List (Cell T U)}
    (h : Rep cmp s L) (hcase : s.freeItem = false ∨ L = []) :
    ∃ t, clear s = .ok t ∧ Rep cmp t [] ∧ t.listSize = 0 ∧ t.locked = false ∧
      t.listBegin = none ∧ t.listEnd = none ∧ t.isCached = false ∧
      t.lastNodeGot = none ∧ t.lastIndexGot = -1 ∧ t.freed = s.freed ∧
      t.freeItem = s.freeItem := by
  have hstate : ∀ hp' : Heap T U, Rep cmp (clearCache
      { unlock s with heap := hp', freed := s.freed, listBegin := none, listEnd := none,
                      listSize := 0 }) [] := fun hp' =>
    ⟨rfl, by simp, rfl, rfl, by simp, fun hc => by simp [clearCache] at hc,
      fun _ => ⟨rfl, rfl⟩⟩
  rcases hcase with hf | hL
  · obtain ⟨hp', hrun⟩ := clearLoop_nofree h.chain (s.heap.length + 1)
      (by have := Lseg_length_le h.chain; omega) s.freed
    refine ⟨_, ?_, hstate hp', rfl, rfl, rfl, rfl, rfl, rfl, rfl, rfl, rfl⟩
    unfold clear
    simp only [unlock, hf, hrun, bind_ok]
  · subst hL
    have hb : s.listBegin = none := h.chain
    refine ⟨_, ?_, hstate s.heap, rfl, rfl, rfl, rfl, rfl, rfl, rfl, rfl, rfl⟩
    unfold clear
    simp [unlock, hb, clearLoop]

/-- A `clear` on a non-empty container with a destructor callback dereferences `NULL`. -/
theorem clear_fault {cmp : T → T → Int} {s : SimpleMap T U} {L : List (Cell T U)}
    (h : Rep cmp s L) (hf : s.freeItem = true) (hL : L ≠ []) :
    clear s = .error .nullDeref := by
  have := clearLoop_free_fault h.chain hL (s.heap.length + 1)
    (by have := Lseg_length_le h.chain; omega) s.freed
  unfold clear
  simp only [unlock, hf, this, bind_error]

end SimpleMap

/-! ## Well-formedness is preserved -/

namespace SimpleMap

variable {T U : Type}

theorem intCmp_order : StrictTotalOrder intCmp :=
  ⟨fun a b => by unfold intCmp; omega, fun a b => by unfold intCmp; omega,
    fun a b c => by unfold intCmp; omega⟩

theorem demo_rep : Rep intCmp demo demoCells :=
  ⟨⟨rfl, _, rfl, rfl, _, rfl, rfl, _, rfl, rfl⟩, by decide, rfl, rfl, by decide,
    fun hc => by simp [demo] at hc, fun _ => ⟨rfl, rfl⟩⟩

theorem demo_wf : WellFormed intCmp demo := ⟨demoCells, demo_rep⟩

theorem empty_rep (cmp : T → T → Int) (fi : Bool) : Rep cmp (empty fi : SimpleMap T U) [] :=
  ⟨rfl, by simp, rfl, rfl, by simp, fun hc => by simp [empty] at hc, fun _ => ⟨rfl, rfl⟩⟩

theorem Rep.lock {cmp : T → T → Int} {s : SimpleMap T U} {L : List (Cell T U)}
    (h : Rep cmp s L) : Rep cmp (lock s) L :=
  ⟨h.chain, h.nodup, h.size, h.last, h.sorted, h.cacheOn, h.cacheOff⟩

theorem Rep.unlock {cmp : T → T → Int} {s : SimpleMap T U} {L : List (Cell T U)}
    (h : Rep cmp s L) : Rep cmp (unlock s) L :=
  ⟨h.chain, h.nodup, h.size, h.last, h.sorted, h.cacheOn, h.cacheOff⟩

/-- The call `put` always returns on a well-formed container and leaves it well formed. -/
theorem put_wf {cmp : T → T → Int} (ord : StrictTotalOrder cmp) {s : SimpleMap T U}
    {L : List (Cell T U)} (h : Rep cmp s L) (key : T) (obj : U) :
    ∃ t L', put cmp s key obj = .ok t ∧ Rep cmp t L' ∧ t.freeItem = s.freeItem ∧
      t.locked = s.locked := by
  obtain ⟨L1, M, L2, hL, h1, h2, hM⟩ := sorted_split ord key L h.sorted
  rcases hM with rfl | ⟨c, rfl, rfl⟩
  · rw [List.append_nil] at hL
    subst hL
    cases hl : s.locked with
    | false =>
      obtain ⟨t, hrun, hrep, e1, e2, _⟩ := put_absent ord h key obj h1 h2 hl
      exact ⟨t, _, hrun, hrep, e2, e1.trans hl⟩
    | true =>
      have hno : ∀ x ∈ L1 ++ L2, cmp x.key key ≠ 0 := by
        intro x hx
        rcases List.mem_append.1 hx with hx | hx
        · have := h1 x hx; omega
        · have := h2 x hx; omega
      obtain ⟨hrun, hrep⟩ := put_locked h key obj hno hl
      exact ⟨_, _, hrun, hrep, rfl, hl⟩
  · rw [List.append_assoc, List.singleton_append] at hL
    subst hL
    obtain ⟨t, hrun, hrep, e1, e2, _⟩ := put_found ord h obj
    exact ⟨t, _, hrun, hrep, e2, e1⟩

/-- The call `remove` always returns on a well-formed container and leaves it well formed. -/
theorem remove_wf [DecidableEq T] {cmp : T → T → Int} (ord : StrictTotalOrder cmp)
    {s : SimpleMap T U} {L : List (Cell T U)} (h : Rep cmp s L) (key : T) :
    ∃ t L', remove cmp s key = .ok t ∧ Rep cmp t L' ∧ t.freeItem = s.freeItem ∧
      t.locked = s.locked := by
  by_cases hcase : s.locked = true ∨ ∀ x ∈ L, x.key ≠ key
  · exact ⟨s, L, remove_noop h key hcase, h, rfl, rfl⟩
  · push_neg at hcase
    obtain ⟨hl, c, hc, rfl⟩ := hcase
    obtain ⟨L1, L2, rfl⟩ := List.append_of_mem hc
    obtain ⟨t, hrun, hrep, e1, e2, _⟩ := remove_found ord h (by simpa using hl)
    exact ⟨t, _, hrun, hrep, e2, e1⟩

/-- The call `removeIndex` always returns on a well-formed container and leaves it well formed. -/
theorem removeIndex_wf {cmp : T → T → Int} {s : SimpleMap T U} {L : List (Cell T U)}
    (h : Rep cmp s L) (i : Int) :
    ∃ t L', removeIndex s i = .ok t ∧ Rep cmp t L' ∧ t.freeItem = s.freeItem ∧
      t.locked = s.locked := by
  match L, h with
  | [], h => exact ⟨_, [], removeIndex_empty h i, h.clearCache, rfl, rfl⟩
  | [c], h =>
    obtain ⟨t, hrun, hrep, e1, e2, _⟩ := removeIndex_single h i
    exact ⟨t, _, hrun, hrep, e2, e1⟩
  | c :: d :: L, h =>
    by_cases hi : i < 0 ∨ ((c :: d :: L).length : Int) ≤ i
    · exact ⟨s, _, removeIndex_out h (by simp) hi, h, rfl, rfl⟩
    · push_neg at hi
      have hlt : i.toNat < (c :: d :: L).length := by omega
      have hsplit := (List.take_append_drop i.toNat (c :: d :: L)).symm
      rw [List.drop_eq_getElem_cons hlt] at hsplit
      have hlen : ((c :: d :: L).take i.toNat).length = i.toNat := by
        rw [List.length_take]; omega
      have hrep := h
      rw [hsplit] at hrep
      obtain ⟨t, hrun, hrep', e1, e2, _⟩ := removeIndex_in hrep (by rw [← hsplit]; simp)
      rw [hlen, Int.toNat_of_nonneg hi.1] at hrun
      exact ⟨t, _, hrun, hrep', e2, e1⟩

/-- Whenever `clear` returns, the container is empty and well formed. -/
theorem clear_wf {cmp : T → T → Int} {s t : SimpleMap T U} {L : List (Cell T U)}
    (h : Rep cmp s L) (hrun : clear s = .ok t) : Rep cmp t [] ∧ t.freeItem = s.freeItem := by
  by_cases hcase : s.freeItem = false ∨ L = []
  · obtain ⟨t', hrun', hrep, hrest⟩ := clear_ok h hcase
    rw [hrun] at hrun'
    cases hrun'
    exact ⟨hrep, hrest.2.2.2.2.2.2.2.2⟩
  · push_neg at hcase
    rw [clear_fault h (by simpa using hcase.1) hcase.2] at hrun
    cases hrun

end SimpleMap

/-! ## Invariants of reachable containers -/

namespace SimpleMap

variable {T U : Type}

/-- Every `put`, `remove`, `removeIndex`, `lock` or `unlock` returns on a well-formed
container and leaves it well formed. -/
theorem edit_wf [DecidableEq T] [Inhabited T] [Inhabited U] {cmp : T → T → Int}
    (ord : StrictTotalOrder cmp) {s : SimpleMap T U} {L : List (Cell T U)} (h : Rep cmp s L)
    (op : Op T U) (hop : op.isEdit = true) :
    ∃ t L', op.run cmp s = .ok t ∧ Rep cmp t L' ∧ t.freeItem = s.freeItem := by
  cases op with
  | put key obj =>
    obtain ⟨t, L', hrun, hrep, e, _⟩ := put_wf ord h key obj
    exact ⟨t, L', hrun, hrep, e⟩
  | remove key =>
    obtain ⟨t, L', hrun, hrep, e, _⟩ := remove_wf ord h key
    exact ⟨t, L', hrun, hrep, e⟩
  | removeIndex i =>
    obtain ⟨t, L', hrun, hrep, e, _⟩ := removeIndex_wf h i
    exact ⟨t, L', hrun, hrep, e⟩
  | lock => exact ⟨_, L, rfl, h.lock, rfl⟩
  | unlock => exact ⟨_, L, rfl, h.unlock, rfl⟩
  | clear => simp [Op.isEdit] at hop
  | get key => simp [Op.isEdit] at hop
  | has key => simp [Op.isEdit] at hop
  | getIndex key => simp [Op.isEdit] at hop
  | getKey i => simp [Op.isEdit] at hop
  | getData i => simp [Op.isEdit] at hop
  | la_begin => simp [Op.isEdit] at hop
  | la_next => simp [Op.isEdit] at hop

theorem runOps_edit_wf [DecidableEq T] [Inhabited T] [Inhabited U] {cmp : T → T → Int}
    (ord : StrictTotalOrder cmp) (ops : List (Op T U)) :
    ∀ (s : SimpleMap T U) (L : List (Cell T U)), Rep cmp s L →
      (∀ op ∈ ops, op.isEdit = true) → ∃ t L', runOps cmp ops s = .ok t ∧ Rep cmp t L' := by
  induction ops with
  | nil => exact fun s L h _ => ⟨s, L, rfl, h⟩
  | cons op ops ih =>
    intro s L h hops
    obtain ⟨t, L', hrun, hrep, _⟩ := edit_wf ord h op (hops op (List.mem_cons_self _ _))
    obtain ⟨u, L'', hrun2, hrep2⟩ := ih t L' hrep
      (fun o ho => hops o (List.mem_cons_of_mem _ ho))
    exact ⟨u, L'', by simp [runOps, hrun, hrun2], hrep2⟩

/-- Every edit or `clear` that returns leaves a well-formed container; without a destructor
callback it always returns. -/
theorem editOrClear_wf [DecidableEq T] [Inhabited T] [Inhabited U] {cmp : T → T → Int}
    (ord : StrictTotalOrder cmp) {s : SimpleMap T U} {L : List (Cell T U)} (h : Rep cmp s L)
    (op : Op T U) (hop : op.isEditOrClear = true) :
    (∀ t, op.run cmp s = .ok t → (∃ L', Rep cmp t L') ∧ t.freeItem = s.freeItem) ∧
      (s.freeItem = false → ∃ t, op.run cmp s = .ok t) := by
  by_cases hc : op = Op.clear
  · subst hc
    refine ⟨fun t hrun => ?_, fun hf => ?_⟩
    · obtain ⟨hrep, e⟩ := clear_wf h hrun
      exact ⟨⟨[], hrep⟩, e⟩
    · obtain ⟨t, hrun, _⟩ := clear_ok h (Or.inl hf)
      exact ⟨t, hrun⟩
  · have hed : op.isEdit = true := by
      cases op <;> simp_all [Op.isEditOrClear]
    obtain ⟨t, L', hrun, hrep, e⟩ := edit_wf ord h op hed
    refine ⟨fun t' hrun' => ?_, fun _ => ⟨t, hrun⟩⟩
    rw [hrun] at hrun'
    cases hrun'
    exact ⟨⟨L', hrep⟩, e⟩

theorem runOps_editOrClear_wf [DecidableEq T] [Inhabited T] [Inhabited U]
    {cmp : T → T → Int} (ord : StrictTotalOrder cmp) (ops : List (Op T U)) :
    ∀ (s : SimpleMap T U) (L : List (Cell T U)), Rep cmp s L →
      (∀ op ∈ ops, op.isEditOrClear = true) →
      (∀ t, runOps cmp ops s = .ok t → ∃ L', Rep cmp t L') ∧
        (s.freeItem = false → ∃ t, runOps cmp ops s = .ok t) := by
  induction ops with
  | nil =>
    intro s L h _
    refine ⟨fun t hrun => ?_, fun _ => ⟨s, rfl⟩⟩
    cases hrun
    exact ⟨L, h⟩
  | cons op ops ih =>
    intro s L h hops
    obtain ⟨h1, h2⟩ := editOrClear_wf ord h op (hops op (List.mem_cons_self _ _))
    refine ⟨fun t hrun => ?_, fun hf => ?_⟩
    · cases hstep : op.run cmp s with
      | error e => simp [runOps, hstep] at hrun
      | ok u =>
        obtain ⟨⟨L', hrep⟩, _⟩ := h1 u hstep
        simp only [runOps, hstep, bind_ok] at hrun
        exact (ih u L' hrep (fun o ho => hops o (List.mem_cons_of_mem _ ho))).1 t hrun
    · obtain ⟨u, hstep⟩ := h2 hf
      obtain ⟨⟨L', hrep⟩, e⟩ := h1 u hstep
      obtain ⟨t, hrun⟩ := (ih u L' hrep (fun o ho => hops o (List.mem_cons_of_mem _ ho))).2
        (e.trans hf)
      exact ⟨t, by simp [runOps, hstep, hrun]⟩

theorem Rep.keys_nodup {cmp : T → T → Int} (ord : StrictTotalOrder cmp) {s : SimpleMap T U}
    {L : List (Cell T U)} (h : Rep cmp s L) : (keys s).Nodup := by
  rw [h.keys_eq]
  refine h.sorted.imp ?_
  intro a b hab he
  rw [he, ord.cmp_self] at hab
  omega

theorem Rep.sizeInvariant {cmp : T → T → Int} {s : SimpleMap T U} {L : List (Cell T U)}
    (h : Rep cmp s L) : SizeInvariant s := by
  refine ⟨L, h.chain, h.size, by rw [h.toList_eq, List.length_map], ?_, ?_, ?_⟩
  · rw [Lseg_ptr h.chain]
    cases L <;> simp [ptrAt]
  · rw [h.last]
    unfold prevPtr
    cases L.getLast? <;> rfl
  · rw [Lseg_ptr h.chain, h.last]
    have hsz := h.size
    show _ ↔ s.listSize = 0
    cases L with
    | nil => simp [ptrAt, prevPtr, hsz]
    | cons c L =>
      simp only [List.length_cons] at hsz
      constructor
      · intro hn
        simp [ptrAt] at hn
      · intro h0
        push_cast at hsz
        omega

end SimpleMap

/-! ## Lookups -/

namespace SimpleMap

variable {T U : Type}

theorem Rep.read_mem {cmp : T → T → Int} {s : SimpleMap T U} {L : List (Cell T U)}
    (h : Rep cmp s L) {c : Cell T U} (hc : c ∈ L) :
    ∃ nx, s.heap.read c.addr = some { key := c.key, data := c.data, next := nx } := by
  obtain ⟨i, hi, rfl⟩ := List.getElem_of_mem hc
  exact ⟨_, Lseg_read h.chain hi⟩

theorem Rep.lookup_eq [Inhabited U] {cmp : T → T → Int} {s : SimpleMap T U}
    {L : List (Cell T U)} (h : Rep cmp s L) (k : T) :
    lookup cmp k (toList s) =
      match L.find? (fun c => decide (cmp k c.key = 0)) with
      | some c => c.data
      | none => default := by
  unfold lookup
  rw [h.toList_eq, List.find?_map]
  have e : ((fun kv : T × U => decide (cmp k kv.1 = 0)) ∘ Cell.kv) =
      fun c : Cell T U => decide (cmp k c.key = 0) := rfl
  rw [e]
  cases L.find? (fun c => decide (cmp k c.key = 0)) <;> rfl

/-- What `get` does on a well-formed container. -/
theorem get_spec [Inhabited U] {cmp : T → T → Int} (ord : StrictTotalOrder cmp)
    {s : SimpleMap T U} {L : List (Cell T U)} (h : Rep cmp s L) (k : T) :
    ∃ t, get cmp s k = .ok (lookup cmp k (toList s), t) ∧ Rep cmp t L ∧ SameButCache s t := by
  obtain ⟨r, t, hrun, hrep, hsame, hr, _⟩ := getNode_spec ord h k
  refine ⟨t, ?_, hrep, hsame⟩
  unfold get
  rw [hrun, h.lookup_eq k]
  simp only [bind_ok]
  cases hf : L.find? (fun c => decide (cmp k c.key = 0)) with
  | none =>
    rw [hf] at hr
    subst hr
    rfl
  | some c =>
    rw [hf] at hr
    subst hr
    obtain ⟨nx, hread⟩ := h.read_mem (List.mem_of_find?_eq_some hf)
    rw [← hsame.1] at hread
    simp [deref_some hread]

/-- What `has` does on a well-formed container. -/
theorem has_spec {cmp : T → T → Int} (ord : StrictTotalOrder cmp)
    {s : SimpleMap T U} {L : List (Cell T U)} (h : Rep cmp s L) (k : T) :
    ∃ b t, has cmp s k = .ok (b, t) ∧ Rep cmp t L ∧ SameButCache s t ∧
      (b = true ↔ ∃ a ∈ keys s, cmp k a = 0) := by
  obtain ⟨r, t, hrun, hrep, hsame, hr, _⟩ := getNode_spec ord h k
  refine ⟨r.isSome, t, ?_, hrep, hsame, ?_⟩
  · unfold has
    rw [hrun]
    rfl
  · rw [hr, h.keys_eq, Option.isSome_map', List.find?_isSome]
    constructor
    · rintro ⟨c, hc, hk⟩
      exact ⟨c.key, List.mem_map_of_mem Cell.key hc, by simpa using hk⟩
    · rintro ⟨a, ha, hk⟩
      obtain ⟨c, hc, rfl⟩ := List.mem_map.1 ha
      exact ⟨c, hc, by simpa using hk⟩

/-- C3 (lookup correctness): on every well-formed container, of any size and whatever the
cache holds, `getNode` returns the node the plain linear search of the chain returns and
changes at most the cache; so `has(k)` is true exactly when some node of the chain has a
key comparing equal to `k`, and `get(k)` returns the value of that node, or the default
value when there is none. -/
theorem lookup_correct [Inhabited U] (cmp : T → T → Int) (ord : StrictTotalOrder cmp)
    (s : SimpleMap T U) (hwf : WellFormed cmp s) (k : T) :
    (∃ t, getNode cmp s k = .ok (linearSearch cmp s k, t) ∧ SameButCache s t ∧
        WellFormed cmp t) ∧
      (∃ b t, has cmp s k = .ok (b, t) ∧ (b = true ↔ ∃ a ∈ keys s, cmp k a = 0)) ∧
      (∃ t, get cmp s k = .ok (lookup cmp k (toList s), t)) := by
  obtain ⟨L, h⟩ := hwf
  refine ⟨?_, ?_, ?_⟩
  · obtain ⟨r, t, hrun, hrep, hsame, hr, _⟩ := getNode_spec ord h k
    rw [← h.linearSearch_eq k] at hr
    subst hr
    exact ⟨t, hrun, hsame, L, hrep⟩
  · obtain ⟨b, t, hrun, _, _, hb⟩ := has_spec ord h k
    exact ⟨b, t, hrun, hb⟩
  · obtain ⟨t, hrun, _⟩ := get_spec ord h k
    exact ⟨t, hrun⟩

theorem lookup_correct_witness :
    (∃ t, getNode intCmp demo 5 = .ok (some 1, t) ∧ SameButCache demo t ∧
        WellFormed intCmp t) ∧
      (∃ b t, has intCmp demo 5 = .ok (b, t) ∧ (b = true ↔ ∃ a ∈ keys demo, intCmp 5 a = 0)) ∧
      (∃ t, get intCmp demo 5 = .ok (500, t)) :=
  lookup_correct intCmp intCmp_order demo demo_wf 5

end SimpleMap

/-! ## Round trips -/

namespace SimpleMap

variable {T U : Type}

theorem Rep.find_mem {cmp : T → T → Int} (ord : StrictTotalOrder cmp) {s : SimpleMap T U}
    {L : List (Cell T U)} (h : Rep cmp s L) {c : Cell T U} (hc : c ∈ L) :
    L.find? (fun d => decide (cmp c.key d.key = 0)) = some c := by
  obtain ⟨i, hi, rfl⟩ := List.getElem_of_mem hc
  exact h.find_eq ord hi (ord.cmp_self _)

theorem Rep.lookup_mem [Inhabited U] {cmp : T → T → Int} (ord : StrictTotalOrder cmp)
    {s : SimpleMap T U} {L : List (Cell T U)} (h : Rep cmp s L) {c : Cell T U} (hc : c ∈ L) :
    lookup cmp c.key (toList s) = c.data := by
  rw [h.lookup_eq, h.find_mem ord hc]

/-- The effect of `put` on the chain when the key ends up stored: the container returned
holds a cell with the key and the value, at the sorted position. -/
theorem put_stored {cmp : T → T → Int} (ord : StrictTotalOrder cmp) {s : SimpleMap T U}
    {L : List (Cell T U)} (h : Rep cmp s L) (key : T) (obj : U)
    (hcase : s.locked = false ∨ key ∈ L.map Cell.key) :
    ∃ t L1 L2, put cmp s key obj = .ok t ∧
      Rep cmp t (L1 ++ { addr := s.heap.length, key := key, data := obj } :: L2) ∧
      t.locked = s.locked ∧ t.freeItem = s.freeItem ∧
      ((L = L1 ++ L2 ∧ key ∉ L.map Cell.key ∧ t.freed = s.freed) ∨
        ∃ c, L = L1 ++ c :: L2 ∧ c.key = key ∧
          t.freed = s.freed ++ (if s.freeItem then [c.data] else [])) := by
  obtain ⟨L1, M, L2, hL, h1, h2, hM⟩ := sorted_split ord key L h.sorted
  rcases hM with rfl | ⟨c, rfl, rfl⟩
  · rw [List.append_nil] at hL
    subst hL
    have hno : key ∉ (L1 ++ L2).map Cell.key := by
      intro hm
      obtain ⟨x, hx, rfl⟩ := List.mem_map.1 hm
      rcases List.mem_append.1 hx with hx | hx
      · have := h1 x hx; rw [ord.cmp_self] at this; omega
      · have := h2 x hx; rw [ord.cmp_self] at this; omega
    have hunl : s.locked = false := by
      rcases hcase with hl | hm
      · exact hl
      · exact absurd hm hno
    obtain ⟨t, hrun, hrep, e1, e2, e3, _⟩ := put_absent ord h key obj h1 h2 hunl
    exact ⟨t, L1, L2, hrun, hrep, e1, e2, Or.inl ⟨rfl, hno, e3⟩⟩
  · rw [List.append_assoc, List.singleton_append] at hL
    subst hL
    obtain ⟨t, hrun, hrep, e1, e2, e3, _⟩ := put_found ord h obj
    exact ⟨t, L1, L2, hrun, hrep, e1, e2, Or.inr ⟨c, rfl, rfl, e3⟩⟩

/-- What `getKey` and `getData` do at a valid position. -/
theorem getKey_getData_in [Inhabited T] [Inhabited U] {cmp : T → T → Int}
    {s : SimpleMap T U} {L : List (Cell T U)} (h : Rep cmp s L) {i : Nat} (hi : i < L.length) :
    getKey s (i : Int) = .ok ((L[i]).key,
        { s with isCached := true, lastIndexGot := (i : Int), lastNodeGot := some (L[i]).addr }) ∧
      getData s (i : Int) = .ok ((L[i]).data,
        { s with isCached := true, lastIndexGot := (i : Int), lastNodeGot := some (L[i]).addr }) ∧
      Rep cmp { s with isCached := true, lastIndexGot := (i : Int),
                       lastNodeGot := some (L[i]).addr } L := by
  have hd := h.deref_at hi
  refine ⟨?_, ?_, h.cacheAt hi⟩
  · unfold getKey
    rw [getNodeIndex_in h hi]
    simp only [bind_ok]
    rw [hd]
    rfl
  · unfold getData
    rw [getNodeIndex_in h hi]
    simp only [bind_ok]
    rw [hd]
    rfl

/-- C7 (index/key consistency): on every well-formed container and for every index `i`
with `0 <= i < size()`, the calls `getKey(i)`, `get` of the key obtained and `getData(i)`,
made in that order on the same container (each on the state, cache included, the
previous one left), all return, and the last two return the same value. -/
theorem index_key_consistency [Inhabited T] [Inhabited U] (cmp : T → T → Int)
    (ord : StrictTotalOrder cmp) (s : SimpleMap T U) (hwf : WellFormed cmp s) (i : Int)
    (h0 : 0 ≤ i) (h1 : i < size s) :
    ∃ k s1 v s2 s3, getKey s i = .ok (k, s1) ∧ get cmp s1 k = .ok (v, s2) ∧
      getData s2 i = .ok (v, s3) := by
  obtain ⟨L, h⟩ := hwf
  have hsz : s.listSize = (L.length : Int) := h.size
  have hi : i.toNat < L.length := by
    have : i < s.listSize := h1
    omega
  have hcast : ((i.toNat : Nat) : Int) = i := Int.toNat_of_nonneg h0
  obtain ⟨hk, _, hrep1⟩ := getKey_getData_in h hi
  rw [hcast] at hk hrep1
  obtain ⟨s2, hget, hrep2, _⟩ := get_spec ord hrep1 (L[i.toNat]).key
  rw [hrep1.lookup_mem ord (List.getElem_mem hi)] at hget
  obtain ⟨_, hd, _⟩ := getKey_getData_in hrep2 hi
  rw [hcast] at hd
  exact ⟨_, _, _, s2, _, hk, hget, hd⟩

theorem index_key_consistency_witness :
    ∃ k s1 v s2 s3, getKey demo 1 = .ok (k, s1) ∧ get intCmp s1 k = .ok (v, s2) ∧
      getData s2 1 = .ok (v, s3) :=
  index_key_consistency intCmp intCmp_order demo demo_wf 1 (by decide) (by decide)

end SimpleMap

/-! ## The destructor callback -/

namespace SimpleMap

variable {T U : Type}

theorem Rep.split_at {cmp : T → T → Int} {s : SimpleMap T U} {L : List (Cell T U)}
    (h : Rep cmp s L) {i : Nat} {kv : T × U} (hi : (toList s)[i]? = some kv) :
    ∃ L1 c L2, L = L1 ++ c :: L2 ∧ L1.length = i ∧ c.kv = kv := by
  rw [h.toList_eq, List.getElem?_map] at hi
  cases hc : L[i]? with
  | none => rw [hc] at hi; cases hi
  | some c =>
    rw [hc] at hi
    obtain ⟨hlt, hget⟩ := List.getElem?_eq_some.1 hc
    refine ⟨L.take i, c, L.drop (i + 1), ?_, ?_, Option.some.inj hi⟩
    · rw [← hget, ← List.drop_eq_getElem_cons hlt, List.take_append_drop]
    · rw [List.length_take]; omega

/-- C9 (destructor accounting for removals): on every well-formed container with a
destructor callback, (a) a `remove(k)` that finds `k` and (b) a `removeIndex(i)` that
removes a node (a valid index, or any index on a one-node container) return, decrease
`size()` by one and invoke the callback exactly once, on the value of the removed node;
(c) a `remove` or `removeIndex` that removes nothing (key absent, container locked,
index out of range on a container of two or more nodes, empty container) returns and
invokes the callback on nothing. -/
theorem removal_destructor_accounting [DecidableEq T] (cmp : T → T → Int)
    (ord : StrictTotalOrder cmp) (s : SimpleMap T U) (hwf : WellFormed cmp s)
    (hfree : s.freeItem = true) :
    (∀ k v, (k, v) ∈ toList s → s.locked = false →
        ∃ t, remove cmp s k = .ok t ∧ size t = size s - 1 ∧ t.freed = s.freed ++ [v]) ∧
      (∀ (i : Nat) kv, (toList s)[i]? = some kv →
        ∃ t, removeIndex s (i : Int) = .ok t ∧ size t = size s - 1 ∧
          t.freed = s.freed ++ [kv.2]) ∧
      (∀ (i : Int) kv, toList s = [kv] →
        ∃ t, removeIndex s i = .ok t ∧ size t = 0 ∧ t.freed = s.freed ++ [kv.2]) ∧
      (∀ k, k ∉ keys s ∨ s.locked = true →
        ∃ t, remove cmp s k = .ok t ∧ toList t = toList s ∧ t.freed = s.freed) ∧
      (∀ i : Int, 2 ≤ size s → i < 0 ∨ size s ≤ i →
        ∃ t, removeIndex s i = .ok t ∧ toList t = toList s ∧ t.freed = s.freed) ∧
      (∀ (i : Int) k, size s = 0 →
        (∃ t, removeIndex s i = .ok t ∧ toList t = toList s ∧ t.freed = s.freed) ∧
          ∃ t, remove cmp s k = .ok t ∧ toList t = toList s ∧ t.freed = s.freed) := by
  obtain ⟨L, h⟩ := hwf
  have hsz : s.listSize = (L.length : Int) := h.size
  refine ⟨?_, ?_, ?_, ?_, ?_, ?_⟩
  · intro k v hkv hunl
    rw [h.toList_eq] at hkv
    obtain ⟨c, hc, hckv⟩ := List.mem_map.1 hkv
    obtain ⟨L1, L2, rfl⟩ := List.append_of_mem hc
    have hk : c.key = k := congrArg Prod.fst hckv
    have hv : c.data = v := congrArg Prod.snd hckv
    obtain ⟨t, hrun, hrep, _, _, hfr, _⟩ := remove_found ord h hunl
    rw [hk] at hrun
    rw [hfree, hv] at hfr
    refine ⟨t, hrun, ?_, by simpa using hfr⟩
    show t.listSize = s.listSize - 1
    rw [hrep.size, hsz]
    simp only [List.length_append, List.length_cons, List.length_nil]
    push_cast
    omega
  · intro i kv hi
    obtain ⟨L1, c, L2, rfl, hlen, hckv⟩ := h.split_at hi
    have hv : c.data = kv.2 := congrArg Prod.snd hckv
    by_cases h2 : 2 ≤ (L1 ++ c :: L2).length
    · obtain ⟨t, hrun, hrep, _, _, hfr⟩ := removeIndex_in h h2
      rw [hlen] at hrun
      rw [hfree, hv] at hfr
      refine ⟨t, hrun, ?_, by simpa using hfr⟩
      show t.listSize = s.listSize - 1
      rw [hrep.size, hsz]
      simp only [List.length_append, List.length_cons, List.length_nil]
      push_cast
      omega
    · have hL1 : L1 = [] := by
        cases L1 with
        | nil => rfl
        | cons x L1 =>
          simp only [List.length_append, List.length_cons] at h2
          omega
      have hL2 : L2 = [] := by
        cases L2 with
        | nil => rfl
        | cons x L2 =>
          simp only [List.length_append, List.length_cons] at h2
          omega
      subst hL1 hL2
      obtain ⟨t, hrun, hrep, _, _, hfr, _⟩ := removeIndex_single h (i : Int)
      rw [hfree, hv] at hfr
      refine ⟨t, hrun, ?_, by simpa using hfr⟩
      show t.listSize = s.listSize - 1
      rw [hrep.size, hsz]
      simp
  · intro i kv hone
    rw [h.toList_eq] at hone
    match L, h, hone with
    | [c], h, hone =>
      have hv : c.data = kv.2 := by
        simp only [List.map_cons, List.map_nil, List.cons.injEq, and_true] at hone
        exact congrArg Prod.snd hone
      obtain ⟨t, hrun, hrep, _, _, hfr, _⟩ := removeIndex_single h i
      rw [hfree, hv] at hfr
      refine ⟨t, hrun, ?_, by simpa using hfr⟩
      show t.listSize = 0
      rw [hrep.size]
      simp
  · intro k hcase
    refine ⟨s, remove_noop h k ?_, rfl, rfl⟩
    rcases hcase with hno | hl
    · right
      intro x hx he
      rw [h.keys_eq] at hno
      exact hno (he ▸ List.mem_map_of_mem Cell.key hx)
    · exact Or.inl hl
  · intro i h2 hi
    have h2' : (2 : Int) ≤ s.listSize := h2
    have hi' : i < 0 ∨ s.listSize ≤ i := hi
    exact ⟨s, removeIndex_out h (by omega) (by omega), rfl, rfl⟩
  · intro i k h0
    have h0' : s.listSize = 0 := h0
    have hL : L = [] := by
      cases L with
      | nil => rfl
      | cons x L =>
        simp only [List.length_cons] at hsz
        push_cast at hsz
        omega
    subst hL
    refine ⟨⟨_, removeIndex_empty h i, ?_, rfl⟩, s, remove_noop h k (Or.inr (by simp)), rfl, rfl⟩
    rw [h.clearCache.toList_eq, h.toList_eq]

theorem removal_destructor_accounting_witness :
    (∃ t, remove intCmp demo 5 = .ok t ∧ size t = size demo - 1 ∧
        t.freed = demo.freed ++ [500]) ∧
      (∃ t, removeIndex demo ((2 : Nat) : Int) = .ok t ∧ size t = size demo - 1 ∧
        t.freed = demo.freed ++ [1000]) ∧
      (∃ t, remove intCmp demo 7 = .ok t ∧ toList t = toList demo ∧ t.freed = demo.freed) ∧
      (∃ t, removeIndex demo 3 = .ok t ∧ toList t = toList demo ∧ t.freed = demo.freed) :=
  ⟨(removal_destructor_accounting intCmp intCmp_order demo demo_wf rfl).1 5 500
      (by decide) rfl,
    (removal_destructor_accounting intCmp intCmp_order demo demo_wf rfl).2.1 2 (10, 1000)
      (by decide),
    (removal_destructor_accounting intCmp intCmp_order demo demo_wf rfl).2.2.2.1 7
      (Or.inl (by decide)),
    (removal_destructor_accounting intCmp intCmp_order demo demo_wf rfl).2.2.2.2.1 3
      (by decide) (Or.inr (by decide))⟩

end SimpleMap

namespace SimpleMap

/-- C8 (`clear()` and the destructor callback), evaluated on the scenario of the
specification: keys `1, 2, 3, 4, 5` are inserted into a container with a destructor
callback, then `remove(3)` and `removeIndex(0)` are called.  These return and the
callback has been invoked on the values of keys `3` and `1`; the chain then holds the
keys `2, 4, 5`.  The following `clear()` does not invoke the callback once on each of the
three values and return: it dereferences `NULL`, because its loop advances `h` to
`h->next` before it evaluates `freeItem(h->data)`. -/
theorem clear_scenario_fault :
    ∃ s : SimpleMap Int Int,
      runOps intCmp [Op.put 1 10, Op.put 2 20, Op.put 3 30, Op.put 4 40, Op.put 5 50,
        Op.remove 3, Op.removeIndex 0] (empty true) = .ok s ∧
      toList s = [(2, 20), (4, 40), (5, 50)] ∧ s.freed = [30, 10] ∧
      clear s = .error .nullDeref :=
  ⟨_, rfl, rfl, rfl, rfl⟩

/-- C10 (`clear()` resets the container), evaluated on a one-node container with a
destructor callback: the container is well formed, and `clear()` does not return an
empty container but dereferences `NULL`. -/
theorem clear_single_fault :
    ∃ s : SimpleMap Int Int, put intCmp (empty true) 1 10 = .ok s ∧ WellFormed intCmp s ∧
      size s = 1 ∧ clear s = .error .nullDeref := by
  obtain ⟨t, L, hrun, hrep, _⟩ := put_wf intCmp_order (empty_rep intCmp true) (1 : Int) (10 : Int)
  have e : put intCmp (empty true) (1 : Int) (10 : Int) = .ok
      { heap := [some { key := 1, data := 10, next := none }], freeItem := true, freed := [],
        listSize := 1, listBegin := some 0, listEnd := some 0, locked := false,
        lastNodeGot := some 0, lastIndexGot := 0, isCached := true } := rfl
  rw [e] at hrun
  cases hrun
  exact ⟨_, e, ⟨L, hrep⟩, rfl, rfl⟩

end SimpleMap

/-! ## Sequences of `put` -/

namespace SimpleMap

variable {T U : Type}

theorem demo5_rep : Rep intCmp demo5 demo5Cells :=
  ⟨⟨rfl, _, rfl, rfl, _, rfl, rfl, _, rfl, rfl, _, rfl, rfl, _, rfl, rfl⟩, by decide, rfl, rfl,
    by decide, fun _ => ⟨by decide, by decide, rfl, by decide⟩, fun hc => by simp [demo5] at hc⟩

theorem demo5_wf : WellFormed intCmp demo5 := ⟨demo5Cells, demo5_rep⟩

theorem demo5_putAll :
    putAll intCmp [(10, 100), (5, 50), (20, 200), (1, 10), (15, 150)] (empty true) = .ok demo5 :=
  rfl

theorem Rep.key_ne_mid {cmp : T → T → Int} (ord : StrictTotalOrder cmp) {s : SimpleMap T U}
    {L1 L2 : List (Cell T U)} {c : Cell T U} (h : Rep cmp s (L1 ++ c :: L2)) :
    ∀ x ∈ L1 ++ L2, x.key ≠ c.key := by
  have hs := h.sorted
  rw [List.map_append, List.map_cons, List.pairwise_append, List.pairwise_cons] at hs
  obtain ⟨_, ⟨hc2, _⟩, h12⟩ := hs
  intro x hx he
  rcases List.mem_append.1 hx with hx | hx
  · have := h12 x.key (List.mem_map_of_mem Cell.key hx) c.key (by simp)
    rw [he, ord.cmp_self] at this
    omega
  · have := hc2 x.key (List.mem_map_of_mem Cell.key hx)
    rw [he, ord.cmp_self] at this
    omega

/-- The pairs of the chain after a `put` into an unlocked container: the pair put, and the
former pairs with another key. -/
theorem put_unlocked_mem {cmp : T → T → Int} (ord : StrictTotalOrder cmp) {s : SimpleMap T U}
    {L : List (Cell T U)} (h : Rep cmp s L) (hunl : s.locked = false) (key : T) (obj : U) :
    ∃ t L', put cmp s key obj = .ok t ∧ Rep cmp t L' ∧ t.locked = false ∧
      t.freeItem = s.freeItem ∧
      ∀ k v, (k, v) ∈ L'.map Cell.kv ↔
        (k = key ∧ v = obj) ∨ (k ≠ key ∧ (k, v) ∈ L.map Cell.kv) := by
  obtain ⟨t, L1, L2, hrun, hrep, e1, e2, hcase⟩ := put_stored ord h key obj (Or.inl hunl)
  refine ⟨t, _, hrun, hrep, e1.trans hunl, e2, ?_⟩
  intro k v
  simp only [List.map_append, List.map_cons, List.mem_append, List.mem_cons, Cell.kv,
    Prod.mk.injEq]
  rcases hcase with ⟨rfl, hno, _⟩ | ⟨c, rfl, hck, _⟩
  · have hne : ∀ x ∈ L1 ++ L2, x.key ≠ key := fun x hx he =>
      hno (he ▸ List.mem_map_of_mem Cell.key hx)
    simp only [List.map_append, List.mem_append]
    constructor
    · rintro (h1 | h1 | h1)
      · obtain ⟨x, hx, hxe⟩ := List.mem_map.1 h1
        simp only [Cell.kv, Prod.mk.injEq] at hxe
        exact Or.inr ⟨hxe.1 ▸ hne x (by simp [hx]), Or.inl h1⟩
      · exact Or.inl h1
      · obtain ⟨x, hx, hxe⟩ := List.mem_map.1 h1
        simp only [Cell.kv, Prod.mk.injEq] at hxe
        exact Or.inr ⟨hxe.1 ▸ hne x (by simp [hx]), Or.inr h1⟩
    · rintro (h1 | ⟨_, h1 | h1⟩)
      · exact Or.inr (Or.inl h1)
      · exact Or.inl h1
      · exact Or.inr (Or.inr h1)
  · have hne : ∀ x ∈ L1 ++ L2, x.key ≠ key := fun x hx => hck ▸ h.key_ne_mid ord x hx
    simp only [List.map_append, List.map_cons, List.mem_append, List.mem_cons, Cell.kv,
      Prod.mk.injEq]
    constructor
    · rintro (h1 | h1 | h1)
      · obtain ⟨x, hx, hxe⟩ := List.mem_map.1 h1
        simp only [Cell.kv, Prod.mk.injEq] at hxe
        exact Or.inr ⟨hxe.1 ▸ hne x (by simp [hx]), Or.inl h1⟩
      · exact Or.inl h1
      · obtain ⟨x, hx, hxe⟩ := List.mem_map.1 h1
        simp only [Cell.kv, Prod.mk.injEq] at hxe
        exact Or.inr ⟨hxe.1 ▸ hne x (by simp [hx]), Or.inr (Or.inr h1)⟩
    · rintro (h1 | ⟨hk, h1 | h1 | h1⟩)
      · exact Or.inr (Or.inl h1)
      · exact Or.inl h1
      · exact absurd (h1.1.trans hck) hk
      · exact Or.inr (Or.inr h1)

end SimpleMap

namespace SimpleMap

variable {T U : Type}

theorem lastValue_isSome [DecidableEq T] (kvs : List (T × U)) (k : T) :
    (∃ v, lastValue kvs k = some v) ↔ k ∈ kvs.map Prod.fst := by
  induction kvs with
  | nil => simp [lastValue]
  | cons kv rest ih =>
    simp only [lastValue, List.map_cons, List.mem_cons]
    cases hr : lastValue rest k with
    | some v =>
      have : k ∈ rest.map Prod.fst := ih.1 ⟨v, hr⟩
      simp [this]
    | none =>
      have hno : k ∉ rest.map Prod.fst := fun hm => by
        obtain ⟨v, hv⟩ := ih.2 hm
        rw [hr] at hv
        cases hv
      by_cases hk : kv.1 = k
      · simp [hk]
      · have hk' : ¬ k = kv.1 := fun e => hk e.symm
        simp [hk, hk', hno]

theorem putAll_spec [DecidableEq T] {cmp : T → T → Int} (ord : StrictTotalOrder cmp)
    (kvs : List (T × U)) :
    ∀ (s : SimpleMap T U) (L : List (Cell T U)), Rep cmp s L → s.locked = false →
      ∃ t L', putAll cmp kvs s = .ok t ∧ Rep cmp t L' ∧ t.locked = false ∧
        t.freeItem = s.freeItem ∧
        ∀ k v, (k, v) ∈ L'.map Cell.kv ↔
          (lastValue kvs k = some v ∨ (lastValue kvs k = none ∧ (k, v) ∈ L.map Cell.kv)) := by
  induction kvs with
  | nil =>
    intro s L h hunl
    exact ⟨s, L, rfl, h, hunl, rfl, fun k v => by simp [lastValue]⟩
  | cons kv rest ih =>
    intro s L h hunl
    obtain ⟨t1, L1, hrun1, hrep1, hunl1, hfi1, hmem1⟩ := put_unlocked_mem ord h hunl kv.1 kv.2
    obtain ⟨t, L', hrun, hrep, hunl2, hfi2, hmem⟩ := ih t1 L1 hrep1 hunl1
    refine ⟨t, L', by simp [putAll, hrun1, hrun], hrep, hunl2, hfi2.trans hfi1, ?_⟩
    intro k v
    rw [hmem k v, hmem1 k v]
    simp only [lastValue]
    cases hr : lastValue rest k with
    | some v' => simp
    | none =>
      by_cases hk : kv.1 = k
      · subst hk
        simp only [if_true, Option.some.injEq, true_and, ne_eq, not_true_eq_false, false_and,
          or_false, reduceCtorEq, and_false, false_or]
        exact eq_comm
      · have hk' : ¬ k = kv.1 := fun e => hk e.symm
        simp [hk, hk']

/-- Sequences of `put` on the empty container built by the two-argument constructor
(with a callback or with `NULL`): for a comparator that is a strict total order, any
finite sequence of `(key, value)` pairs put one after another runs to completion; the
resulting chain read head to tail has strictly ascending keys, holds exactly the pairs
`(k, v)` such that `v` is the value of the last put of `k` (so its keys are the distinct
keys of the sequence), and `size()` is the number of distinct keys. -/
theorem put_sorted_any_order [DecidableEq T] (cmp : T → T → Int) (ord : StrictTotalOrder cmp)
    (fi : Bool) (kvs : List (T × U)) :
    ∃ t : SimpleMap T U, putAll cmp kvs (empty fi) = .ok t ∧
      (keys t).Pairwise (fun a b => cmp a b < 0) ∧
      (∀ k v, (k, v) ∈ toList t ↔ lastValue kvs k = some v) ∧
      (∀ k, k ∈ keys t ↔ k ∈ kvs.map Prod.fst) ∧
      size t = (((kvs.map Prod.fst).dedup.length : Nat) : Int) ∧
      (toList t).length = (kvs.map Prod.fst).dedup.length := by
  obtain ⟨t, L, hrun, hrep, _, _, hmem⟩ :=
    putAll_spec ord kvs (empty fi) [] (empty_rep cmp fi) rfl
  have hpairs : ∀ k v, (k, v) ∈ toList t ↔ lastValue kvs k = some v := by
    intro k v
    rw [hrep.toList_eq, hmem k v]
    simp
  have hkeys : ∀ k, k ∈ keys t ↔ k ∈ kvs.map Prod.fst := by
    intro k
    rw [← lastValue_isSome kvs k]
    unfold keys
    constructor
    · intro hk
      obtain ⟨kv, hkv, rfl⟩ := List.mem_map.1 hk
      exact ⟨kv.2, (hpairs kv.1 kv.2).1 hkv⟩
    · rintro ⟨v, hv⟩
      exact List.mem_map.2 ⟨(k, v), (hpairs k v).2 hv, rfl⟩
  have hlen : (keys t).length = (kvs.map Prod.fst).dedup.length := by
    apply List.Perm.length_eq
    rw [List.perm_ext_iff_of_nodup (hrep.keys_nodup ord) (List.nodup_dedup _)]
    intro k
    rw [hkeys k, List.mem_dedup]
  refine ⟨t, hrun, ?_, hpairs, hkeys, ?_, ?_⟩
  · rw [hrep.keys_eq]
    exact hrep.sorted
  · show t.listSize = _
    rw [hrep.size, ← hlen, hrep.keys_eq, List.length_map]
  · rw [← hlen]
    simp [keys]

theorem put_sorted_any_order_witness :
    (∃ t : SimpleMap Int Int,
        putAll intCmp [(10, 100), (5, 50), (20, 200), (1, 10), (15, 150)] (empty true) = .ok t ∧
        (keys t).Pairwise (fun a b => intCmp a b < 0) ∧
        (∀ k v, (k, v) ∈ toList t ↔
          lastValue [(10, 100), (5, 50), (20, 200), (1, 10), (15, 150)] k = some v) ∧
        (∀ k, k ∈ keys t ↔
          k ∈ ([(10, 100), (5, 50), (20, 200), (1, 10), (15, 150)] : List (Int × Int)).map
            Prod.fst) ∧
        size t = 5 ∧ (toList t).length = 5) ∧
      keys demo5 = [1, 5, 10, 15, 20] ∧
      get intCmp demo5 20 = .ok (200, { demo5 with lastNodeGot := some 2, lastIndexGot := 4 }) :=
  ⟨put_sorted_any_order intCmp intCmp_order true
      [(10, 100), (5, 50), (20, 200), (1, 10), (15, 150)], rfl, rfl⟩

end SimpleMap

/-! ## Removal by position -/

namespace SimpleMap

variable {T U : Type}

theorem addrsFrom_eq {hp : Heap T U} {L : List (Cell T U)} {p : Option Nat} {fuel : Nat}
    (h : Lseg hp p L none) (hf : L.length ≤ fuel) : addrsFrom hp fuel p = L.map Cell.addr := by
  induction L generalizing p fuel with
  | nil =>
    have : p = none := h
    subst this
    cases fuel <;> simp [addrsFrom]
  | cons c L ih =>
    obtain ⟨h0, nx, hr, hrest⟩ := h
    subst h0
    cases fuel with
    | zero => simp at hf
    | succ f =>
      have hf2 : L.length ≤ f := by simpa using hf
      simp [addrsFrom, hr, ih hrest hf2]

theorem Rep.addrs_eq {cmp : T → T → Int} {s : SimpleMap T U} {L : List (Cell T U)}
    (h : Rep cmp s L) : addrs s = L.map Cell.addr :=
  addrsFrom_eq h.chain (Lseg_length_le h.chain)

/-- Out of range, `removeIndex` changes nothing on a container that does not hold exactly
one node (on an empty one it only clears the cache). -/
theorem removeIndex_out_noop {cmp : T → T → Int} {s : SimpleMap T U} (hwf : WellFormed cmp s)
    (hne : size s ≠ 1) {i : Int} (hi : i < 0 ∨ size s ≤ i) :
    ∃ t, removeIndex s i = .ok t ∧ SameButCache s t := by
  obtain ⟨L, h⟩ := hwf
  have hsz : s.listSize = (L.length : Int) := h.size
  have hne' : s.listSize ≠ 1 := hne
  have hi' : i < 0 ∨ s.listSize ≤ i := hi
  match L, h, hsz with
  | [], h, _ => exact ⟨_, removeIndex_empty h i, SameButCache.clearCache_same s⟩
  | [c], _, hsz => simp at hsz; omega
  | c :: d :: L, h, hsz =>
    refine ⟨s, removeIndex_out h (by simp) ?_, SameButCache.refl s⟩
    rw [← hsz]
    exact hi'

/-- C13 (out-of-range `removeIndex`), evaluated on the well-formed one-node container left
by `put(1, 10)` on an empty container with a destructor callback: `removeIndex(5)` and
`removeIndex(-1)` are not no-ops; each deletes the only node, makes `size()` zero and head
and tail `NULL`, and invokes the destructor callback on the value `10`.  The branch
`case 1` of `removeIndex` never looks at the index. -/
theorem removeIndex_single_out_of_range :
    ∃ s : SimpleMap Int Int, put intCmp (empty true) 1 10 = .ok s ∧ WellFormed intCmp s ∧
      size s = 1 ∧ toList s = [(1, 10)] ∧
      (removeIndex s 5).map (fun t => (toList t, size t, t.listBegin, t.listEnd, t.freed)) =
        .ok ([], 0, none, none, [10]) ∧
      (removeIndex s (-1)).map (fun t => (toList t, size t, t.listBegin, t.listEnd, t.freed)) =
        .ok ([], 0, none, none, [10]) := by
  obtain ⟨t, L, hrun, hrep, _⟩ := put_wf intCmp_order (empty_rep intCmp true) (1 : Int) (10 : Int)
  have e : put intCmp (empty true) (1 : Int) (10 : Int) = .ok
      { heap := [some { key := 1, data := 10, next := none }], freeItem := true, freed := [],
        listSize := 1, listBegin := some 0, listEnd := some 0, locked := false,
        lastNodeGot := some 0, lastIndexGot := 0, isCached := true } := rfl
  rw [e] at hrun
  cases hrun
  exact ⟨_, e, ⟨L, hrep⟩, rfl, rfl, rfl, rfl⟩

end SimpleMap

/-! ## Removal by key -/

namespace SimpleMap

variable {T U : Type}

end SimpleMap

/-! ## Indexed access and the frame of the lookups -/

namespace SimpleMap

variable {T U : Type}

theorem Rep.cacheInvariant {cmp : T → T → Int} {s : SimpleMap T U} {L : List (Cell T U)}
    (h : Rep cmp s L) : CacheInvariant s := by
  refine ⟨fun hc => ?_, h.cacheOff⟩
  obtain ⟨h0, h1, hp, _⟩ := h.cacheOn hc
  have hi : s.lastIndexGot.toNat < L.length := by omega
  have hsz : s.listSize = (L.length : Int) := h.size
  refine ⟨h0, by show s.lastIndexGot < s.listSize; omega, (L[s.lastIndexGot.toNat]).addr, ?_, ?_, ?_⟩
  · rw [hp, ptrAt_eq_some hi]
  · rw [h.addrs_eq, List.getElem?_map, List.getElem?_eq_getElem hi]
    rfl
  · rw [Lseg_read h.chain hi]
    rfl

theorem SameButCache.chain_eq {s t : SimpleMap T U} (h : SameButCache s t) :
    toList t = toList s ∧ addrs t = addrs s := by
  obtain ⟨h1, _, _, _, h5, _, _⟩ := h
  unfold toList addrs
  rw [h1, h5]
  exact ⟨rfl, rfl⟩

/-- C15 (indexed access): on every well-formed container, with a valid or an invalid
cache, and for every integer `i`: when `0 <= i < size()`, `getNodeIndex(i)` returns the
`i`-th node of the chain, `getKey(i)` and `getData(i)` return the key and the value
stored in it (the `i`-th pair of the chain), and each call leaves the container with
nothing changed but the cache, which is valid and holds `(i, that node)`; when `i < 0`
or `i >= size()`, `getNodeIndex(i)` returns `NULL`, `getKey(i)` and `getData(i)` return
the default value, and the container, cache included, is left as it was. -/
theorem indexed_access [Inhabited T] [Inhabited U] (cmp : T → T → Int) (s : SimpleMap T U)
    (hwf : WellFormed cmp s) (i : Int) :
    (0 ≤ i ∧ i < size s →
      ∃ a kv, (addrs s)[i.toNat]? = some a ∧ (toList s)[i.toNat]? = some kv ∧
        (∃ nx, s.heap.read a = some { key := kv.1, data := kv.2, next := nx }) ∧
        getNodeIndex s i = .ok (some a,
          { s with isCached := true, lastIndexGot := i, lastNodeGot := some a }) ∧
        getKey s i = .ok (kv.1,
          { s with isCached := true, lastIndexGot := i, lastNodeGot := some a }) ∧
        getData s i = .ok (kv.2,
          { s with isCached := true, lastIndexGot := i, lastNodeGot := some a }) ∧
        CacheInvariant { s with isCached := true, lastIndexGot := i, lastNodeGot := some a } ∧
        WellFormed cmp { s with isCached := true, lastIndexGot := i, lastNodeGot := some a }) ∧
      (i < 0 ∨ size s ≤ i →
        getNodeIndex s i = .ok (none, s) ∧ getKey s i = .ok (default, s) ∧
          getData s i = .ok (default, s)) := by
  obtain ⟨L, h⟩ := hwf
  have hsz : s.listSize = (L.length : Int) := h.size
  refine ⟨fun ⟨h0, h1⟩ => ?_, fun hout => ?_⟩
  · have hi : i.toNat < L.length := by
      have : i < s.listSize := h1
      omega
    have hcast : ((i.toNat : Nat) : Int) = i := Int.toNat_of_nonneg h0
    have hn := getNodeIndex_in h hi
    obtain ⟨hk, hd, hrep⟩ := getKey_getData_in h hi
    rw [hcast] at hn hk hd hrep
    refine ⟨(L[i.toNat]).addr, (L[i.toNat]).kv, ?_, ?_, ⟨_, Lseg_read h.chain hi⟩, hn, hk, hd,
      hrep.cacheInvariant, ⟨L, hrep⟩⟩
    · rw [h.addrs_eq, List.getElem?_map, List.getElem?_eq_getElem hi]
      rfl
    · rw [h.toList_eq, List.getElem?_map, List.getElem?_eq_getElem hi]
      rfl
  · have hn := getNodeIndex_out s hout
    refine ⟨hn, ?_, ?_⟩
    · unfold getKey
      rw [hn]
      rfl
    · unfold getData
      rw [hn]
      rfl

theorem indexed_access_witness :
    ((0 ≤ (1 : Int) ∧ (1 : Int) < size demo5 →
      ∃ a kv, (addrs demo5)[(1 : Int).toNat]? = some a ∧
        (toList demo5)[(1 : Int).toNat]? = some kv ∧
        (∃ nx, demo5.heap.read a = some { key := kv.1, data := kv.2, next := nx }) ∧
        getNodeIndex demo5 1 = .ok (some a,
          { demo5 with isCached := true, lastIndexGot := 1, lastNodeGot := some a }) ∧
        getKey demo5 1 = .ok (kv.1,
          { demo5 with isCached := true, lastIndexGot := 1, lastNodeGot := some a }) ∧
        getData demo5 1 = .ok (kv.2,
          { demo5 with isCached := true, lastIndexGot := 1, lastNodeGot := some a }) ∧
        CacheInvariant
          { demo5 with isCached := true, lastIndexGot := 1, lastNodeGot := some a } ∧
        WellFormed intCmp
          { demo5 with isCached := true, lastIndexGot := 1, lastNodeGot := some a }) ∧
      ((1 : Int) < 0 ∨ size demo5 ≤ 1 →
        getNodeIndex demo5 1 = .ok (none, demo5) ∧ getKey demo5 1 = .ok (default, demo5) ∧
          getData demo5 1 = .ok (default, demo5))) ∧
      (0 ≤ (1 : Int) ∧ (1 : Int) < size demo5) ∧
      (getKey demo5 1).map Prod.fst = .ok 5 ∧ (getData demo5 4).map Prod.fst = .ok 200 ∧
      (getKey demo 2).map Prod.fst = .ok 10 ∧
      getKey demo5 5 = .ok (default, demo5) ∧ getData demo5 (-1) = .ok (default, demo5) :=
  ⟨indexed_access intCmp demo5 demo5_wf 1, by decide, rfl, rfl, rfl, rfl, rfl⟩

theorem getIndex_run {cmp : T → T → Int} (ord : StrictTotalOrder cmp)
    {s : SimpleMap T U} {L : List (Cell T U)} (h : Rep cmp s L) (k : T) :
    ∃ r t, getIndex cmp s k = .ok (r, t) ∧ Rep cmp t L ∧ SameButCache s t := by
  obtain ⟨r, t, hrun, hrep, hsame, _⟩ := getNode_spec ord h k
  refine ⟨if r.isSome then t.lastIndexGot else -1, t, ?_, hrep, hsame⟩
  unfold getIndex
  rw [hrun]
  rfl

theorem getKey_getData_run [Inhabited T] [Inhabited U] {cmp : T → T → Int}
    {s : SimpleMap T U} {L : List (Cell T U)} (h : Rep cmp s L) (i : Int) :
    ∃ k d t, getKey s i = .ok (k, t) ∧ getData s i = .ok (d, t) ∧ Rep cmp t L ∧
      SameButCache s t := by
  have hsz : s.listSize = (L.length : Int) := h.size
  by_cases hin : 0 ≤ i ∧ i < s.listSize
  · have hi : i.toNat < L.length := by omega
    have hcast : ((i.toNat : Nat) : Int) = i := Int.toNat_of_nonneg hin.1
    obtain ⟨hk, hd, hrep⟩ := getKey_getData_in h hi
    rw [hcast] at hk hd hrep
    exact ⟨_, _, _, hk, hd, hrep, ⟨rfl, rfl, rfl, rfl, rfl, rfl, rfl⟩⟩
  · have hout : i < 0 ∨ s.listSize ≤ i := by omega
    have hn := getNodeIndex_out s hout
    refine ⟨default, default, s, ?_, ?_, h, SameButCache.refl s⟩
    · unfold getKey
      rw [hn]
      rfl
    · unfold getData
      rw [hn]
      rfl

/-- C18 (lookups change only the cache): on every well-formed container (the comparator
being a strict total order), for every key `k` and every integer `i`, each of `has(k)`,
`get(k)`, `getIndex(k)`, `getKey(i)` and `getData(i)` returns, and the container it
leaves has the same heap, the same head and tail, the same `size()`, the same lock flag,
the same callback and the same log of callback invocations (so the callback was not
invoked), hence the same chain of keys and values in the same order and the same nodes;
it is well-formed again, and only `isCached`, `lastIndexGot` and `lastNodeGot` may
differ. -/
theorem lookups_frame [Inhabited T] [Inhabited U] (cmp : T → T → Int)
    (ord : StrictTotalOrder cmp) (s : SimpleMap T U) (hwf : WellFormed cmp s) (k : T)
    (i : Int) :
    (∃ b t, has cmp s k = .ok (b, t) ∧ SameButCache s t ∧ toList t = toList s ∧
        addrs t = addrs s ∧ size t = size s ∧ isLocked t = isLocked s ∧
        t.freed = s.freed ∧ WellFormed cmp t) ∧
      (∃ v t, get cmp s k = .ok (v, t) ∧ SameButCache s t ∧ toList t = toList s ∧
        addrs t = addrs s ∧ size t = size s ∧ isLocked t = isLocked s ∧
        t.freed = s.freed ∧ WellFormed cmp t) ∧
      (∃ r t, getIndex cmp s k = .ok (r, t) ∧ SameButCache s t ∧ toList t = toList s ∧
        addrs t = addrs s ∧ size t = size s ∧ isLocked t = isLocked s ∧
        t.freed = s.freed ∧ WellFormed cmp t) ∧
      (∃ x t, getKey s i = .ok (x, t) ∧ SameButCache s t ∧ toList t = toList s ∧
        addrs t = addrs s ∧ size t = size s ∧ isLocked t = isLocked s ∧
        t.freed = s.freed ∧ WellFormed cmp t) ∧
      (∃ d t, getData s i = .ok (d, t) ∧ SameButCache s t ∧ toList t = toList s ∧
        addrs t = addrs s ∧ size t = size s ∧ isLocked t = isLocked s ∧
        t.freed = s.freed ∧ WellFormed cmp t) := by
  obtain ⟨L, h⟩ := hwf
  have pack : ∀ t : SimpleMap T U, Rep cmp t L → SameButCache s t →
      SameButCache s t ∧ toList t = toList s ∧ addrs t = addrs s ∧ size t = size s ∧
        isLocked t = isLocked s ∧ t.freed = s.freed ∧ WellFormed cmp t :=
    fun t hrep hs => ⟨hs, hs.chain_eq.1, hs.chain_eq.2, hs.2.2.2.1, by
      show t.locked = s.locked
      exact hs.2.2.2.2.2.2, hs.2.2.1, ⟨L, hrep⟩⟩
  obtain ⟨b, t1, hhas, hrep1, hs1, _⟩ := has_spec ord h k
  obtain ⟨t2, hget, hrep2, hs2⟩ := get_spec ord h k
  obtain ⟨r, t3, hidx, hrep3, hs3⟩ := getIndex_run ord h k
  obtain ⟨x, d, t4, hkey, hdat, hrep4, hs4⟩ := getKey_getData_run h i
  exact ⟨⟨b, t1, hhas, pack t1 hrep1 hs1⟩, ⟨_, t2, hget, pack t2 hrep2 hs2⟩,
    ⟨r, t3, hidx, pack t3 hrep3 hs3⟩, ⟨x, t4, hkey, pack t4 hrep4 hs4⟩,
    ⟨d, t4, hdat, pack t4 hrep4 hs4⟩⟩

theorem lookups_frame_witness :
    ((∃ b t, has intCmp demo5 15 = .ok (b, t) ∧ SameButCache demo5 t ∧
        toList t = toList demo5 ∧ addrs t = addrs demo5 ∧ size t = size demo5 ∧
        isLocked t = isLocked demo5 ∧ t.freed = demo5.freed ∧ WellFormed intCmp t) ∧
      (∃ v t, get intCmp demo5 15 = .ok (v, t) ∧ SameButCache demo5 t ∧
        toList t = toList demo5 ∧ addrs t = addrs demo5 ∧ size t = size demo5 ∧
        isLocked t = isLocked demo5 ∧ t.freed = demo5.freed ∧ WellFormed intCmp t) ∧
      (∃ r t, getIndex intCmp demo5 15 = .ok (r, t) ∧ SameButCache demo5 t ∧
        toList t = toList demo5 ∧ addrs t = addrs demo5 ∧ size t = size demo5 ∧
        isLocked t = isLocked demo5 ∧ t.freed = demo5.freed ∧ WellFormed intCmp t) ∧
      (∃ x t, getKey demo5 1 = .ok (x, t) ∧ SameButCache demo5 t ∧
        toList t = toList demo5 ∧ addrs t = addrs demo5 ∧ size t = size demo5 ∧
        isLocked t = isLocked demo5 ∧ t.freed = demo5.freed ∧ WellFormed intCmp t) ∧
      (∃ d t, getData demo5 1 = .ok (d, t) ∧ SameButCache demo5 t ∧
        toList t = toList demo5 ∧ addrs t = addrs demo5 ∧ size t = size demo5 ∧
        isLocked t = isLocked demo5 ∧ t.freed = demo5.freed ∧ WellFormed intCmp t)) ∧
      (get intCmp demo5 1).map (fun r => (r.1, r.2.lastIndexGot, r.2.lastNodeGot)) =
        .ok (10, 0, some 3) :=
  ⟨lookups_frame intCmp intCmp_order demo5 demo5_wf 15 1, rfl⟩

end SimpleMap

/-! ## The index returned by `getIndex` -/

namespace SimpleMap

variable {T U : Type}

theorem find_isSome_of_mem {cmp : T → T → Int} {L : List (Cell T U)} {k : T} {c : Cell T U}
    (hc : c ∈ L) (hk : cmp k c.key = 0) :
    ((L.find? (fun c => decide (cmp k c.key = 0))).map Cell.addr).isSome = true := by
  rw [Option.isSome_map', List.find?_isSome]
  exact ⟨c, hc, by simpa using hk⟩

/-- On a chain of three or more nodes `getIndex` returns the position of the key, or `-1`
when no node carries it. -/
theorem getIndex_large {cmp : T → T → Int} (ord : StrictTotalOrder cmp)
    {s : SimpleMap T U} {L : List (Cell T U)} (h : Rep cmp s L) (h3 : 3 ≤ L.length) (k : T) :
    ∃ r t, getIndex cmp s k = .ok (r, t) ∧
      ((r = -1 ∧ ∀ c ∈ L, cmp k c.key ≠ 0) ∨
        ∃ i : Nat, ∃ hi : i < L.length, r = (i : Int) ∧ cmp k (L[i]).key = 0) := by
  obtain ⟨r, t, hrun, _, _, _, _, hloc⟩ := getNode_spec ord h k
  refine ⟨if r.isSome then t.lastIndexGot else -1, t, ?_, ?_⟩
  · unfold getIndex
    rw [hrun]
    rfl
  · rcases hloc h3 with ⟨hr, hno⟩ | ⟨i, hi, hr, hk, _, hidx, _⟩
    · left
      rw [hr]
      exact ⟨rfl, hno⟩
    · right
      rw [hr]
      exact ⟨i, hi, by simpa using hidx, hk⟩

/-- On a chain of one or two nodes `getIndex` of a key that is present returns the value
`lastIndexGot` held before the call, whatever the position of the key, and leaves the
container untouched. -/
theorem getIndex_small {cmp : T → T → Int} (ord : StrictTotalOrder cmp)
    {s : SimpleMap T U} {L : List (Cell T U)} (h : Rep cmp s L) (h2 : L.length ≤ 2) {k : T}
    {c : Cell T U} (hc : c ∈ L) (hk : cmp k c.key = 0) :
    getIndex cmp s k = .ok (s.lastIndexGot, s) := by
  obtain ⟨r, t, hrun, _, _, hr, hsmall, _⟩ := getNode_spec ord h k
  have hts := hsmall h2
  subst hts
  have hsome : r.isSome = true := by
    rw [hr]
    exact find_isSome_of_mem hc hk
  unfold getIndex
  rw [hrun]
  simp only [bind_ok]
  rw [if_pos hsome]

/-- C19 (the index returned by `getIndex`), evaluated on well-formed containers of one and
two nodes.  After `put(1, 10)` and `put(2, 20)` on an empty container the chain is
`(1,10), (2,20)` and the cache holds index `1`; `getIndex(1)` returns `1` although key `1`
is at position `0` (`getKey(0)` is `1`, and `getKey` of the index returned is `2`).
After a further `remove(2)` the chain is `(1,10)` and the cache is invalid; `has(1)` is
true but `getIndex(1)` returns `-1`.  For sizes 1 and 2 `getNode` returns the node
without touching the cache, and `getIndex` returns `lastIndexGot`. -/
theorem getIndex_small_stale :
    ∃ s2 s1 : SimpleMap Int Int,
      putAll intCmp [(1, 10), (2, 20)] (empty false) = .ok s2 ∧ WellFormed intCmp s2 ∧
      toList s2 = [(1, 10), (2, 20)] ∧ size s2 = 2 ∧
      getIndex intCmp s2 1 = .ok (1, s2) ∧
      (getKey s2 0).map Prod.fst = .ok 1 ∧ (getKey s2 1).map Prod.fst = .ok 2 ∧
      remove intCmp s2 2 = .ok s1 ∧ WellFormed intCmp s1 ∧
      toList s1 = [(1, 10)] ∧ size s1 = 1 ∧ s1.isCached = false ∧
      has intCmp s1 1 = .ok (true, s1) ∧
      getIndex intCmp s1 1 = .ok (-1, s1) := by
  obtain ⟨t, L, hrun, hrep, _⟩ := putAll_spec intCmp_order [((1 : Int), (10 : Int)), (2, 20)]
    (empty false) [] (empty_rep intCmp false) rfl
  have e : putAll intCmp [((1 : Int), (10 : Int)), (2, 20)] (empty false) = .ok
      { heap := [some { key := 1, data := 10, next := some 1 },
                 some { key := 2, data := 20, next := none }],
        freeItem := false, freed := [], listSize := 2, listBegin := some 0,
        listEnd := some 1, locked := false, lastNodeGot := some 1, lastIndexGot := 1,
        isCached := true } := rfl
  rw [e] at hrun
  cases hrun
  obtain ⟨u, L1, hrem, hrep1, _⟩ := remove_wf intCmp_order hrep (2 : Int)
  have e1 : Except.ok u = Except.ok
      { heap := [some { key := 1, data := 10, next := none }, none],
        freeItem := false, freed := [], listSize := 1, listBegin := some 0,
        listEnd := some 0, locked := false, lastNodeGot := none, lastIndexGot := -1,
        isCached := false } := hrem.symm.trans rfl
  cases e1
  exact ⟨_, _, e, ⟨L, hrep⟩, rfl, rfl, rfl, rfl, rfl, hrem, ⟨L1, hrep1⟩, rfl, rfl, rfl, rfl, rfl⟩

end SimpleMap

/-! ## Forward iteration with `la_begin` / `la_next` -/

namespace SimpleMap

variable {T U : Type}

/-- The statement `setCache` overwrites the three cache members and reads none of them. -/
theorem setCache_cache_irrel (s : SimpleMap T U) (b : Bool) (j : Int) (p : Option Nat)
    (index : Int) (node : Option Nat) :
    setCache { s with isCached := b, lastIndexGot := j, lastNodeGot := p } index node =
      setCache s index node := by
  unfold setCache clearCache
  split <;> rfl

theorem la_next_at {cmp : T → T → Int} {s : SimpleMap T U} {L : List (Cell T U)}
    (h : Rep cmp s L) {j : Nat} (hj : j < L.length) :
    la_next { s with isCached := true, lastIndexGot := (j : Int),
                     lastNodeGot := some (L[j]).addr } =
      .ok (decide (j + 1 < L.length), setCache s ((j : Int) + 1) (ptrAt L (j + 1))) := by
  have hsz : s.listSize = (L.length : Int) := h.size
  unfold la_next
  rw [h.deref_at hj]
  simp only [bind_ok]
  have e : setCache
      { s with isCached := true, lastIndexGot := (j : Int) + 1, lastNodeGot := ptrAt L (j + 1) }
      ((j : Int) + 1) (ptrAt L (j + 1)) = setCache s ((j : Int) + 1) (ptrAt L (j + 1)) :=
    setCache_cache_irrel s true _ _ _ _
  show Except.ok ((setCache
      { s with isCached := true, lastIndexGot := (j : Int) + 1, lastNodeGot := ptrAt L (j + 1) }
      ((j : Int) + 1) (ptrAt L (j + 1))).isCached, setCache
      { s with isCached := true, lastIndexGot := (j : Int) + 1, lastNodeGot := ptrAt L (j + 1) }
      ((j : Int) + 1) (ptrAt L (j + 1))) = _
  rw [e]
  congr 2
  by_cases hlt : j + 1 < L.length
  · rw [ptrAt_eq_some hlt, setCache_valid s (by omega) (by omega)]
    simp [hlt]
  · rw [ptrAt_eq_none (by omega), setCache_null]
    simp [hlt, clearCache]

theorem la_cursor {cmp : T → T → Int} {s : SimpleMap T U} {L : List (Cell T U)}
    (h : Rep cmp s L) {j : Nat} (hj : j < L.length) :
    setCache s (j : Int) (ptrAt L j) =
      { s with isCached := true, lastIndexGot := (j : Int), lastNodeGot := some (L[j]).addr } := by
  have hsz : s.listSize = (L.length : Int) := h.size
  rw [ptrAt_eq_some hj, setCache_valid s (by omega) (by omega)]

theorem la_loop_spec {cmp : T → T → Int} {s : SimpleMap T U} {L : List (Cell T U)}
    (h : Rep cmp s L) :
    ∀ (fuel j : Nat) (rec : List (T × U)), j ≤ L.length → L.length - j ≤ fuel →
      la_loop fuel (setCache s (j : Int) (ptrAt L j)) rec j =
        .ok (rec ++ (L.drop j).map Cell.kv, L.length, clearCache s) := by
  intro fuel
  induction fuel with
  | zero =>
    intro j rec hj hf
    have hjn : j = L.length := by omega
    subst hjn
    rw [ptrAt_eq_none (le_refl _), setCache_null]
    simp [la_loop, la_isEnd, clearCache]
  | succ fuel ih =>
    intro j rec hj hf
    by_cases hlt : j < L.length
    · rw [la_cursor h hlt]
      have hcur := h.deref_at hlt
      unfold la_loop
      have hend : la_isEnd
          { s with isCached := true, lastIndexGot := (j : Int),
                   lastNodeGot := some (L[j]).addr } = false := rfl
      rw [hend]
      simp only [Bool.false_eq_true, if_false]
      have hkey : la_getCurrentKey
          { s with isCached := true, lastIndexGot := (j : Int),
                   lastNodeGot := some (L[j]).addr } = .ok (L[j]).key := by
        unfold la_getCurrentKey
        show (deref s.heap (some (L[j]).addr) >>= fun n => Except.ok n.key) = _
        rw [hcur]
        rfl
      have hdat : la_getCurrentData
          { s with isCached := true, lastIndexGot := (j : Int),
                   lastNodeGot := some (L[j]).addr } = .ok (L[j]).data := by
        unfold la_getCurrentData
        show (deref s.heap (some (L[j]).addr) >>= fun n => Except.ok n.data) = _
        rw [hcur]
        rfl
      rw [hkey, hdat, la_next_at h hlt]
      simp only [bind_ok]
      have := ih (j + 1) (rec ++ [((L[j]).key, (L[j]).data)]) (by omega) (by omega)
      rw [Nat.cast_add, Nat.cast_one] at this
      rw [this, List.append_assoc]
      congr 3
      rw [List.drop_eq_getElem_cons hlt]
      rfl
    · have hjn : j = L.length := by omega
      subst hjn
      rw [ptrAt_eq_none (le_refl _), setCache_null]
      simp [la_loop, la_isEnd, clearCache]

/-- C17 (forward iteration visits the whole chain in order): on every well-formed
container with chain `(k0,v0), ..., (k(n-1),v(n-1))`, `n >= 0`, the loop
`la_begin(); while (!la_isEnd()) { record (la_getCurrentKey(), la_getCurrentData());
la_next(); }` terminates (any bound of `n` or more iterations is enough, and `n` is at
most the number of heap cells) after exactly `n` iterations, has recorded exactly the
pairs of the chain in their order, and leaves the container unchanged but for the cache,
which is invalid.  `la_begin()` returns true exactly when the container is not empty,
and `la_isEnd()` is true right after `la_begin()` on an empty container (and false on a
non-empty one). -/
theorem la_iteration (cmp : T → T → Int) (s : SimpleMap T U) (hwf : WellFormed cmp s) :
    la_traverse s = .ok (toList s, (toList s).length, clearCache s) ∧
      (∀ fuel, (toList s).length ≤ fuel →
        la_loop fuel (la_begin s).2 [] 0 = .ok (toList s, (toList s).length, clearCache s)) ∧
      size s = ((toList s).length : Int) ∧
      ((la_begin s).1 = true ↔ size s ≠ 0) ∧
      (size s = 0 → la_isEnd (la_begin s).2 = true) ∧
      (size s ≠ 0 → la_isEnd (la_begin s).2 = false) := by
  obtain ⟨L, h⟩ := hwf
  have hsz : s.listSize = (L.length : Int) := h.size
  have hlen : (toList s).length = L.length := by rw [h.toList_eq, List.length_map]
  have hbegin : (la_begin s).2 = setCache s ((0 : Nat) : Int) (ptrAt L 0) := by
    unfold la_begin
    rw [Lseg_ptr h.chain]
    rfl
  have hloop : ∀ fuel, (toList s).length ≤ fuel →
      la_loop fuel (la_begin s).2 [] 0 =
        .ok (toList s, (toList s).length, clearCache s) := by
    intro fuel hf
    rw [hbegin, la_loop_spec h fuel 0 [] (Nat.zero_le _) (by omega), hlen, h.toList_eq]
    rfl
  have hcases : (L.length = 0 ∧ (la_begin s).2 = clearCache s) ∨
      (∃ hpos : 0 < L.length, (la_begin s).2 =
        { s with isCached := true, lastIndexGot := ((0 : Nat) : Int),
                 lastNodeGot := some (L[0]).addr }) := by
    by_cases hpos : 0 < L.length
    · right
      exact ⟨hpos, by rw [hbegin, la_cursor h hpos]⟩
    · left
      refine ⟨by omega, ?_⟩
      rw [hbegin, ptrAt_eq_none (by omega), setCache_null]
  have hfst : (la_begin s).1 = (la_begin s).2.isCached := rfl
  refine ⟨?_, hloop, ?_, ?_, ?_, ?_⟩
  · unfold la_traverse
    apply hloop
    have := Lseg_length_le h.chain
    omega
  · show s.listSize = _
    rw [hsz, hlen]
  · rw [hfst]
    show _ ↔ s.listSize ≠ 0
    rcases hcases with ⟨h0, e⟩ | ⟨hpos, e⟩
    · rw [e]
      simp [clearCache, hsz, h0]
    · rw [e]
      simp only [true_iff]
      omega
  · intro h0
    have h0' : s.listSize = 0 := h0
    rcases hcases with ⟨_, e⟩ | ⟨hpos, e⟩
    · rw [e]
      rfl
    · omega
  · intro h0
    have h0' : s.listSize ≠ 0 := h0
    rcases hcases with ⟨hz, e⟩ | ⟨hpos, e⟩
    · omega
    · rw [e]
      rfl

theorem la_iteration_witness :
    (la_traverse demo5 = .ok (toList demo5, (toList demo5).length, clearCache demo5) ∧
      (∀ fuel, (toList demo5).length ≤ fuel →
        la_loop fuel (la_begin demo5).2 [] 0 =
          .ok (toList demo5, (toList demo5).length, clearCache demo5)) ∧
      size demo5 = ((toList demo5).length : Int) ∧
      ((la_begin demo5).1 = true ↔ size demo5 ≠ 0) ∧
      (size demo5 = 0 → la_isEnd (la_begin demo5).2 = true) ∧
      (size demo5 ≠ 0 → la_isEnd (la_begin demo5).2 = false)) ∧
      toList demo5 = [(1, 10), (5, 50), (10, 100), (15, 150), (20, 200)] ∧
      (la_traverse demo5).map (fun r => (r.1, r.2.1)) =
        .ok ([(1, 10), (5, 50), (10, 100), (15, 150), (20, 200)], 5) ∧
      (la_traverse (empty true : SimpleMap Int Int)).map (fun r => (r.1, r.2.1)) =
        .ok ([], 0) ∧
      (la_begin (empty true : SimpleMap Int Int)).1 = false :=
  ⟨la_iteration intCmp demo5 demo5_wf, rfl, rfl, rfl, rfl⟩

end SimpleMap

/-! ## The cache invariant over all public operations -/

namespace SimpleMap

variable {T U : Type}

theorem map_snd_ok {α : Type} {x : Except Fault (α × SimpleMap T U)} {a : α}
    {t : SimpleMap T U} (h : x = .ok (a, t)) : x.map Prod.snd = .ok t := by
  rw [h]
  rfl

theorem Rep.la_begin_rep {cmp : T → T → Int} {s : SimpleMap T U} {L : List (Cell T U)}
    (h : Rep cmp s L) : Rep cmp (SimpleMap.la_begin s).2 L :=
  h.setCache_of 0 s.listBegin (fun _ _ _ => Lseg_ptr h.chain)

/-- From a well-formed container whose cursor is not at the end, `la_next` returns and
leaves a well-formed container with the same chain. -/
theorem la_next_rep {cmp : T → T → Int} {s : SimpleMap T U} {L : List (Cell T U)}
    (h : Rep cmp s L) (hend : la_isEnd s = false) :
    ∃ b t, la_next s = .ok (b, t) ∧ Rep cmp t L := by
  have hsome : s.lastNodeGot ≠ none := by
    intro hn
    simp [la_isEnd, hn] at hend
  have hc : s.isCached = true := by
    cases hcb : s.isCached with
    | true => rfl
    | false => exact absurd (h.cacheOff hcb).1 hsome
  obtain ⟨h0, h1, hp, _⟩ := h.cacheOn hc
  have hj : s.lastIndexGot.toNat < L.length := by omega
  have hcast : ((s.lastIndexGot.toNat : Nat) : Int) = s.lastIndexGot := Int.toNat_of_nonneg h0
  rw [ptrAt_eq_some hj] at hp
  have hs : s = { s with isCached := true, lastIndexGot := ((s.lastIndexGot.toNat : Nat) : Int),
                         lastNodeGot := some (L[s.lastIndexGot.toNat]).addr } := by
    rw [hcast, ← hp, ← hc]
  have hnext := la_next_at h hj
  rw [← hs] at hnext
  refine ⟨_, _, hnext, h.setCache_of _ _ (fun _ _ _ => ?_)⟩
  congr 1

/-- At the end of the chain `la_next` dereferences `NULL`. -/
theorem la_next_end (s : SimpleMap T U) (hend : la_isEnd s = true) :
    la_next s = .error .nullDeref := by
  have hn : s.lastNodeGot = none := by
    simpa [la_isEnd] using hend
  unfold la_next
  rw [hn]
  rfl

/-- One public call on a well-formed container: if it returns, the container it leaves
is well-formed; and it does return, unless it is a `clear` of a non-empty container
with a destructor callback or a `la_next` with the cursor at the end. -/
theorem op_wf [DecidableEq T] [Inhabited T] [Inhabited U] {cmp : T → T → Int}
    (ord : StrictTotalOrder cmp) {s : SimpleMap T U} {L : List (Cell T U)} (h : Rep cmp s L)
    (op : Op T U) :
    (∀ t, op.run cmp s = .ok t → ∃ L', Rep cmp t L') ∧
      ((op = Op.la_next → la_isEnd s = false) →
        (op = Op.clear → s.freeItem = false ∨ size s = 0) → ∃ t, op.run cmp s = .ok t) := by
  have key : ∀ t0 L0, op.run cmp s = .ok t0 → Rep cmp t0 L0 →
      (∀ t, op.run cmp s = .ok t → ∃ L', Rep cmp t L') ∧
      ((op = Op.la_next → la_isEnd s = false) →
        (op = Op.clear → s.freeItem = false ∨ size s = 0) → ∃ t, op.run cmp s = .ok t) := by
    intro t0 L0 hrun hrep
    refine ⟨fun t ht => ?_, fun _ _ => ⟨t0, hrun⟩⟩
    rw [hrun] at ht
    cases ht
    exact ⟨L0, hrep⟩
  have edit : op.isEdit = true →
      (∀ t, op.run cmp s = .ok t → ∃ L', Rep cmp t L') ∧
      ((op = Op.la_next → la_isEnd s = false) →
        (op = Op.clear → s.freeItem = false ∨ size s = 0) → ∃ t, op.run cmp s = .ok t) := by
    intro hed
    obtain ⟨t, L', hrun, hrep, _⟩ := edit_wf ord h op hed
    exact key t L' hrun hrep
  cases op with
  | put k v => exact edit rfl
  | remove k => exact edit rfl
  | removeIndex i => exact edit rfl
  | lock => exact edit rfl
  | unlock => exact edit rfl
  | clear =>
    refine ⟨fun t hrun => ⟨[], (clear_wf h hrun).1⟩, fun _ hpre => ?_⟩
    have hcase : s.freeItem = false ∨ L = [] := by
      rcases hpre rfl with hf | h0
      · exact Or.inl hf
      · right
        have h0' : s.listSize = 0 := h0
        have hsz : s.listSize = (L.length : Int) := h.size
        exact List.length_eq_zero.1 (by omega)
    obtain ⟨t, hrun, _⟩ := clear_ok h hcase
    exact ⟨t, hrun⟩
  | get k =>
    obtain ⟨t, hrun, hrep, _⟩ := get_spec ord h k
    exact key t L (map_snd_ok hrun) hrep
  | has k =>
    obtain ⟨b, t, hrun, hrep, _⟩ := has_spec ord h k
    exact key t L (map_snd_ok hrun) hrep
  | getIndex k =>
    obtain ⟨r, t, hrun, hrep, _⟩ := getIndex_run ord h k
    exact key t L (map_snd_ok hrun) hrep
  | getKey i =>
    obtain ⟨k, d, t, hrun, _, hrep, _⟩ := getKey_getData_run h i
    exact key t L (map_snd_ok hrun) hrep
  | getData i =>
    obtain ⟨k, d, t, _, hrun, hrep, _⟩ := getKey_getData_run h i
    exact key t L (map_snd_ok hrun) hrep
  | la_begin => exact key _ L rfl h.la_begin_rep
  | la_next =>
    by_cases hend : la_isEnd s = false
    · obtain ⟨b, t, hrun, hrep⟩ := la_next_rep h hend
      exact key t L (map_snd_ok hrun) hrep
    · have hend' : la_isEnd s = true := by simpa using hend
      refine ⟨fun t hrun => ?_, fun hpre _ => absurd (hpre rfl) hend⟩
      have hrun' : (SimpleMap.la_next s).map Prod.snd = .ok t := hrun
      rw [la_next_end s hend'] at hrun'
      cases hrun'

theorem runOps_wf [DecidableEq T] [Inhabited T] [Inhabited U] {cmp : T → T → Int}
    (ord : StrictTotalOrder cmp) (ops : List (Op T U)) :
    ∀ (s : SimpleMap T U) (L : List (Cell T U)), Rep cmp s L →
      ∀ t, runOps cmp ops s = .ok t → ∃ L', Rep cmp t L' := by
  induction ops with
  | nil =>
    intro s L h t hrun
    cases hrun
    exact ⟨L, h⟩
  | cons op ops ih =>
    intro s L h t hrun
    unfold runOps at hrun
    cases hop : op.run cmp s with
    | error e =>
      rw [hop] at hrun
      cases hrun
    | ok u =>
      rw [hop] at hrun
      obtain ⟨L', hrep⟩ := (op_wf ord h op).1 u hop
      exact ih u L' hrep t hrun

end SimpleMap

/-! ## Containers built by the one-argument constructor -/

namespace SimpleMap

variable {T U : Type}

theorem bind_eq_ok {α β : Type} {x : Except Fault α} {f : α → Except Fault β} {b : β}
    (h : (x >>= f) = .ok b) : ∃ a, x = .ok a ∧ f a = .ok b := by
  cases x with
  | error e => cases h
  | ok a => exact ⟨a, rfl, h⟩

/-- The replacement branch of `put` evaluates the unassigned member. -/
theorem unassigned_putReplace_fault (s : SimpleMap T U) (newNode h p : Option Nat) (c : Int)
    (t : SimpleMap T U) : Unassigned.putReplace s newNode h p c ≠ .ok t := by
  intro ht
  unfold Unassigned.putReplace at ht
  dsimp only at ht
  have key : ∀ hp1 : Heap T U, (do
      let hn ← deref hp1 h
      let hp2 ← setNext hp1 newNode hn.next
      let s ←
        Unassigned.freeData
            { heap := hp2, freeItem := s.freeItem, freed := s.freed, listSize := s.listSize,
              listBegin := if h = s.listBegin then newNode else s.listBegin,
              listEnd := if h = s.listEnd then newNode else s.listEnd, locked := s.locked,
              lastNodeGot := s.lastNodeGot, lastIndexGot := s.lastIndexGot,
              isCached := s.isCached }
            h
      Except.ok (setCache
        { heap := delete s.heap h, freeItem := s.freeItem, freed := s.freed,
          listSize := s.listSize, listBegin := s.listBegin, listEnd := s.listEnd,
          locked := s.locked, lastNodeGot := s.lastNodeGot, lastIndexGot := s.lastIndexGot,
          isCached := s.isCached } c newNode)) ≠ Except.ok t := by
    intro hp1 hk
    obtain ⟨hn, _, hk⟩ := bind_eq_ok hk
    obtain ⟨hp2, _, hk⟩ := bind_eq_ok hk
    obtain ⟨s1, hf, _⟩ := bind_eq_ok hk
    cases hf
  split at ht
  · obtain ⟨hp1, _, ht⟩ := bind_eq_ok ht
    exact key hp1 ht
  · exact key _ ht

theorem unassigned_removeFound_fault (s : SimpleMap T U) (h p : Option Nat)
    (t : SimpleMap T U) : Unassigned.removeFound s h p ≠ .ok t := by
  intro ht
  unfold Unassigned.removeFound at ht
  obtain ⟨hn, _, ht⟩ := bind_eq_ok ht
  obtain ⟨s1, _, ht⟩ := bind_eq_ok ht
  obtain ⟨s2, hf, _⟩ := bind_eq_ok ht
  cases hf

theorem unassigned_removeIndexFound_fault (s : SimpleMap T U) (i : Int) (h : Option Nat)
    (t : SimpleMap T U) : Unassigned.removeIndexFound s i h ≠ .ok t := by
  intro ht
  unfold Unassigned.removeIndexFound at ht
  obtain ⟨s1, _, ht⟩ := bind_eq_ok ht
  obtain ⟨s2, hf, _⟩ := bind_eq_ok ht
  cases hf

theorem unassigned_clearLoop_ok (fuel : Nat) (hp : Heap T U) (fr : List U) (h : Option Nat)
    (r : Heap T U × List U) (hr : Unassigned.clearLoop fuel hp fr h = .ok r) :
    h = none ∧ r = (hp, fr) := by
  cases h with
  | none =>
    cases fuel <;> simp [Unassigned.clearLoop] at hr <;> exact ⟨rfl, hr.symm⟩
  | some a =>
    cases fuel with
    | zero => simp [Unassigned.clearLoop] at hr
    | succ fuel =>
      unfold Unassigned.clearLoop at hr
      simp only [Option.isSome_some, if_true] at hr
      obtain ⟨n, _, hr⟩ := bind_eq_ok hr
      obtain ⟨fr1, hf, _⟩ := bind_eq_ok hr
      cases hf

theorem clearLoop_none (fi : Bool) (fuel : Nat) (hp : Heap T U) (fr : List U) :
    clearLoop fi fuel hp fr none = .ok (hp, fr) := by
  cases fuel <;> simp [clearLoop]

theorem unassigned_put_sim {cmp : T → T → Int} {s t : SimpleMap T U} {key : T} {obj : U}
    (ht : Unassigned.put cmp s key obj = .ok t) : put cmp s key obj = .ok t := by
  unfold Unassigned.put at ht
  unfold put
  simp only [Heap.alloc] at ht ⊢
  obtain ⟨r, hr, ht⟩ := bind_eq_ok ht
  rw [hr]
  simp only [bind_ok]
  obtain ⟨h, p, found, c⟩ := r
  cases found with
  | true => exact absurd ht (unassigned_putReplace_fault _ _ _ _ _ _)
  | false => exact ht

theorem unassigned_remove_sim [DecidableEq T] {cmp : T → T → Int} {s t : SimpleMap T U}
    {key : T} (ht : Unassigned.remove cmp s key = .ok t) : remove cmp s key = .ok t := by
  unfold Unassigned.remove at ht
  unfold remove
  by_cases hc : s.listSize > 0 ∧ (!s.locked) = true
  · rw [if_pos hc] at ht ⊢
    obtain ⟨b, hb, ht⟩ := bind_eq_ok ht
    rw [hb]
    simp only [bind_ok]
    by_cases h1 : cmp key b.key < 0
    · rw [if_pos h1] at ht ⊢
      exact ht
    · rw [if_neg h1] at ht ⊢
      obtain ⟨e, he, ht⟩ := bind_eq_ok ht
      rw [he]
      simp only [bind_ok]
      by_cases h2 : cmp key e.key > 0
      · rw [if_pos h2] at ht ⊢
        exact ht
      · rw [if_neg h2] at ht ⊢
        obtain ⟨r, hr, ht⟩ := bind_eq_ok ht
        rw [hr]
        simp only [bind_ok]
        obtain ⟨h, p, found, c⟩ := r
        cases found with
        | true => exact absurd ht (unassigned_removeFound_fault _ _ _ _)
        | false => exact ht
  · rw [if_neg hc] at ht ⊢
    exact ht

theorem unassigned_removeIndex_sim {s t : SimpleMap T U} {i : Int}
    (ht : Unassigned.removeIndex s i = .ok t) : removeIndex s i = .ok t := by
  unfold Unassigned.removeIndex at ht
  unfold removeIndex
  by_cases h0 : s.listSize = -2 ∨ s.listSize = -1 ∨ s.listSize = 0
  · rw [if_pos h0] at ht ⊢
    exact ht
  · rw [if_neg h0] at ht ⊢
    by_cases h1 : s.listSize = 1
    · rw [if_pos h1] at ht
      obtain ⟨s1, hf, _⟩ := bind_eq_ok ht
      cases hf
    · rw [if_neg h1] at ht ⊢
      obtain ⟨r, hr, ht⟩ := bind_eq_ok ht
      rw [hr]
      simp only [bind_ok]
      obtain ⟨h, s1⟩ := r
      by_cases hs : h.isSome = true
      · simp only [hs, if_true] at ht
        exact absurd ht (unassigned_removeIndexFound_fault _ _ _ _)
      · simp only [hs, if_false] at ht ⊢
        exact ht

theorem unassigned_clear_sim {s t : SimpleMap T U} (ht : Unassigned.clear s = .ok t) :
    clear s = .ok t := by
  unfold Unassigned.clear at ht
  unfold clear
  dsimp only [unlock] at ht ⊢
  obtain ⟨r, hr, ht⟩ := bind_eq_ok ht
  obtain ⟨hn, rfl⟩ := unassigned_clearLoop_ok _ _ _ _ _ hr
  rw [hn, clearLoop_none]
  exact ht

/-- A call that returns on an object built by the one-argument constructor returns the
same container on an object whose member `freeItem` was assigned. -/
theorem unassigned_run_sim [DecidableEq T] [Inhabited T] [Inhabited U] {cmp : T → T → Int}
    {s t : SimpleMap T U} (op : Op T U) (ht : Unassigned.run cmp op s = .ok t) :
    op.run cmp s = .ok t := by
  cases op with
  | put k v => exact unassigned_put_sim ht
  | remove k => exact unassigned_remove_sim ht
  | removeIndex i => exact unassigned_removeIndex_sim ht
  | clear => exact unassigned_clear_sim ht
  | lock => exact ht
  | unlock => exact ht
  | get k => exact ht
  | has k => exact ht
  | getIndex k => exact ht
  | getKey i => exact ht
  | getData i => exact ht
  | la_begin => exact ht
  | la_next => exact ht

theorem unassigned_runOps_sim [DecidableEq T] [Inhabited T] [Inhabited U]
    {cmp : T → T → Int} (ops : List (Op T U)) :
    ∀ (s t : SimpleMap T U), Unassigned.runOps cmp ops s = .ok t → runOps cmp ops s = .ok t := by
  induction ops with
  | nil =>
    intro s t ht
    exact ht
  | cons op ops ih =>
    intro s t ht
    unfold Unassigned.runOps at ht
    obtain ⟨u, hu, ht⟩ := bind_eq_ok ht
    unfold runOps
    rw [unassigned_run_sim op hu]
    exact ih u t ht

end SimpleMap

namespace SimpleMap

variable {T U : Type}

/-- A `put` of a key that no node carries does not evaluate `freeItem`. -/
theorem unassigned_put_absent {cmp : T → T → Int} {s : SimpleMap T U} {L : List (Cell T U)}
    (h : Rep cmp s L) (key : T) (obj : U) (hno : ∀ x ∈ L, cmp x.key key ≠ 0) :
    Unassigned.put cmp s key obj = put cmp s key obj := by
  have hseg0 := Lseg_alloc (some { key := key, data := obj, next := none }) h.chain
  have hscan := scan_none (g := fun k => decide (cmp k key = 0)) hseg0
    (fun x hx => by simpa using hno x hx)
    (List.length (s.heap ++ [some ({ key := key, data := obj, next := none } :
      SimpleMapNode T U)]) + 1)
    (by
      have := Lseg_length_le h.chain
      simp at this ⊢
      omega) none 0
  unfold Unassigned.put put
  by_cases hpos : s.listSize > 0
  · simp only [Heap.alloc, hpos, if_true, hscan, bind_ok, Bool.false_eq_true, if_false]
  · simp only [Heap.alloc, hpos, if_false, bind_ok, Bool.false_eq_true]

/-- A `put` of a key that a node carries evaluates `freeItem`. -/
theorem unassigned_put_found {cmp : T → T → Int} (ord : StrictTotalOrder cmp)
    {s : SimpleMap T U} {L1 L2 : List (Cell T U)} {c : Cell T U}
    (h : Rep cmp s (L1 ++ c :: L2)) (obj : U) (t : SimpleMap T U) :
    Unassigned.put cmp s c.key obj ≠ .ok t := by
  have hsz := h.size
  have hpos : s.listSize > 0 := by
    have := length_lt_append_cons L1 L2 c
    omega
  have hs := h.sorted
  have hno : ∀ x ∈ L1, cmp x.key c.key ≠ 0 := by
    intro x hx
    rw [List.map_append, List.map_cons, List.pairwise_append] at hs
    have := hs.2.2 x.key (List.mem_map_of_mem Cell.key hx) c.key (by simp)
    omega
  have hseg0 := Lseg_alloc (some { key := c.key, data := obj, next := none }) h.chain
  have hscan := scan_found (g := fun k => decide (cmp k c.key = 0)) hseg0
    (fun x hx => by simpa using hno x hx) (by simpa using ord.cmp_self c.key)
    (List.length (s.heap ++ [some ({ key := c.key, data := obj, next := none } :
      SimpleMapNode T U)]) + 1)
    (by
      have := Lseg_length_le h.chain
      simp at this ⊢
      omega) none 0
  intro ht
  unfold Unassigned.put at ht
  simp only [Heap.alloc, hpos, if_true, hscan, bind_ok, Int.zero_add] at ht
  exact unassigned_putReplace_fault _ _ _ _ _ _ ht

/-- A `remove` that removes nothing does not evaluate `freeItem`. -/
theorem unassigned_remove_noop [DecidableEq T] {cmp : T → T → Int} {s : SimpleMap T U}
    {L : List (Cell T U)} (h : Rep cmp s L) (key : T)
    (hcase : s.locked = true ∨ ∀ x ∈ L, x.key ≠ key) :
    Unassigned.remove cmp s key = .ok s := by
  unfold Unassigned.remove
  by_cases hc : s.listSize > 0 ∧ (!s.locked) = true
  · have hunl : s.locked = false := by simpa using hc.2
    have hno : ∀ x ∈ L, x.key ≠ key := by
      rcases hcase with hl | hno
      · rw [hl] at hunl; cases hunl
      · exact hno
    have hL : 0 < L.length := by
      have := h.size
      omega
    rw [if_pos hc, h.begin_eq hL, h.deref_at hL]
    simp only [bind_ok]
    split
    · rfl
    · rw [h.end_eq hL, h.deref_at (show L.length - 1 < L.length by omega)]
      simp only [bind_ok]
      split
      · rfl
      · have hscan := scan_none (g := fun k => decide (k = key)) h.chain
          (fun x hx => by simpa using hno x hx) (s.heap.length + 1)
          (by
            have := Lseg_length_le h.chain
            omega) none 0
        rw [h.begin_eq hL] at hscan
        simp [hscan]
  · rw [if_neg hc]

/-- A `remove` of a stored key from an unlocked container evaluates `freeItem`. -/
theorem unassigned_remove_found [DecidableEq T] {cmp : T → T → Int}
    (ord : StrictTotalOrder cmp) {s : SimpleMap T U} {L1 L2 : List (Cell T U)}
    {c : Cell T U} (h : Rep cmp s (L1 ++ c :: L2)) (hunl : s.locked = false)
    (t : SimpleMap T U) : Unassigned.remove cmp s c.key ≠ .ok t := by
  have hL : 0 < (L1 ++ c :: L2).length := by simp
  have hpos : s.listSize > 0 := by
    have := length_lt_append_cons L1 L2 c
    have := h.size
    omega
  have hcm : c ∈ L1 ++ c :: L2 := by simp
  have hno : ∀ x ∈ L1, x.key ≠ c.key := by
    intro x hx he
    have hs := h.sorted
    rw [List.map_append, List.map_cons, List.pairwise_append] at hs
    have := hs.2.2 x.key (List.mem_map_of_mem Cell.key hx) c.key (by simp)
    rw [he, ord.cmp_self] at this
    omega
  have hscan := scan_found (g := fun k => decide (k = c.key)) h.chain
    (fun x hx => by simpa using hno x hx) (by simp) (s.heap.length + 1)
    (by
      have := Lseg_length_le h.chain
      simp at this ⊢
      omega) none 0
  intro ht
  unfold Unassigned.remove at ht
  simp only [hpos, hunl, Bool.not_false, and_self, if_true, h.begin_eq hL, h.deref_at hL,
    bind_ok, if_neg (h.not_lt_head_mem ord hcm hL), h.end_eq hL,
    h.deref_at (show (L1 ++ c :: L2).length - 1 < (L1 ++ c :: L2).length by omega),
    if_neg (h.not_gt_last_mem ord hcm hL)] at ht
  rw [h.begin_eq hL] at hscan
  simp only [hscan, bind_ok, if_true] at ht
  exact unassigned_removeFound_fault _ _ _ _ ht

/-- A `removeIndex` on an empty container, or at an invalid position of a container with
two or more nodes, does not evaluate `freeItem`. -/
theorem unassigned_removeIndex_keep {cmp : T → T → Int} {s : SimpleMap T U}
    {L : List (Cell T U)} (h : Rep cmp s L) (i : Int) (h1 : L.length ≠ 1)
    (hi : L.length = 0 ∨ i < 0 ∨ (L.length : Int) ≤ i) :
    Unassigned.removeIndex s i = removeIndex s i := by
  have hsz := h.size
  unfold Unassigned.removeIndex removeIndex
  by_cases h0 : L.length = 0
  · rw [if_pos (by omega), if_pos (by omega)]
  · have hi' : i < 0 ∨ (L.length : Int) ≤ i := by
      rcases hi with hi | hi
      · exact absurd hi h0
      · exact hi
    rw [if_neg (by omega), if_neg (by omega), if_neg (by omega), if_neg (by omega),
      getNodeIndex_out s (by rw [hsz]; exact hi')]
    rfl

/-- A `removeIndex` on a one-node container, or at a valid position, evaluates
`freeItem`. -/
theorem unassigned_removeIndex_fault {cmp : T → T → Int} {s : SimpleMap T U}
    {L : List (Cell T U)} (h : Rep cmp s L) (i : Int)
    (hi : L.length = 1 ∨ (2 ≤ L.length ∧ 0 ≤ i ∧ i < (L.length : Int)))
    (t : SimpleMap T U) : Unassigned.removeIndex s i ≠ .ok t := by
  have hsz := h.size
  intro ht
  unfold Unassigned.removeIndex at ht
  rcases hi with h1 | ⟨h2, hi0, hi1⟩
  · rw [if_neg (by omega), if_pos (by omega)] at ht
    obtain ⟨s1, hf, _⟩ := bind_eq_ok ht
    cases hf
  · have hlt : i.toNat < L.length := by omega
    have hcast : ((i.toNat : Nat) : Int) = i := Int.toNat_of_nonneg hi0
    have hn := getNodeIndex_in h hlt
    rw [hcast] at hn
    rw [if_neg (by omega), if_neg (by omega), hn] at ht
    simp only [bind_ok, Option.isSome_some, if_true] at ht
    exact unassigned_removeIndexFound_fault _ _ _ _ ht

/-- A `clear` of an empty container does not evaluate `freeItem`. -/
theorem unassigned_clear_empty {cmp : T → T → Int} {s : SimpleMap T U}
    (h : Rep cmp s []) : Unassigned.clear s = clear s := by
  have hb : s.listBegin = none := h.chain
  unfold Unassigned.clear clear
  dsimp only [unlock]
  rw [hb, clearLoop_none]
  simp [Unassigned.clearLoop]

/-- A `clear` of a non-empty container evaluates `freeItem`. -/
theorem unassigned_clear_fault {cmp : T → T → Int} {s : SimpleMap T U}
    {L : List (Cell T U)} (h : Rep cmp s L) (hL : 0 < L.length) (t : SimpleMap T U) :
    Unassigned.clear s ≠ .ok t := by
  intro ht
  unfold Unassigned.clear at ht
  dsimp only [unlock] at ht
  obtain ⟨r, hr, _⟩ := bind_eq_ok ht
  obtain ⟨hn, _⟩ := unassigned_clearLoop_ok _ _ _ _ _ hr
  rw [h.begin_eq hL] at hn
  cases hn

theorem any_cmp_iff {cmp : T → T → Int} (ord : StrictTotalOrder cmp) {s : SimpleMap T U}
    {L : List (Cell T U)} (h : Rep cmp s L) (key : T) :
    (keys s).any (fun k => decide (cmp k key = 0)) = true ↔ ∃ c ∈ L, c.key = key := by
  rw [h.keys_eq, List.any_eq_true]
  constructor
  · rintro ⟨k, hk, hc⟩
    obtain ⟨c, hcL, rfl⟩ := List.mem_map.1 hk
    exact ⟨c, hcL, (ord.eq_iff _ _).1 (by simpa using hc)⟩
  · rintro ⟨c, hcL, rfl⟩
    exact ⟨c.key, List.mem_map_of_mem Cell.key hcL, by simpa using ord.cmp_self c.key⟩

/-- On an object built by the one-argument constructor a call that discards no value
does what it does on an object whose `freeItem` was assigned, and a call that discards
a value does not return. -/
theorem unassigned_run_spec [DecidableEq T] [Inhabited T] [Inhabited U] {cmp : T → T → Int}
    (ord : StrictTotalOrder cmp) {s : SimpleMap T U} {L : List (Cell T U)} (h : Rep cmp s L)
    (op : Op T U) :
    (op.discards cmp s = false → Unassigned.run cmp op s = op.run cmp s) ∧
      (op.discards cmp s = true → ∀ t, Unassigned.run cmp op s ≠ .ok t) := by
  have hsz : s.listSize = (L.length : Int) := h.size
  cases op with
  | put k v =>
    constructor
    · intro hd
      refine unassigned_put_absent h k v (fun x hx hc => ?_)
      have hk : x.key = k := (ord.eq_iff _ _).1 hc
      have : (keys s).any (fun a => decide (cmp a k = 0)) = true :=
        (any_cmp_iff ord h k).2 ⟨x, hx, hk⟩
      have hd' : (keys s).any (fun a => decide (cmp a k = 0)) = false := hd
      rw [this] at hd'
      cases hd'
    · intro hd t
      obtain ⟨c, hc, rfl⟩ := (any_cmp_iff ord h k).1 hd
      obtain ⟨L1, L2, rfl⟩ := List.append_of_mem hc
      exact unassigned_put_found ord h v t
  | remove k =>
    constructor
    · intro hd
      have hd' : (!s.locked && decide (k ∈ keys s)) = false := hd
      have hcase : s.locked = true ∨ ∀ x ∈ L, x.key ≠ k := by
        cases hl : s.locked with
        | true => exact Or.inl rfl
        | false =>
          right
          intro x hx he
          rw [hl, h.keys_eq] at hd'
          have : k ∈ L.map Cell.key := he ▸ List.mem_map_of_mem Cell.key hx
          simp [this] at hd'
      show Unassigned.remove cmp s k = remove cmp s k
      rw [unassigned_remove_noop h k hcase, remove_noop h k hcase]
    · intro hd t
      have hd' : (!s.locked && decide (k ∈ keys s)) = true := hd
      rw [Bool.and_eq_true, h.keys_eq] at hd'
      have hunl : s.locked = false := by simpa using hd'.1
      have hk : k ∈ L.map Cell.key := by simpa using hd'.2
      obtain ⟨c, hc, rfl⟩ := List.mem_map.1 hk
      obtain ⟨L1, L2, rfl⟩ := List.append_of_mem hc
      exact unassigned_remove_found ord h hunl t
  | removeIndex i =>
    constructor
    · intro hd
      have hd' : (decide (s.listSize = 1) || decide (2 ≤ s.listSize ∧ 0 ≤ i ∧ i < s.listSize))
          = false := hd
      rw [Bool.or_eq_false_iff, decide_eq_false_iff_not, decide_eq_false_iff_not] at hd'
      exact unassigned_removeIndex_keep h i (by omega) (by omega)
    · intro hd t
      have hd' : (decide (s.listSize = 1) || decide (2 ≤ s.listSize ∧ 0 ≤ i ∧ i < s.listSize))
          = true := hd
      rw [Bool.or_eq_true, decide_eq_true_iff, decide_eq_true_iff] at hd'
      exact unassigned_removeIndex_fault h i (by omega) t
  | clear =>
    constructor
    · intro hd
      have hd' : decide (s.listSize ≠ 0) = false := hd
      rw [decide_eq_false_iff_not] at hd'
      have hnil : L = [] := List.length_eq_zero.1 (by omega)
      subst hnil
      exact unassigned_clear_empty h
    · intro hd t
      have hd' : decide (s.listSize ≠ 0) = true := hd
      rw [decide_eq_true_iff] at hd'
      exact unassigned_clear_fault h (by omega) t
  | lock => exact ⟨fun _ => rfl, fun hd => by cases hd⟩
  | unlock => exact ⟨fun _ => rfl, fun hd => by cases hd⟩
  | get k => exact ⟨fun _ => rfl, fun hd => by cases hd⟩
  | has k => exact ⟨fun _ => rfl, fun hd => by cases hd⟩
  | getIndex k => exact ⟨fun _ => rfl, fun hd => by cases hd⟩
  | getKey i => exact ⟨fun _ => rfl, fun hd => by cases hd⟩
  | getData i => exact ⟨fun _ => rfl, fun hd => by cases hd⟩
  | la_begin => exact ⟨fun _ => rfl, fun hd => by cases hd⟩
  | la_next => exact ⟨fun _ => rfl, fun hd => by cases hd⟩

end SimpleMap

/-! ## Invariants of the containers reached from either constructor -/

namespace SimpleMap

variable {T U : Type}

/-- Every container reached on an object built by the one-argument constructor is
well-formed. -/
theorem unassigned_reach [DecidableEq T] [Inhabited T] [Inhabited U] {cmp : T → T → Int}
    (ord : StrictTotalOrder cmp) {ops : List (Op T U)} {s : SimpleMap T U}
    (hrun : Unassigned.runOps cmp ops Unassigned.empty = .ok s) : ∃ L, Rep cmp s L :=
  runOps_wf ord ops (empty false) [] (empty_rep cmp false) s
    (unassigned_runOps_sim ops _ s hrun)

/-- One call on a well-formed object built by the one-argument constructor: it returns
exactly when it has no value to discard (a `la_next` being made with the cursor not at
the end), and the container it returns is well-formed. -/
theorem unassigned_step [DecidableEq T] [Inhabited T] [Inhabited U] {cmp : T → T → Int}
    (ord : StrictTotalOrder cmp) {s : SimpleMap T U} {L : List (Cell T U)} (h : Rep cmp s L)
    (op : Op T U) (hpre : op = Op.la_next → la_isEnd s = false) :
    ((∃ t, Unassigned.run cmp op s = .ok t) ↔ op.discards cmp s = false) ∧
      ∀ t, Unassigned.run cmp op s = .ok t → ∃ L', Rep cmp t L' := by
  obtain ⟨hkeep, hfault⟩ := unassigned_run_spec ord h op
  obtain ⟨hpres, hprog⟩ := op_wf ord h op
  refine ⟨⟨fun ⟨t, ht⟩ => ?_, fun hd => ?_⟩, fun t ht => hpres t (unassigned_run_sim op ht)⟩
  · cases hd : op.discards cmp s with
    | false => rfl
    | true => exact absurd ht (hfault hd t)
  · rw [hkeep hd]
    refine hprog hpre (fun hc => ?_)
    subst hc
    right
    have hd' : decide (s.listSize ≠ 0) = false := hd
    rw [decide_eq_false_iff_not] at hd'
    show s.listSize = 0
    omega

/-- C1 (sort invariant): for a comparator that is a strict total order and every sequence
of `put`, `remove` and `removeIndex` calls with any arguments (interleaved with `lock` and
`unlock`, so that the container is locked or not).  Started on the empty container built
by the two-argument constructor (with a callback or with `NULL`), the sequence runs to
completion and in the container it reaches the keys read head to tail are strictly
ascending, hence no two nodes hold equal keys.  Started on the empty container built by
the one-argument constructor, which leaves `freeItem` unassigned, every container the
sequence reaches has strictly ascending keys too; from such a container a further call
returns exactly when it has no value to discard (otherwise it evaluates the unassigned
member and no container is reached), and then again with strictly ascending keys. -/
theorem sort_invariant [DecidableEq T] [Inhabited T] [Inhabited U] (cmp : T → T → Int)
    (ord : StrictTotalOrder cmp) (ops : List (Op T U))
    (hops : ∀ op ∈ ops, op.isEdit = true) :
    (∀ fi : Bool, ∃ s : SimpleMap T U, runOps cmp ops (empty fi) = .ok s ∧
        (keys s).Pairwise (fun a b => cmp a b < 0) ∧ (keys s).Nodup) ∧
      ∀ s : SimpleMap T U, Unassigned.runOps cmp ops Unassigned.empty = .ok s →
        (keys s).Pairwise (fun a b => cmp a b < 0) ∧ (keys s).Nodup ∧
        ∀ op : Op T U, op.isEdit = true →
          ((∃ t, Unassigned.run cmp op s = .ok t) ↔ op.discards cmp s = false) ∧
          ∀ t, Unassigned.run cmp op s = .ok t →
            (keys t).Pairwise (fun a b => cmp a b < 0) ∧ (keys t).Nodup := by
  have sorted : ∀ (t : SimpleMap T U) (L : List (Cell T U)), Rep cmp t L →
      (keys t).Pairwise (fun a b => cmp a b < 0) ∧ (keys t).Nodup := by
    intro t L hrep
    refine ⟨?_, hrep.keys_nodup ord⟩
    rw [hrep.keys_eq]
    exact hrep.sorted
  refine ⟨fun fi => ?_, fun s hrun => ?_⟩
  · obtain ⟨t, L, hrun, hrep⟩ := runOps_edit_wf ord ops (empty fi) [] (empty_rep cmp fi) hops
    exact ⟨t, hrun, sorted t L hrep⟩
  · obtain ⟨L, hrep⟩ := unassigned_reach ord hrun
    refine ⟨(sorted s L hrep).1, (sorted s L hrep).2, fun op hed => ?_⟩
    obtain ⟨hiff, hpres⟩ := unassigned_step ord hrep op (fun hc => by
      subst hc
      cases hed)
    refine ⟨hiff, fun t ht => ?_⟩
    obtain ⟨L', hrep'⟩ := hpres t ht
    exact sorted t L' hrep'

theorem sort_invariant_witness :
    (∃ s : SimpleMap Int Int,
      runOps intCmp [Op.put 10 1, Op.put 5 2, Op.lock, Op.put 20 3, Op.unlock, Op.put 20 3,
        Op.put 1 4, Op.put 15 5, Op.removeIndex 2, Op.remove 20] (empty true) = .ok s ∧
      (keys s).Pairwise (fun a b => intCmp a b < 0) ∧ (keys s).Nodup) ∧
    (∃ s : SimpleMap Int Int,
      Unassigned.runOps intCmp [Op.put 10 1, Op.put 5 2, Op.lock, Op.put 20 3, Op.unlock,
        Op.put 20 3, Op.put 1 4, Op.remove 7, Op.removeIndex 9] Unassigned.empty = .ok s ∧
      keys s = [1, 5, 10, 20] ∧
      (keys s).Pairwise (fun a b => intCmp a b < 0) ∧ (keys s).Nodup ∧
      (∃ t, Unassigned.run intCmp (Op.put 15 5) s = .ok t) ∧
      Unassigned.run intCmp (Op.remove 5) s = .error .unassignedRead) ∧
    Unassigned.runOps intCmp [Op.put 1 10, Op.put 2 20, Op.remove 2]
      (Unassigned.empty : SimpleMap Int Int) = .error .unassignedRead := by
  have two := (sort_invariant (U := Int) intCmp intCmp_order
    [Op.put 10 1, Op.put 5 2, Op.lock, Op.put 20 3, Op.unlock, Op.put 20 3,
      Op.put 1 4, Op.put 15 5, Op.removeIndex 2, Op.remove 20] (by decide)).1 true
  obtain ⟨hs, hn, hstep⟩ := (sort_invariant (U := Int) intCmp intCmp_order
    [Op.put 10 1, Op.put 5 2, Op.lock, Op.put 20 3, Op.unlock,
      Op.put 20 3, Op.put 1 4, Op.remove 7, Op.removeIndex 9] (by decide)).2
    { heap := [some { key := 10, data := 1, next := some 3 },
               some { key := 5, data := 2, next := some 0 },
               some { key := 20, data := 3, next := none },
               some { key := 20, data := 3, next := none },
               some { key := 1, data := 4, next := some 1 }],
      freeItem := false, freed := [], listSize := 4, listBegin := some 4,
      listEnd := some 3, locked := false, lastNodeGot := some 4, lastIndexGot := 0,
      isCached := true } (by rfl)
  exact ⟨two, ⟨_, rfl, rfl, hs, hn, (hstep (Op.put 15 5) rfl).1.2 rfl, rfl⟩, rfl⟩

/-- C2 (size invariant): for every sequence of `put`, `remove`, `removeIndex` and `clear`
calls (interleaved with `lock`/`unlock`).  In every container the sequence reaches from
the empty container built by the two-argument constructor, `size()` is the number of
nodes met by following `next` from `listBegin`, `listBegin` is the first and `listEnd`
the last node of that chain, and both are `NULL` exactly when `size()` is `0`; the
sequence runs to completion whenever `NULL` was passed for the callback or it holds no
`clear` (with a callback `clear` can fault, and then no container is reached).  The same
holds of every container the sequence reaches from the empty container built by the
one-argument constructor, which leaves `freeItem` unassigned; from such a container a
further call returns exactly when it has no value to discard (otherwise it evaluates the
unassigned member and no container is reached), and then the same holds again. -/
theorem size_invariant [DecidableEq T] [Inhabited T] [Inhabited U] (cmp : T → T → Int)
    (ord : StrictTotalOrder cmp) (ops : List (Op T U))
    (hops : ∀ op ∈ ops, op.isEditOrClear = true) :
    (∀ (fi : Bool) (s : SimpleMap T U), runOps cmp ops (empty fi) = .ok s →
        SizeInvariant s) ∧
      (∀ fi : Bool, fi = false ∨ (∀ op ∈ ops, op.isEdit = true) →
        ∃ s : SimpleMap T U, runOps cmp ops (empty fi) = .ok s) ∧
      ∀ s : SimpleMap T U, Unassigned.runOps cmp ops Unassigned.empty = .ok s →
        SizeInvariant s ∧
        ∀ op : Op T U, op.isEditOrClear = true →
          ((∃ t, Unassigned.run cmp op s = .ok t) ↔ op.discards cmp s = false) ∧
          ∀ t, Unassigned.run cmp op s = .ok t → SizeInvariant t := by
  refine ⟨fun fi s hrun => ?_, fun fi hcase => ?_, fun s hrun => ?_⟩
  · obtain ⟨h1, _⟩ := runOps_editOrClear_wf ord ops (empty fi) [] (empty_rep cmp fi) hops
    obtain ⟨L, hrep⟩ := h1 s hrun
    exact hrep.sizeInvariant
  · obtain ⟨_, h2⟩ := runOps_editOrClear_wf ord ops (empty fi) [] (empty_rep cmp fi) hops
    rcases hcase with hf | hed
    · exact h2 (by simp [empty, hf])
    · obtain ⟨t, _, hrun, _⟩ := runOps_edit_wf ord ops (empty fi) [] (empty_rep cmp fi) hed
      exact ⟨t, hrun⟩
  · obtain ⟨L, hrep⟩ := unassigned_reach ord hrun
    refine ⟨hrep.sizeInvariant, fun op hop => ?_⟩
    obtain ⟨hiff, hpres⟩ := unassigned_step ord hrep op (fun hc => by
      subst hc
      cases hop)
    refine ⟨hiff, fun t ht => ?_⟩
    obtain ⟨L', hrep'⟩ := hpres t ht
    exact hrep'.sizeInvariant

theorem size_invariant_witness :
    (∃ s : SimpleMap Int Int,
      runOps intCmp [Op.put 10 1, Op.put 5 2, Op.clear, Op.put 20 3, Op.removeIndex 0,
        Op.put 1 4, Op.put 15 5, Op.remove 15] (empty false) = .ok s ∧ SizeInvariant s) ∧
    (∃ s : SimpleMap Int Int,
      Unassigned.runOps intCmp [Op.clear, Op.put 10 1, Op.put 5 2, Op.removeIndex (-1),
        Op.remove 7] Unassigned.empty = .ok s ∧
      toList s = [(5, 2), (10, 1)] ∧ SizeInvariant s ∧
      (∃ t, Unassigned.run intCmp (Op.put 7 3) s = .ok t) ∧
      Unassigned.run intCmp Op.clear s = .error .unassignedRead ∧
      Unassigned.run intCmp (Op.removeIndex 0) s = .error .unassignedRead) := by
  obtain ⟨h1, h2, _⟩ := size_invariant (U := Int) intCmp intCmp_order
    [Op.put 10 1, Op.put 5 2, Op.clear, Op.put 20 3, Op.removeIndex 0,
      Op.put 1 4, Op.put 15 5, Op.remove 15] (by decide)
  obtain ⟨s, hs⟩ := h2 false (Or.inl rfl)
  obtain ⟨hinv, hstep⟩ := (size_invariant (U := Int) intCmp intCmp_order
    [Op.clear, Op.put 10 1, Op.put 5 2, Op.removeIndex (-1), Op.remove 7] (by decide)).2.2
    { heap := [some { key := 10, data := 1, next := none },
               some { key := 5, data := 2, next := some 0 }],
      freeItem := false, freed := [], listSize := 2, listBegin := some 1,
      listEnd := some 0, locked := false, lastNodeGot := some 1, lastIndexGot := 0,
      isCached := true } (by rfl)
  exact ⟨⟨s, hs, h1 false s hs⟩, ⟨_, rfl, rfl, hinv, (hstep (Op.put 7 3) rfl).1.2 rfl, rfl, rfl⟩⟩

/-- C16 (cache validity invariant): let `s` be a container reached from the empty
container by a finite sequence of calls of `put`, `get`, `has`, `getIndex`, `getKey`,
`getData`, `remove`, `removeIndex`, `clear`, `lock`, `unlock`, `la_begin` and `la_next`,
the comparator being a strict total order (a sequence that calls `la_next` with the
cursor at the end, or faults in `clear`, reaches no container).  Then whenever `isCached`
is true, `0 <= lastIndexGot < size()` and `lastNodeGot` is the live node at position
`lastIndexGot` of the current chain, and whenever `isCached` is false, `lastNodeGot` is
`NULL` and `lastIndexGot` is `-1`.  When the empty container was built by the
two-argument constructor (with a callback or with `NULL`), every further call returns
from `s` and establishes the same again, provided that a `la_next` is made only while
`la_isEnd()` is false and a `clear` only with `NULL` for the callback or on an empty
container.  When it was built by the one-argument constructor, which leaves `freeItem`
unassigned, a further call (a `la_next` only while `la_isEnd()` is false) returns exactly
when it has no value to discard (otherwise it evaluates the unassigned member and no
container is reached), and then establishes the same again. -/
theorem cache_invariant [DecidableEq T] [Inhabited T] [Inhabited U] (cmp : T → T → Int)
    (ord : StrictTotalOrder cmp) (ops : List (Op T U)) :
    (∀ (fi : Bool) (s : SimpleMap T U), runOps cmp ops (empty fi) = .ok s →
        CacheInvariant s ∧
        ∀ op : Op T U, (op = Op.la_next → la_isEnd s = false) →
          (op = Op.clear → s.freeItem = false ∨ size s = 0) →
          ∃ t, op.run cmp s = .ok t ∧ CacheInvariant t) ∧
      ∀ s : SimpleMap T U, Unassigned.runOps cmp ops Unassigned.empty = .ok s →
        CacheInvariant s ∧
        ∀ op : Op T U, (op = Op.la_next → la_isEnd s = false) →
          ((∃ t, Unassigned.run cmp op s = .ok t) ↔ op.discards cmp s = false) ∧
          ∀ t, Unassigned.run cmp op s = .ok t → CacheInvariant t := by
  refine ⟨fun fi s hrun => ?_, fun s hrun => ?_⟩
  · obtain ⟨L, h⟩ := runOps_wf ord ops (empty fi) [] (empty_rep cmp fi) s hrun
    refine ⟨h.cacheInvariant, fun op h1 h2 => ?_⟩
    obtain ⟨hpres, hprog⟩ := op_wf ord h op
    obtain ⟨t, ht⟩ := hprog h1 h2
    obtain ⟨L', hrep⟩ := hpres t ht
    exact ⟨t, ht, hrep.cacheInvariant⟩
  · obtain ⟨L, hrep⟩ := unassigned_reach ord hrun
    refine ⟨hrep.cacheInvariant, fun op hpre => ?_⟩
    obtain ⟨hiff, hpres⟩ := unassigned_step ord hrep op hpre
    refine ⟨hiff, fun t ht => ?_⟩
    obtain ⟨L', hrep'⟩ := hpres t ht
    exact hrep'.cacheInvariant

theorem cache_invariant_witness :
    (∃ s : SimpleMap Int Int,
      runOps intCmp [Op.put 10 100, Op.put 5 50, Op.put 20 200, Op.put 1 10, Op.put 15 150,
        Op.get 15, Op.put 10 101, Op.getIndex 5, Op.removeIndex 0, Op.has 20, Op.lock,
        Op.remove 15, Op.getKey 2, Op.unlock, Op.la_begin, Op.la_next, Op.remove 10,
        Op.getData 1, Op.put 7 70, Op.la_next] (empty true) = .ok s ∧
      toList s = [(5, 50), (7, 70), (15, 150), (20, 200)] ∧
      (s.isCached, s.lastIndexGot, s.lastNodeGot, addrs s) = (true, 2, some 4, [1, 6, 4, 2]) ∧
      (CacheInvariant s ∧
        ∀ op : Op Int Int, (op = Op.la_next → la_isEnd s = false) →
          (op = Op.clear → s.freeItem = false ∨ size s = 0) →
          ∃ t, op.run intCmp s = .ok t ∧ CacheInvariant t)) ∧
    (∃ s : SimpleMap Int Int,
      Unassigned.runOps intCmp [Op.put 10 100, Op.put 5 50, Op.put 20 200, Op.get 5,
        Op.getIndex 20, Op.lock, Op.remove 5, Op.getKey 2, Op.la_begin, Op.la_next,
        Op.unlock, Op.getData 1, Op.put 7 70, Op.la_next] Unassigned.empty = .ok s ∧
      toList s = [(5, 50), (7, 70), (10, 100), (20, 200)] ∧
      (s.isCached, s.lastIndexGot, s.lastNodeGot, addrs s) = (true, 2, some 0, [1, 3, 0, 2]) ∧
      CacheInvariant s ∧
      (∃ t, Unassigned.run intCmp (Op.getKey 3) s = .ok t) ∧
      Unassigned.run intCmp (Op.put 7 71) s = .error .unassignedRead) := by
  have two := (cache_invariant (U := Int) intCmp intCmp_order
    [Op.put 10 100, Op.put 5 50, Op.put 20 200, Op.put 1 10, Op.put 15 150,
      Op.get 15, Op.put 10 101, Op.getIndex 5, Op.removeIndex 0, Op.has 20, Op.lock,
      Op.remove 15, Op.getKey 2, Op.unlock, Op.la_begin, Op.la_next, Op.remove 10,
      Op.getData 1, Op.put 7 70, Op.la_next]).1 true
    { heap := [none, some { key := 5, data := 50, next := some 6 },
               some { key := 20, data := 200, next := none }, none,
               some { key := 15, data := 150, next := some 2 }, none,
               some { key := 7, data := 70, next := some 4 }],
      freeItem := true, freed := [100, 10, 101], listSize := 4, listBegin := some 1,
      listEnd := some 2, locked := false, lastNodeGot := some 4, lastIndexGot := 2,
      isCached := true } (by rfl)
  obtain ⟨hinv, hstep⟩ := (cache_invariant (U := Int) intCmp intCmp_order
    [Op.put 10 100, Op.put 5 50, Op.put 20 200, Op.get 5,
      Op.getIndex 20, Op.lock, Op.remove 5, Op.getKey 2, Op.la_begin, Op.la_next,
      Op.unlock, Op.getData 1, Op.put 7 70, Op.la_next]).2
    { heap := [some { key := 10, data := 100, next := some 2 },
               some { key := 5, data := 50, next := some 3 },
               some { key := 20, data := 200, next := none },
               some { key := 7, data := 70, next := some 0 }],
      freeItem := false, freed := [], listSize := 4, listBegin := some 1,
      listEnd := some 2, locked := false, lastNodeGot := some 0, lastIndexGot := 2,
      isCached := true } (by rfl)
  exact ⟨⟨_, rfl, rfl, rfl, two⟩,
    ⟨_, rfl, rfl, rfl, hinv, (hstep (Op.getKey 3) (fun hc => by cases hc)).1.2 rfl, rfl⟩⟩

end SimpleMap

/-! ## Sequences of `put` on an object built by the one-argument constructor -/

namespace SimpleMap

variable {T U : Type}

theorem put_unlocked_keys {cmp : T → T → Int} (ord : StrictTotalOrder cmp)
    {s : SimpleMap T U} {L : List (Cell T U)} (h : Rep cmp s L) (hunl : s.locked = false)
    (key : T) (obj : U) :
    ∃ t L', put cmp s key obj = .ok t ∧ Rep cmp t L' ∧ t.locked = false ∧
      ∀ k, k ∈ keys t ↔ k = key ∨ k ∈ keys s := by
  obtain ⟨t, L', hput, hrep, hl, _, hmem⟩ := put_unlocked_mem ord h hunl key obj
  refine ⟨t, L', hput, hrep, hl, fun k => ?_⟩
  rw [hrep.keys_eq, h.keys_eq]
  constructor
  · intro hk
    obtain ⟨c, hc, rfl⟩ := List.mem_map.1 hk
    rcases (hmem c.key c.data).1 (List.mem_map_of_mem Cell.kv hc) with ⟨e, _⟩ | ⟨_, hin⟩
    · exact Or.inl e
    · obtain ⟨d, hd, hkv⟩ := List.mem_map.1 hin
      have : d.key = c.key := congrArg Prod.fst hkv
      exact Or.inr (this ▸ List.mem_map_of_mem Cell.key hd)
  · rintro (rfl | hk)
    · obtain ⟨d, hd, hkv⟩ := List.mem_map.1 ((hmem k obj).2 (Or.inl ⟨rfl, rfl⟩))
      have : d.key = k := congrArg Prod.fst hkv
      exact this ▸ List.mem_map_of_mem Cell.key hd
    · obtain ⟨c, hc, rfl⟩ := List.mem_map.1 hk
      by_cases e : c.key = key
      · obtain ⟨d, hd, hkv⟩ := List.mem_map.1 ((hmem key obj).2 (Or.inl ⟨rfl, rfl⟩))
        have : d.key = key := congrArg Prod.fst hkv
        rw [e]
        exact this ▸ List.mem_map_of_mem Cell.key hd
      · obtain ⟨d, hd, hkv⟩ := List.mem_map.1
          ((hmem c.key c.data).2 (Or.inr ⟨e, List.mem_map_of_mem Cell.kv hc⟩))
        have : d.key = c.key := congrArg Prod.fst hkv
        exact this ▸ List.mem_map_of_mem Cell.key hd

/-- A sequence of `put` on an unlocked well-formed object built by the one-argument
constructor: when the keys are pairwise distinct and none is stored yet, it does what
it does on an object whose `freeItem` was assigned; otherwise some `put` replaces a
value, evaluates the unassigned member, and no container is reached. -/
theorem unassigned_putAll_spec [DecidableEq T] {cmp : T → T → Int}
    (ord : StrictTotalOrder cmp) (kvs : List (T × U)) :
    ∀ (s : SimpleMap T U) (L : List (Cell T U)), Rep cmp s L → s.locked = false →
      (((kvs.map Prod.fst).Nodup ∧ ∀ kv ∈ kvs, kv.1 ∉ keys s) →
          Unassigned.putAll cmp kvs s = putAll cmp kvs s) ∧
        (¬((kvs.map Prod.fst).Nodup ∧ ∀ kv ∈ kvs, kv.1 ∉ keys s) →
          ∀ t, Unassigned.putAll cmp kvs s ≠ .ok t) := by
  induction kvs with
  | nil =>
    intro s L _ _
    exact ⟨fun _ => rfl, fun hn => absurd ⟨List.nodup_nil, fun _ hkv => by cases hkv⟩ hn⟩
  | cons kv rest ih =>
    intro s L h hunl
    by_cases hk : kv.1 ∈ keys s
    · refine ⟨fun hc => absurd hk (hc.2 kv (List.mem_cons_self _ _)), fun _ t ht => ?_⟩
      unfold Unassigned.putAll at ht
      obtain ⟨u, hu, _⟩ := bind_eq_ok ht
      rw [h.keys_eq] at hk
      obtain ⟨c, hc, hck⟩ := List.mem_map.1 hk
      obtain ⟨L1, L2, rfl⟩ := List.append_of_mem hc
      rw [← hck] at hu
      exact unassigned_put_found ord h kv.2 u hu
    · have hno : ∀ x ∈ L, cmp x.key kv.1 ≠ 0 := by
        intro x hx hc
        rw [h.keys_eq] at hk
        exact hk ((ord.eq_iff _ _).1 hc ▸ List.mem_map_of_mem Cell.key hx)
      have hsame := unassigned_put_absent h kv.1 kv.2 hno
      obtain ⟨t, L', hput, hrep, hl, hkeys⟩ := put_unlocked_keys ord h hunl kv.1 kv.2
      obtain ⟨ih1, ih2⟩ := ih t L' hrep hl
      have hcond : ((rest.map Prod.fst).Nodup ∧ ∀ x ∈ rest, x.1 ∉ keys t) ↔
          (((kv :: rest).map Prod.fst).Nodup ∧ ∀ x ∈ kv :: rest, x.1 ∉ keys s) := by
        rw [List.map_cons, List.nodup_cons]
        constructor
        · rintro ⟨hnd, hall⟩
          refine ⟨⟨fun hin => ?_, hnd⟩, fun x hx => ?_⟩
          · obtain ⟨x, hx, hxk⟩ := List.mem_map.1 hin
            exact hall x hx ((hkeys x.1).2 (Or.inl hxk))
          · rcases List.mem_cons.1 hx with rfl | hx
            · exact hk
            · exact fun hin => hall x hx ((hkeys x.1).2 (Or.inr hin))
        · rintro ⟨⟨hnin, hnd⟩, hall⟩
          refine ⟨hnd, fun x hx hin => ?_⟩
          rcases (hkeys x.1).1 hin with e | hin
          · exact hnin (e ▸ List.mem_map_of_mem Prod.fst hx)
          · exact hall x (List.mem_cons_of_mem _ hx) hin
      have e1 : Unassigned.putAll cmp (kv :: rest) s = Unassigned.putAll cmp rest t := by
        show (Unassigned.put cmp s kv.1 kv.2 >>= fun t => Unassigned.putAll cmp rest t) = _
        rw [hsame, hput]
        rfl
      have e2 : putAll cmp (kv :: rest) s = putAll cmp rest t := by
        show (put cmp s kv.1 kv.2 >>= fun t => putAll cmp rest t) = _
        rw [hput]
        rfl
      rw [e1, e2]
      exact ⟨fun hc => ih1 (hcond.2 hc), fun hc => ih2 (fun hc' => hc (hcond.1 hc'))⟩

/-- On the empty container built by the one-argument constructor a sequence of `put`
returns exactly when its keys are pairwise distinct, and then reaches the container
that it reaches from the one built by the two-argument constructor. -/
theorem unassigned_putAll_empty [DecidableEq T] {cmp : T → T → Int}
    (ord : StrictTotalOrder cmp) (kvs : List (T × U)) :
    ((kvs.map Prod.fst).Nodup →
        Unassigned.putAll cmp kvs Unassigned.empty = putAll cmp kvs (empty false)) ∧
      (¬(kvs.map Prod.fst).Nodup → ∀ t, Unassigned.putAll cmp kvs Unassigned.empty ≠ .ok t) := by
  obtain ⟨h1, h2⟩ := unassigned_putAll_spec ord kvs (empty false) [] (empty_rep cmp false) rfl
  have hnone : ∀ kv ∈ kvs, kv.1 ∉ keys (empty false : SimpleMap T U) := by
    intro kv _ hin
    rw [(empty_rep cmp false).keys_eq] at hin
    cases hin
  exact ⟨fun hnd => h1 ⟨hnd, hnone⟩, fun hnd => h2 (fun hc => hnd hc.1)⟩

/-- C11 (`put` keeps the map sorted whatever the insertion order), evaluated on the empty,
unlocked container built by the one-argument constructor `SimpleMap(compare)`, which
leaves the member `freeItem` unassigned.  After `put(1, 10)` the chain is `(1,10)`; the
following `put(1, 20)` finds key `1`, takes the replacement branch and there evaluates
`if (freeItem) freeItem(h->data)` on the unassigned member, so that no chain results,
where the chain `(1,20)` of size `1` is required.  Sequences with pairwise distinct keys,
like `10, 5, 20, 1, 15`, never take that branch and give the sorted chain; and on the
container built by the two-argument constructor the sequence `(1,10), (1,20)` gives
`(1,20)`. -/
theorem put_repeated_key_unassigned :
    (Unassigned.putAll intCmp [((1 : Int), (10 : Int))] Unassigned.empty).map toList =
        .ok [(1, 10)] ∧
      Unassigned.putAll intCmp [((1 : Int), (10 : Int)), (1, 20)] Unassigned.empty =
        .error .unassignedRead ∧
      (Unassigned.putAll intCmp [((10 : Int), (100 : Int)), (5, 50), (20, 200), (1, 10),
          (15, 150)] Unassigned.empty).map toList =
        .ok [(1, 10), (5, 50), (10, 100), (15, 150), (20, 200)] ∧
      (putAll intCmp [((1 : Int), (10 : Int)), (1, 20)] (empty false)).map
          (fun t => (toList t, size t)) = .ok ([(1, 20)], 1) ∧
      (putAll intCmp [((1 : Int), (10 : Int)), (1, 20)] (empty true)).map
          (fun t => (toList t, size t, t.freed)) = .ok ([(1, 20)], 1, [10]) :=
  ⟨rfl, rfl, rfl, rfl, rfl⟩

end SimpleMap
